import Mathlib

/-!
# Sketch paths of dilay: a shallow embedding of `lib/src/sketch/path.cpp`

The file embeds `SketchPath::Impl` (an ordered sequence of spheres together
with a cached bounding box) and its operations `resetMinMax`, `reset`,
`setMinMax`, `isEmpty`, `aabox`, `addSphere`, `intersects`, `mirror` and
`smooth`.

Modelling conventions.

* Scalars (`float`) are exact rationals: rounding, infinities and NaN are not
  modelled.  The finite single-precision values are the rationals between
  `floatLowest` and `floatMax`.
* `glm::vec3` is a record of three scalars; `glm::min` and `glm::max` act
  componentwise with the comparisons glm uses.
* `unsigned int` values are natural numbers, reduced modulo `2 ^ 32` where the
  source computes with them (`u32`, `sub32`, `add32`).  Statements that depend
  on the index sum `i + hW` or on the divisors `2 * hW + 1 + n` are made for
  sequences of fewer than `2 ^ 31` spheres, the range in which these do not
  wrap around.
* `std::vector::at` is a checked read: an index outside the sequence throws
  `std::out_of_range`, modelled by `none`.  What a throwing call of `smooth`
  leaves in the object is described by `smoothLeft`.
* `assert` is a checked precondition: a failing assertion is modelled by `none`.
* The geometric primitives the path calls but does not define (sphere/sphere,
  ray/box and ray/sphere tests, `PrimRay::pointAt`, `glm::normalize`,
  `PrimPlane::distance`, `PrimPlane::mirror`, `Util::epsilon`) are the fields
  of a parameter record `Prims`.
-/

namespace Dilay

/-! ## Scalars and vectors -/

/-- Value of `std::numeric_limits <float>::max ()`: `2 ^ 128 - 2 ^ 104`. -/
def floatMax : ℚ := 340282346638528859811704183484516925440

/-- Value of `std::numeric_limits <float>::lowest ()`: the negation of `floatMax`. -/
def floatLowest : ℚ := -floatMax

/-- Scalar `glm::min (x, y)`, which glm computes as `(y < x) ? y : x`. -/
def glmMin (x y : ℚ) : ℚ := if y < x then y else x

/-- Scalar `glm::max (x, y)`, which glm computes as `(x < y) ? y : x`. -/
def glmMax (x y : ℚ) : ℚ := if x < y then y else x

/-- Record `glm::vec3`. -/
structure Vec3 where
  x : ℚ
  y : ℚ
  z : ℚ
deriving DecidableEq, Repr

namespace Vec3

/-- Constructor `glm::vec3 (s)`: the same scalar on every axis. -/
def splat (s : ℚ) : Vec3 := ⟨s, s, s⟩

/-- Componentwise sum. -/
def add (a b : Vec3) : Vec3 := ⟨a.x + b.x, a.y + b.y, a.z + b.z⟩

/-- Componentwise difference. -/
def sub (a b : Vec3) : Vec3 := ⟨a.x - b.x, a.y - b.y, a.z - b.z⟩

/-- Division of every component by a scalar. -/
def divScalar (a : Vec3) (d : ℚ) : Vec3 := ⟨a.x / d, a.y / d, a.z / d⟩

/-- Componentwise `glm::min`. -/
def min (a b : Vec3) : Vec3 := ⟨glmMin a.x b.x, glmMin a.y b.y, glmMin a.z b.z⟩

/-- Componentwise `glm::max`. -/
def max (a b : Vec3) : Vec3 := ⟨glmMax a.x b.x, glmMax a.y b.y, glmMax a.z b.z⟩

/-- Componentwise order: every component of `a` is at most that of `b`. -/
def le (a b : Vec3) : Prop := a.x ≤ b.x ∧ a.y ≤ b.y ∧ a.z ≤ b.z

instance (a b : Vec3) : Decidable (le a b) := by
  unfold le
  exact inferInstance

end Vec3

/-! ## Primitives -/

/-- Record `PrimSphere`: a center and a radius. -/
structure PrimSphere where
  center : Vec3
  radius : ℚ
deriving DecidableEq, Repr

/-- Record `PrimAABox` as built by `PrimAABox (minimum, maximum)`. -/
structure PrimAABox where
  minimum : Vec3
  maximum : Vec3
deriving DecidableEq, Repr

/-- Record `PrimRay`: origin and direction. -/
structure PrimRay where
  origin : Vec3
  direction : Vec3
deriving DecidableEq, Repr

/-- Record `PrimPlane`: a point and a normal (`primitive/plane.hpp`). -/
structure PrimPlane where
  point : Vec3
  normal : Vec3
deriving DecidableEq, Repr

/-- The primitive operations `path.cpp` calls and does not define. -/
structure Prims where
  /-- Test `IntersectionUtil::intersects (const PrimSphere&, const PrimSphere&)`. -/
  intersectsSphereSphere : PrimSphere → PrimSphere → Bool
  /-- Test `IntersectionUtil::intersects (const PrimRay&, const PrimAABox&)`. -/
  intersectsRayAABox : PrimRay → PrimAABox → Bool
  /-- Test `IntersectionUtil::intersects (const PrimRay&, const PrimSphere&, float*)`:
  `some t` when it returns true and stores `t`, `none` when it returns false. -/
  intersectsRaySphere : PrimRay → PrimSphere → Option ℚ
  /-- Method `PrimRay::pointAt`. -/
  pointAt : PrimRay → ℚ → Vec3
  /-- Function `glm::normalize`. -/
  normalize : Vec3 → Vec3
  /-- Method `PrimPlane::distance`. -/
  planeDistance : PrimPlane → Vec3 → ℚ
  /-- Method `PrimPlane::mirror`. -/
  planeMirror : PrimPlane → Vec3 → Vec3
  /-- Constant `Util::epsilon ()`. -/
  epsilon : ℚ

/-! ## Unsigned 32-bit arithmetic -/

/-- Reduction of a natural number to an `unsigned int`. -/
def u32 (n : Nat) : Nat := n % 4294967296

/-- Subtraction of `unsigned int` values, wrapping modulo `2 ^ 32`. -/
def sub32 (a b : Nat) : Nat := (a % 4294967296 + (4294967296 - b % 4294967296)) % 4294967296

/-- Addition of `unsigned int` values, wrapping modulo `2 ^ 32`. -/
def add32 (a b : Nat) : Nat := (a + b) % 4294967296

/-! ## The path -/

/-- State of `SketchPath::Impl`: the sphere sequence and the cached corners. -/
structure SketchPath where
  spheres : List PrimSphere
  minimum : Vec3
  maximum : Vec3
deriving DecidableEq, Repr

namespace SketchPath

/-- Method `resetMinMax`: both corners are set to the sentinel values. -/
def resetMinMax (p : SketchPath) : SketchPath :=
  { p with minimum := Vec3.splat floatMax, maximum := Vec3.splat floatLowest }

/-- Constructor `Impl (SketchPath*)`: no spheres, then `resetMinMax`. -/
def new : SketchPath :=
  resetMinMax { spheres := [], minimum := Vec3.splat 0, maximum := Vec3.splat 0 }

/-- Method `reset`: `resetMinMax`, then the sequence is cleared. -/
def reset (p : SketchPath) : SketchPath :=
  { resetMinMax p with spheres := [] }

/-- One iteration of the loop of `setMinMax`. -/
def setMinMaxStep (p : SketchPath) (s : PrimSphere) : SketchPath :=
  let p1 := { p with maximum := Vec3.max p.maximum (Vec3.add s.center (Vec3.splat s.radius)) }
  { p1 with minimum := Vec3.min p1.minimum (Vec3.sub s.center (Vec3.splat s.radius)) }

/-- Method `setMinMax`: `resetMinMax`, then one pass over all spheres. -/
def setMinMax (p : SketchPath) : SketchPath :=
  p.spheres.foldl setMinMaxStep (resetMinMax p)

/-- Method `isEmpty`. -/
def isEmpty (p : SketchPath) : Bool := p.spheres.isEmpty

/-- Method `aabox`: the assertion `isEmpty () == false`, then the box of the
cached corners. -/
def aabox (p : SketchPath) : Option PrimAABox :=
  if isEmpty p == false then some ⟨p.minimum, p.maximum⟩ else none

/-- Method `addSphere`. -/
def addSphere (p : SketchPath) (position : Vec3) (radius : ℚ) : SketchPath :=
  let p1 := { p with maximum := Vec3.max p.maximum (Vec3.add position (Vec3.splat radius)) }
  let p2 := { p1 with minimum := Vec3.min p1.minimum (Vec3.sub position (Vec3.splat radius)) }
  { p2 with spheres := p2.spheres ++ [⟨position, radius⟩] }

end SketchPath

/-! ## Ray intersection -/

/-- Modelled from the spec: the hit record an intersection accumulator holds.
The class `SketchPathIntersection` is declared in `sketch/path-intersection.hpp`,
outside `path.cpp`; the spec describes its content as
`(t, point, normal, owning-mesh-reference, owning-path-reference)`.  The two
references are identity handles, modelled as numbers. -/
structure Hit where
  distance : ℚ
  position : Vec3
  normal : Vec3
  mesh : Nat
  path : Nat
deriving DecidableEq, Repr

/-- Modelled from the spec: the accumulator `SketchPathIntersection`, whose
"no intersection yet" state is distinguishable from a real hit. -/
abbrev SketchPathIntersection := Option Hit

/-- Modelled from the spec: `SketchPathIntersection::isIntersection`, whether
the accumulator holds any intersection. -/
def SketchPathIntersection.isIntersection (a : SketchPathIntersection) : Bool := a.isSome

/-- Modelled from the spec: `SketchPathIntersection::update`, which is fed a
hit and "keeps only the globally smallest `t` seen": the new hit replaces the
held one when the accumulator is empty or the new parameter is smaller. -/
def SketchPathIntersection.update (a : SketchPathIntersection) (h : Hit) :
    SketchPathIntersection :=
  match a with
  | none => some h
  | some old => if h.distance < old.distance then some h else some old

namespace SketchPath

/-- Body of the loop of `intersects` for one sphere. -/
def intersectsStep (P : Prims) (ray : PrimRay) (mesh self : Nat)
    (a : SketchPathIntersection) (s : PrimSphere) : SketchPathIntersection :=
  match P.intersectsRaySphere ray s with
  | some t =>
      a.update ⟨t, P.pointAt ray t, P.normalize (Vec3.sub (P.pointAt ray t) s.center), mesh, self⟩
  | none => a

/-- Method `intersects`: the returned flag and the accumulator afterwards.
The arguments `mesh` and `self` are the handles of the owning mesh and of this
path. -/
def intersects (P : Prims) (p : SketchPath) (ray : PrimRay) (mesh self : Nat)
    (a : SketchPathIntersection) : Bool × SketchPathIntersection :=
  let a1 :=
    if P.intersectsRayAABox ray ⟨p.minimum, p.maximum⟩ then
      p.spheres.foldl (intersectsStep P ray mesh self) a
    else a
  (a1.isIntersection, a1)

/-! ## Mirror -/

/-- Body of the loop of `mirror` for one sphere of the old sequence, acting on
the pair (this path, mirrored path). -/
def mirrorStep (P : Prims) (mPlane : PrimPlane) (st : SketchPath × SketchPath)
    (s : PrimSphere) : SketchPath × SketchPath :=
  if P.planeDistance mPlane s.center > -P.epsilon then
    (addSphere st.1 s.center s.radius, addSphere st.2 (P.planeMirror mPlane s.center) s.radius)
  else st

/-- Method `mirror`: the path left behind and the returned mirrored path. -/
def mirror (P : Prims) (p : SketchPath) (mPlane : PrimPlane) : SketchPath × SketchPath :=
  let oldSpheres := p.spheres
  oldSpheres.foldl (mirrorStep P mPlane) (reset p, new)

/-! ## Smoothing -/

end SketchPath

/-- Enumeration `SketchPathSmoothEffect`. -/
inductive SketchPathSmoothEffect where
  | None
  | Embed
  | EmbedAndAdjust
  | Pinch
deriving DecidableEq, Repr

namespace SketchPath

/-- The effective half width `hW` that `smooth` computes at index `i`. -/
def halfWidthAt (numS halfWidth i : Nat) : Nat :=
  if i < halfWidth then i
  else if sub32 numS halfWidth ≤ i then sub32 (sub32 numS i) 1
  else halfWidth

/-- The window loop `for (j = ...; j <= i+hW; j++)` of `smooth` with `n`
iterations left, starting at `j`: each iteration reads `spheres.at (j)` and adds
its center and radius to the sums; `none` when a read is out of range. -/
def windowLoop (spheres : List PrimSphere) : Nat → Nat → Vec3 × ℚ → Option (Vec3 × ℚ)
  | _, 0, acc => some acc
  | j, n + 1, acc =>
      match spheres[j]? with
      | none => none
      | some s => windowLoop spheres (j + 1) n (Vec3.add acc.1 s.center, acc.2 + s.radius)

/-- The window sums of `smooth` at index `i`: `j` runs from `i - hW` to
`i + hW` (unsigned), starting from zero sums.  The iteration count is that of
the source for every sequence of fewer than `2 ^ 32` spheres, where the
unsigned counter `j` cannot wrap around before a read fails. -/
def windowSum (spheres : List PrimSphere) (i hW : Nat) : Option (Vec3 × ℚ) :=
  windowLoop spheres (sub32 i hW) (add32 i hW + 1 - sub32 i hW) (Vec3.splat 0, 0)

/-- The boundary block of `smooth` for the first end (`if (i < halfWidth)`),
acting on (center sum, radius sum, numAffectedCenter, numAffectedRadius). -/
def applyEnd (effect : SketchPathSmoothEffect) (nearest : Option PrimSphere)
    (st : Vec3 × ℚ × Nat × Nat) : Vec3 × ℚ × Nat × Nat :=
  let effectEmbeds :=
    effect = SketchPathSmoothEffect.Embed ∨ effect = SketchPathSmoothEffect.EmbedAndAdjust
  let st1 : Vec3 × ℚ × Nat × Nat :=
    match nearest with
    | some n =>
        if effectEmbeds then (Vec3.add st.1 n.center, st.2.1, add32 st.2.2.1 1, st.2.2.2)
        else st
    | none => st
  match nearest with
  | some n =>
      if effect = SketchPathSmoothEffect.EmbedAndAdjust then
        (st1.1, st1.2.1 + n.radius, st1.2.2.1, add32 st1.2.2.2 1)
      else if effect = SketchPathSmoothEffect.Pinch then
        (st1.1, st1.2.1, st1.2.2.1, add32 st1.2.2.2 1)
      else st1
  | none =>
      if effect = SketchPathSmoothEffect.Pinch then
        (st1.1, st1.2.1, st1.2.2.1, add32 st1.2.2.2 1)
      else st1

/-- The block `if (effect != SketchPathSmoothEffect::None) ...` of `smooth`. -/
def applyEffect (effect : SketchPathSmoothEffect) (nearestToFirst nearestToLast : Option PrimSphere)
    (numS halfWidth i : Nat) (st : Vec3 × ℚ × Nat × Nat) : Vec3 × ℚ × Nat × Nat :=
  if effect ≠ SketchPathSmoothEffect.None then
    let st1 := if i < halfWidth then applyEnd effect nearestToFirst st else st
    if sub32 numS halfWidth ≤ i then applyEnd effect nearestToLast st1 else st1
  else st

/-- Body of the outer loop of `smooth` at index `i`, on the current sequence. -/
def smoothStep (P : Prims) (range : PrimSphere) (halfWidth : Nat)
    (effect : SketchPathSmoothEffect) (nearestToFirst nearestToLast : Option PrimSphere)
    (numS : Nat) (spheres : List PrimSphere) (i : Nat) : Option (List PrimSphere) :=
  match spheres[i]? with
  | none => none
  | some si =>
      if P.intersectsSphereSphere range si then
        let hW := halfWidthAt numS halfWidth i
        match windowSum spheres i hW with
        | none => none
        | some (center, radius) =>
            let st := applyEffect effect nearestToFirst nearestToLast numS halfWidth i
              (center, radius, 0, 0)
            some (spheres.set i
              ⟨Vec3.divScalar st.1 ((u32 (2 * hW + 1 + st.2.2.1) : Nat) : ℚ),
               st.2.1 / ((u32 (2 * hW + 1 + st.2.2.2) : Nat) : ℚ)⟩)
      else some spheres

/-- The outer loop `for (i = ...; i < numS; i++)` of `smooth` with `k`
iterations left, at index `i`. -/
def smoothLoop (P : Prims) (range : PrimSphere) (halfWidth : Nat)
    (effect : SketchPathSmoothEffect) (nearestToFirst nearestToLast : Option PrimSphere)
    (numS : Nat) : Nat → Nat → List PrimSphere → Option (List PrimSphere)
  | _, 0, spheres => some spheres
  | i, k + 1, spheres =>
      match smoothStep P range halfWidth effect nearestToFirst nearestToLast numS spheres i with
      | none => none
      | some spheres1 =>
          smoothLoop P range halfWidth effect nearestToFirst nearestToLast numS (i + 1) k spheres1

/-- Method `smooth`: `none` when a checked read throws, otherwise the path
after the pass and the final `setMinMax`.  A null anchor pointer is `none`. -/
def smooth (P : Prims) (p : SketchPath) (range : PrimSphere) (halfWidth : Nat)
    (effect : SketchPathSmoothEffect) (nearestToFirst nearestToLast : Option PrimSphere) :
    Option SketchPath :=
  let numS := u32 p.spheres.length
  match smoothLoop P range halfWidth effect nearestToFirst nearestToLast numS 0 numS p.spheres with
  | none => none
  | some spheres1 => some (setMinMax { p with spheres := spheres1 })

/-- The outer loop of `smooth` as it leaves the sequence, with `k` iterations
left at index `i`: the sequence held when the loop stops, and whether it ran to
its end (`true`) or stopped at a checked read that threw (`false`).  The loop
writes into the sequence in place, so the writes of the iterations before the
throw stay; the sphere at the throwing index is not written. -/
def smoothLoopLeft (P : Prims) (range : PrimSphere) (halfWidth : Nat)
    (effect : SketchPathSmoothEffect) (nearestToFirst nearestToLast : Option PrimSphere)
    (numS : Nat) : Nat → Nat → List PrimSphere → List PrimSphere × Bool
  | _, 0, spheres => (spheres, true)
  | i, k + 1, spheres =>
      match smoothStep P range halfWidth effect nearestToFirst nearestToLast numS spheres i with
      | none => (spheres, false)
      | some spheres1 =>
          smoothLoopLeft P range halfWidth effect nearestToFirst nearestToLast numS (i + 1) k
            spheres1

/-- The path a call of `smooth` leaves behind, whether the call returns or
throws `std::out_of_range`: the sequence as the loop left it, and corners
recomputed by the final `setMinMax` only when the loop ran to its end (a throw
leaves `minimum` and `maximum` as they were). -/
def smoothLeft (P : Prims) (p : SketchPath) (range : PrimSphere) (halfWidth : Nat)
    (effect : SketchPathSmoothEffect) (nearestToFirst nearestToLast : Option PrimSphere) :
    SketchPath :=
  let numS := u32 p.spheres.length
  let r := smoothLoopLeft P range halfWidth effect nearestToFirst nearestToLast numS 0 numS
    p.spheres
  if r.2 then setMinMax { p with spheres := r.1 } else { p with spheres := r.1 }

end SketchPath

/-! ## A concrete choice of the primitives

The operations above are parametric in `Prims`.  The record below fixes exact
rational primitives so that the operations can be evaluated on examples: the
sphere/sphere and plane operations are the usual ones; the ray operations are
exact for rays that run along the positive y axis through a sphere's center. -/

/-- Dot product. -/
def Vec3.dot (a b : Vec3) : ℚ := a.x * b.x + a.y * b.y + a.z * b.z

/-- Multiplication of every component by a scalar. -/
def Vec3.scale (a : Vec3) (k : ℚ) : Vec3 := ⟨a.x * k, a.y * k, a.z * k⟩

/-- Exact rational primitives for evaluating the path operations on examples. -/
def samplePrims : Prims where
  intersectsSphereSphere a b :=
    decide (Vec3.dot (Vec3.sub a.center b.center) (Vec3.sub a.center b.center)
      ≤ (a.radius + b.radius) * (a.radius + b.radius))
  intersectsRayAABox r b :=
    decide (b.minimum.x ≤ r.origin.x ∧ r.origin.x ≤ b.maximum.x
      ∧ b.minimum.z ≤ r.origin.z ∧ r.origin.z ≤ b.maximum.z ∧ r.origin.y ≤ b.maximum.y)
  intersectsRaySphere r s :=
    if r.origin.x = s.center.x ∧ r.origin.z = s.center.z ∧ r.origin.y ≤ s.center.y - s.radius
    then some (s.center.y - s.radius - r.origin.y) else none
  pointAt r t := Vec3.add r.origin (Vec3.scale r.direction t)
  normalize v := v
  planeDistance pl v := Vec3.dot pl.normal (Vec3.sub v pl.point)
  planeMirror pl v :=
    Vec3.sub v (Vec3.scale pl.normal (2 * Vec3.dot pl.normal (Vec3.sub v pl.point)))
  epsilon := 1 / 10000

/-- The sphere with center `(x, 0, 0)` and radius `r`. -/
def sphereOnX (x r : ℚ) : PrimSphere := ⟨⟨x, 0, 0⟩, r⟩

/-- The path built by `addSphere` from a list of spheres, starting from a
fresh path. -/
def pathOf (l : List PrimSphere) : SketchPath :=
  l.foldl (fun p s => SketchPath.addSphere p s.center s.radius) SketchPath.new

/-! ## Spec-side notions -/

/-- Spec-side reading of "the scalar is +∞": it lies above every finite
single-precision value, the largest of which is `floatMax`. -/
def isPosInfinity (v : ℚ) : Prop := floatMax < v

/-- Spec-side reading of "the scalar is −∞": it lies below every finite
single-precision value, the smallest of which is `floatLowest`. -/
def isNegInfinity (v : ℚ) : Prop := v < floatLowest

/-- Spec-side minimum of `f` over the non-empty sequence `s :: l`. -/
def minOver (f : PrimSphere → ℚ) : PrimSphere → List PrimSphere → ℚ
  | s, [] => f s
  | s, t :: l => min (f s) (minOver f t l)

/-- Spec-side maximum of `f` over the non-empty sequence `s :: l`. -/
def maxOver (f : PrimSphere → ℚ) : PrimSphere → List PrimSphere → ℚ
  | s, [] => f s
  | s, t :: l => max (f s) (maxOver f t l)

/-- Spec-side tight lower corner of `s :: l`: the componentwise minimum of
center − radius over all spheres. -/
def lowerCorner (s : PrimSphere) (l : List PrimSphere) : Vec3 :=
  ⟨minOver (fun a => a.center.x - a.radius) s l,
   minOver (fun a => a.center.y - a.radius) s l,
   minOver (fun a => a.center.z - a.radius) s l⟩

/-- Spec-side tight upper corner of `s :: l`: the componentwise maximum of
center + radius over all spheres. -/
def upperCorner (s : PrimSphere) (l : List PrimSphere) : Vec3 :=
  ⟨maxOver (fun a => a.center.x + a.radius) s l,
   maxOver (fun a => a.center.y + a.radius) s l,
   maxOver (fun a => a.center.z + a.radius) s l⟩

/-- A sphere whose extents stay on the finite side of the sentinels: on every
axis center − radius is at most `floatMax` and center + radius is at least
`floatLowest`.  Every sphere with finite center and radius ≥ 0 is of this kind. -/
def WithinSentinels (s : PrimSphere) : Prop :=
  (s.center.x - s.radius ≤ floatMax ∧ s.center.y - s.radius ≤ floatMax
    ∧ s.center.z - s.radius ≤ floatMax)
  ∧ (floatLowest ≤ s.center.x + s.radius ∧ floatLowest ≤ s.center.y + s.radius
    ∧ floatLowest ≤ s.center.z + s.radius)

/-- The paths reachable from a freshly constructed path by `addSphere`,
`smooth` and `mirror` calls; `mirror` contributes both the path it leaves
behind and the path it returns. -/
inductive Reachable (P : Prims) : SketchPath → Prop
  | fresh : Reachable P SketchPath.new
  | addSphere (p : SketchPath) (position : Vec3) (radius : ℚ) :
      Reachable P p → Reachable P (SketchPath.addSphere p position radius)
  | smooth (p q : SketchPath) (range : PrimSphere) (halfWidth : Nat)
      (effect : SketchPathSmoothEffect) (nearestToFirst nearestToLast : Option PrimSphere) :
      Reachable P p →
      SketchPath.smooth P p range halfWidth effect nearestToFirst nearestToLast = some q →
      Reachable P q
  | mirrorKept (p : SketchPath) (mPlane : PrimPlane) :
      Reachable P p → Reachable P (SketchPath.mirror P p mPlane).1
  | mirrorReturned (p : SketchPath) (mPlane : PrimPlane) :
      Reachable P p → Reachable P (SketchPath.mirror P p mPlane).2

/-- The corners `setMinMax` computes for a sequence: the fold of its loop
from the sentinels, as a pair (minimum, maximum). -/
def boundsOf (l : List PrimSphere) : Vec3 × Vec3 :=
  l.foldl (fun b s => (Vec3.min b.1 (Vec3.sub s.center (Vec3.splat s.radius)),
                       Vec3.max b.2 (Vec3.add s.center (Vec3.splat s.radius))))
    (Vec3.splat floatMax, Vec3.splat floatLowest)

/-! ## Example inputs -/

/-- The path holding the single sphere of center `(0, 0, 0)` and radius 1. -/
def unitPath : SketchPath := pathOf [sphereOnX 0 1]

/-- The ray from `(0, -5, 0)` in direction `(0, 1, 0)`; it meets `unitPath`. -/
def rayTowardsUnit : PrimRay := ⟨⟨0, -5, 0⟩, ⟨0, 1, 0⟩⟩

/-- The ray from `(5, -5, 0)` in direction `(0, 1, 0)`; it passes `unitPath` by. -/
def rayPastUnit : PrimRay := ⟨⟨5, -5, 0⟩, ⟨0, 1, 0⟩⟩

/-- A hit at parameter 2 found earlier by another path (handle 8) of mesh 3. -/
def priorHit : Hit := ⟨2, ⟨5, -3, 0⟩, ⟨0, -1, 0⟩, 3, 8⟩

/-- A sphere around the origin large enough to intersect every example sphere. -/
def wideRange : PrimSphere := sphereOnX 0 100

/-- A sphere around the origin of radius 1/2: it intersects the unit spheres
centered at `(0, 0, 0)` and `(1, 0, 0)` and no unit sphere further along x. -/
def narrowRange : PrimSphere := sphereOnX 0 (1 / 2)

/-- Three unit spheres on the x axis, at 0, 1 and 5. -/
def bentPath : SketchPath := pathOf [sphereOnX 0 1, sphereOnX 1 1, sphereOnX 5 1]

/-- Two unit spheres on the x axis, at 0 and 1. -/
def shortPath : SketchPath := pathOf [sphereOnX 0 1, sphereOnX 1 1]

/-- Scenario A: unit spheres at `(0,0,0)`, `(1,0,0)` and `(2,0,0)`. -/
def scenarioAPath : SketchPath := pathOf [sphereOnX 0 1, sphereOnX 1 1, sphereOnX 2 1]

/-- A sphere as the data model has it: radius ≥ 0 and a center whose
components are finite single-precision values. -/
def ValidSphere (s : PrimSphere) : Prop :=
  0 ≤ s.radius
  ∧ (floatLowest ≤ s.center.x ∧ s.center.x ≤ floatMax)
  ∧ (floatLowest ≤ s.center.y ∧ s.center.y ≤ floatMax)
  ∧ (floatLowest ≤ s.center.z ∧ s.center.z ≤ floatMax)

/-- Two unit spheres on the y axis, the far one at `(0, 3, 0)` first, the near
one at `(0, 0, 0)` second. -/
def stackedPath : SketchPath := pathOf [⟨⟨0, 3, 0⟩, 1⟩, ⟨⟨0, 0, 0⟩, 1⟩]

/-- A hit at parameter 5 found earlier by another path (handle 9) of mesh 2. -/
def earlierHit : Hit := ⟨5, ⟨7, 0, 0⟩, ⟨1, 0, 0⟩, 2, 9⟩

/-- The stored corners agree with what `setMinMax` would recompute. -/
def Cached (p : SketchPath) : Prop :=
  p.minimum = (boundsOf p.spheres).1 ∧ p.maximum = (boundsOf p.spheres).2

/-! ## Spec-side notions for smoothing -/

/-- The sphere at index `j` of a sequence (a zero sphere outside the sequence). -/
def sphereAt (spheres : List PrimSphere) (j : Nat) : PrimSphere :=
  spheres.getD j ⟨Vec3.splat 0, 0⟩

/-- Spec-side sum of `f` over the `n` consecutive indices starting at `j`. -/
def sumOver (f : Nat → ℚ) : Nat → Nat → ℚ
  | _, 0 => 0
  | j, n + 1 => f j + sumOver f (j + 1) n

/-- The sums of the centers and of the radii of the `n` spheres from index
`lo` on, with both affected counts at zero: the state of `smooth` after its
window loop. -/
def windowTotals (spheres : List PrimSphere) (lo n : Nat) : Vec3 × ℚ × Nat × Nat :=
  (⟨sumOver (fun t => (sphereAt spheres t).center.x) lo n,
    sumOver (fun t => (sphereAt spheres t).center.y) lo n,
    sumOver (fun t => (sphereAt spheres t).center.z) lo n⟩,
   sumOver (fun t => (sphereAt spheres t).radius) lo n, 0, 0)

/-- Spec-side arithmetic mean of `f` over the `n` consecutive indices starting
at `lo`. -/
def meanOver (f : Nat → ℚ) (lo n : Nat) : ℚ := sumOver f lo n / (n : ℚ)

/-- Spec-side mean sphere over the window `[lo, lo + n)`: the arithmetic means
of the centers and of the radii of the spheres `vals j`. -/
def meanSphere (vals : Nat → PrimSphere) (lo n : Nat) : PrimSphere :=
  ⟨⟨meanOver (fun j => (vals j).center.x) lo n, meanOver (fun j => (vals j).center.y) lo n,
    meanOver (fun j => (vals j).center.z) lo n⟩,
   meanOver (fun j => (vals j).radius) lo n⟩

/-- Spec-side: the values held in the sequence when the pass reaches index `i`,
namely the values after the call at indices below `i` and the values before
the call from `i` on. -/
def heldAt (before after : List PrimSphere) (i j : Nat) : PrimSphere :=
  if j < i then sphereAt after j else sphereAt before j

/-- Spec-side: `n` spheres of radius `r` whose centers are equally spaced along
a line, `center_j = a + j · d`. -/
def lineSpheres (a d : Vec3) (r : ℚ) (n : Nat) : List PrimSphere :=
  (List.range n).map (fun (j : Nat) => ⟨Vec3.add a (Vec3.scale d (j : ℚ)), r⟩)

/-- The plane through the origin with normal `(1, 0, 0)`. -/
def planeX : PrimPlane := ⟨⟨0, 0, 0⟩, ⟨1, 0, 0⟩⟩

/-- Unit spheres at x = 0 (on `planeX`), x = 2 and x = -3. -/
def acrossPath : SketchPath := pathOf [sphereOnX 0 1, sphereOnX 2 1, sphereOnX (-3) 1]

/-- Scenario D: five unit spheres equally spaced along the x axis. -/
def scenarioDPath : SketchPath := pathOf (lineSpheres ⟨0, 0, 0⟩ ⟨1, 0, 0⟩ 1 5)

/-- Four unit spheres on the x axis at 0, 3, 0 and 0: a path with a kink. -/
def kinkPath : SketchPath :=
  pathOf [sphereOnX 0 1, sphereOnX 3 1, sphereOnX 0 1, sphereOnX 0 1]

/-- An anchor sphere before the first end: unit sphere at x = 3. -/
def anchorFirst : PrimSphere := sphereOnX 3 1

/-- An anchor sphere after the last end: unit sphere at x = 6. -/
def anchorLast : PrimSphere := sphereOnX 6 1

/-- A sphere lies inside the box of corners `m` and `M`: on every axis
`m ≤ center − radius` and `center + radius ≤ M`. -/
def InBox (m M : Vec3) (s : PrimSphere) : Prop :=
  Vec3.le m (Vec3.sub s.center (Vec3.splat s.radius))
  ∧ Vec3.le (Vec3.add s.center (Vec3.splat s.radius)) M

/-! ## Basic facts -/

theorem glmMin_eq_min (x y : ℚ) : glmMin x y = min x y := by
  unfold glmMin
  split
  · exact (min_eq_right (le_of_lt (by assumption))).symm
  · exact (min_eq_left (not_lt.mp (by assumption))).symm

theorem glmMax_eq_max (x y : ℚ) : glmMax x y = max x y := by
  unfold glmMax
  split
  · exact (max_eq_right (le_of_lt (by assumption))).symm
  · exact (max_eq_left (not_lt.mp (by assumption))).symm

namespace SketchPath

@[simp] theorem addSphere_spheres (p : SketchPath) (c : Vec3) (r : ℚ) :
    (addSphere p c r).spheres = p.spheres ++ [⟨c, r⟩] := rfl

@[simp] theorem addSphere_minimum (p : SketchPath) (c : Vec3) (r : ℚ) :
    (addSphere p c r).minimum = Vec3.min p.minimum (Vec3.sub c (Vec3.splat r)) := rfl

@[simp] theorem addSphere_maximum (p : SketchPath) (c : Vec3) (r : ℚ) :
    (addSphere p c r).maximum = Vec3.max p.maximum (Vec3.add c (Vec3.splat r)) := rfl

@[simp] theorem new_spheres : new.spheres = [] := rfl

@[simp] theorem reset_spheres (p : SketchPath) : (reset p).spheres = [] := rfl

end SketchPath

end Dilay

namespace Dilay

open SketchPath

/-! ## Mirror: the two sphere sequences -/

theorem mirror_foldl_spheres (P : Prims) (mPlane : PrimPlane) (l : List PrimSphere)
    (st : SketchPath × SketchPath) :
    (l.foldl (mirrorStep P mPlane) st).1.spheres
        = st.1.spheres ++ l.filter (fun s => decide (P.planeDistance mPlane s.center > -P.epsilon))
    ∧ (l.foldl (mirrorStep P mPlane) st).2.spheres
        = st.2.spheres ++ (l.filter (fun s => decide (P.planeDistance mPlane s.center > -P.epsilon))).map
            (fun s => ⟨P.planeMirror mPlane s.center, s.radius⟩) := by
  induction l generalizing st with
  | nil => simp
  | cons s l ih =>
    rw [List.foldl_cons]
    by_cases h : P.planeDistance mPlane s.center > -P.epsilon
    · have hs : mirrorStep P mPlane st s
          = (addSphere st.1 s.center s.radius,
             addSphere st.2 (P.planeMirror mPlane s.center) s.radius) := by
        simp [mirrorStep, h]
      rw [hs]
      obtain ⟨h1, h2⟩ := ih (addSphere st.1 s.center s.radius,
             addSphere st.2 (P.planeMirror mPlane s.center) s.radius)
      simp only [addSphere_spheres] at h1 h2
      constructor
      · rw [h1]; simp [List.filter_cons, h]
      · rw [h2]; simp [List.filter_cons, h]
    · have hs : mirrorStep P mPlane st s = st := by
        simp [mirrorStep, h]
      rw [hs]
      obtain ⟨h1, h2⟩ := ih st
      constructor
      · rw [h1]; simp [List.filter_cons, h]
      · rw [h2]; simp [List.filter_cons, h]

/-- C3: `mirror` leaves in the path exactly the spheres whose center passes the
test `distance (center) > -epsilon`, unchanged and in their original order, and
returns a path whose k-th sphere is the k-th kept sphere with its center
mirrored and its radius kept; a sphere failing the test is in neither path. -/
theorem mirror_partition (P : Prims) (p : SketchPath) (mPlane : PrimPlane) :
    (mirror P p mPlane).1.spheres
        = p.spheres.filter (fun s => decide (P.planeDistance mPlane s.center > -P.epsilon))
    ∧ (mirror P p mPlane).2.spheres
        = ((mirror P p mPlane).1.spheres).map
            (fun s => ⟨P.planeMirror mPlane s.center, s.radius⟩)
    ∧ (mirror P p mPlane).2.spheres.length = (mirror P p mPlane).1.spheres.length := by
  obtain ⟨h1, h2⟩ := mirror_foldl_spheres P mPlane p.spheres (reset p, new)
  have e1 : (mirror P p mPlane).1.spheres
        = p.spheres.filter (fun s => decide (P.planeDistance mPlane s.center > -P.epsilon)) := by
    simpa [mirror] using h1
  have e2 : (mirror P p mPlane).2.spheres
        = (p.spheres.filter (fun s => decide (P.planeDistance mPlane s.center > -P.epsilon))).map
            (fun s => ⟨P.planeMirror mPlane s.center, s.radius⟩) := by
    simpa [mirror] using h2
  refine ⟨e1, ?_, ?_⟩
  · rw [e2, e1]
  · rw [e2, e1, List.length_map]

/-! ## Empty state, `aabox` and `addSphere` -/

/-- C8 (as stated, refuted): the minimum of a freshly constructed path is the
finite value `floatMax` and its maximum is the finite value `floatLowest`;
neither is an infinity. -/
theorem fresh_sentinel_is_finite :
    new.minimum.x = floatMax ∧ ¬ isPosInfinity new.minimum.x
    ∧ new.maximum.x = floatLowest ∧ ¬ isNegInfinity new.maximum.x := by
  refine ⟨rfl, ?_, rfl, ?_⟩
  · show ¬ (floatMax < floatMax)
    exact lt_irrefl _
  · show ¬ (floatLowest < floatLowest)
    exact lt_irrefl _

/-- C8 (amended): a freshly constructed path and every path after `reset` have
no spheres, report `isEmpty`, and have minimum `floatMax` and maximum
`floatLowest` on every axis; `isEmpty` is true iff the sequence has zero
spheres. -/
theorem empty_state_sentinel (p : SketchPath) :
    (new.spheres = [] ∧ isEmpty new = true
      ∧ new.minimum = ⟨floatMax, floatMax, floatMax⟩
      ∧ new.maximum = ⟨floatLowest, floatLowest, floatLowest⟩)
    ∧ ((reset p).spheres = [] ∧ isEmpty (reset p) = true
      ∧ (reset p).minimum = ⟨floatMax, floatMax, floatMax⟩
      ∧ (reset p).maximum = ⟨floatLowest, floatLowest, floatLowest⟩)
    ∧ (isEmpty p = true ↔ p.spheres.length = 0) := by
  refine ⟨⟨rfl, rfl, rfl, rfl⟩, ⟨rfl, rfl, rfl, rfl⟩, ?_⟩
  simp [isEmpty, List.isEmpty_iff]

/-- C9: `aabox` fails iff the path is empty, and on a non-empty path it returns
the box of the cached minimum and maximum. -/
theorem aabox_fails_iff_empty (p : SketchPath) :
    (aabox p = none ↔ isEmpty p = true)
    ∧ (isEmpty p = false → aabox p = some ⟨p.minimum, p.maximum⟩) := by
  constructor
  · cases h : isEmpty p <;> simp [aabox, h]
  · intro h
    simp [aabox, h]

/-- C9 at a path of one sphere: `aabox` returns the cached corners. -/
theorem aabox_fails_iff_empty_witness :
    isEmpty (pathOf [sphereOnX 0 1]) = false
    ∧ aabox (pathOf [sphereOnX 0 1])
        = some ⟨(pathOf [sphereOnX 0 1]).minimum, (pathOf [sphereOnX 0 1]).maximum⟩ :=
  ⟨rfl, (aabox_fails_iff_empty (pathOf [sphereOnX 0 1])).2 rfl⟩

/-- C10: after `addSphere` the new minimum is componentwise at most the old
one, the new maximum is componentwise at least the old one, and the sequence
is the old one with the new sphere appended last. -/
theorem addSphere_monotone (p : SketchPath) (center : Vec3) (radius : ℚ) :
    Vec3.le (addSphere p center radius).minimum p.minimum
    ∧ Vec3.le p.maximum (addSphere p center radius).maximum
    ∧ (addSphere p center radius).spheres = p.spheres ++ [⟨center, radius⟩] := by
  refine ⟨?_, ?_, rfl⟩
  · simp only [addSphere_minimum, Vec3.le, Vec3.min, glmMin_eq_min]
    exact ⟨min_le_left _ _, min_le_left _ _, min_le_left _ _⟩
  · simp only [addSphere_maximum, Vec3.le, Vec3.max, glmMax_eq_max]
    exact ⟨le_max_left _ _, le_max_left _ _, le_max_left _ _⟩

end Dilay

namespace Dilay

open SketchPath

/-! ## Ray intersection -/

theorem update_le_new (a : SketchPathIntersection) (h : Hit) :
    ∃ g, a.update h = some g ∧ g.distance ≤ h.distance := by
  cases a with
  | none => exact ⟨h, rfl, le_refl _⟩
  | some old =>
    by_cases c : h.distance < old.distance
    · exact ⟨h, by simp [SketchPathIntersection.update, c], le_refl _⟩
    · exact ⟨old, by simp [SketchPathIntersection.update, c], not_lt.mp c⟩

theorem update_le_old (old h : Hit) :
    ∃ g, SketchPathIntersection.update (some old) h = some g ∧ g.distance ≤ old.distance := by
  by_cases c : h.distance < old.distance
  · exact ⟨h, by simp [SketchPathIntersection.update, c], le_of_lt c⟩
  · exact ⟨old, by simp [SketchPathIntersection.update, c], le_refl _⟩

theorem update_cases (a : SketchPathIntersection) (h : Hit) :
    a.update h = some h ∨ a.update h = a := by
  cases a with
  | none => exact Or.inl rfl
  | some old =>
    by_cases c : h.distance < old.distance
    · exact Or.inl (by simp [SketchPathIntersection.update, c])
    · exact Or.inr (by simp [SketchPathIntersection.update, c])

theorem intersectsStep_le_old (P : Prims) (ray : PrimRay) (mesh self : Nat) (old : Hit)
    (s : PrimSphere) :
    ∃ g, intersectsStep P ray mesh self (some old) s = some g ∧ g.distance ≤ old.distance := by
  unfold intersectsStep
  cases P.intersectsRaySphere ray s with
  | none => exact ⟨old, rfl, le_refl _⟩
  | some t => exact update_le_old old _

/-- A held hit is only ever replaced by a hit with a parameter at most as large. -/
theorem intersects_foldl_le_old (P : Prims) (ray : PrimRay) (mesh self : Nat)
    (l : List PrimSphere) (old : Hit) :
    ∃ g, l.foldl (intersectsStep P ray mesh self) (some old) = some g
      ∧ g.distance ≤ old.distance := by
  induction l generalizing old with
  | nil => exact ⟨old, rfl, le_refl _⟩
  | cons s l ih =>
    obtain ⟨g1, e1, le1⟩ := intersectsStep_le_old P ray mesh self old s
    obtain ⟨g, e, le⟩ := ih g1
    exact ⟨g, by rw [List.foldl_cons, e1, e], le_trans le le1⟩

/-- Every sphere of the sequence the ray intersects bounds the final parameter. -/
theorem intersects_foldl_le_sphere (P : Prims) (ray : PrimRay) (mesh self : Nat)
    (l : List PrimSphere) (a : SketchPathIntersection) (s : PrimSphere) (t : ℚ)
    (hs : s ∈ l) (ht : P.intersectsRaySphere ray s = some t) :
    ∃ g, l.foldl (intersectsStep P ray mesh self) a = some g ∧ g.distance ≤ t := by
  induction l generalizing a with
  | nil => cases hs
  | cons s0 l ih =>
    rw [List.foldl_cons]
    rcases List.mem_cons.mp hs with h0 | h1
    · subst h0
      obtain ⟨g1, e1, le1⟩ := update_le_new a
        ⟨t, P.pointAt ray t, P.normalize (Vec3.sub (P.pointAt ray t) s.center), mesh, self⟩
      have hstep : intersectsStep P ray mesh self a s = some g1 := by
        simp only [intersectsStep, ht]
        exact e1
      obtain ⟨g, e, le⟩ := intersects_foldl_le_old P ray mesh self l g1
      exact ⟨g, by rw [hstep, e], le_trans le le1⟩
    · exact ih _ h1

/-- The hit held at the end is the prior hit or the hit of a sphere of the
sequence, recorded at `ray.pointAt (t)` with the normal, mesh and path the
loop passes. -/
theorem intersects_foldl_origin (P : Prims) (ray : PrimRay) (mesh self : Nat)
    (l : List PrimSphere) (a : SketchPathIntersection) (g : Hit)
    (hg : l.foldl (intersectsStep P ray mesh self) a = some g) :
    a = some g ∨ ∃ s ∈ l, P.intersectsRaySphere ray s = some g.distance
      ∧ g = ⟨g.distance, P.pointAt ray g.distance,
              P.normalize (Vec3.sub (P.pointAt ray g.distance) s.center), mesh, self⟩ := by
  induction l generalizing a with
  | nil => exact Or.inl hg
  | cons s0 l ih =>
    rw [List.foldl_cons] at hg
    rcases ih _ hg with h1 | ⟨s, hs, h2, h3⟩
    · cases ht : P.intersectsRaySphere ray s0 with
      | none =>
        simp only [intersectsStep, ht] at h1
        exact Or.inl h1
      | some t =>
        simp only [intersectsStep, ht] at h1
        rcases update_cases a
          ⟨t, P.pointAt ray t, P.normalize (Vec3.sub (P.pointAt ray t) s0.center), mesh, self⟩
          with u | u
        · rw [u] at h1
          have hg2 := Option.some.inj h1
          right
          refine ⟨s0, List.mem_cons_self _ _, ?_, ?_⟩
          · rw [← hg2]; exact ht
          · rw [← hg2]
        · rw [u] at h1
          exact Or.inl h1
    · exact Or.inr ⟨s, List.mem_cons_of_mem _ hs, h2, h3⟩

/-- C6: when the ray intersects the path's box, every sphere of the sequence
is tested: afterwards the accumulator holds a hit whose parameter is at most
that of its prior hit and at most that of every sphere the ray intersects, the
held hit is the prior one or the hit of a sphere of the sequence at
`ray.pointAt (t)`, the accumulator is empty only if it was empty and the ray
intersects no sphere, and the returned flag tells whether it holds a hit. -/
theorem intersects_nearest (P : Prims) (p : SketchPath) (ray : PrimRay) (mesh self : Nat)
    (a : SketchPathIntersection)
    (hbox : P.intersectsRayAABox ray ⟨p.minimum, p.maximum⟩ = true) :
    (intersects P p ray mesh self a).1 = (intersects P p ray mesh self a).2.isSome
    ∧ (∀ old, a = some old →
        ∃ g, (intersects P p ray mesh self a).2 = some g ∧ g.distance ≤ old.distance)
    ∧ (∀ s t, s ∈ p.spheres → P.intersectsRaySphere ray s = some t →
        ∃ g, (intersects P p ray mesh self a).2 = some g ∧ g.distance ≤ t)
    ∧ (∀ g, (intersects P p ray mesh self a).2 = some g →
        a = some g ∨ ∃ s ∈ p.spheres, P.intersectsRaySphere ray s = some g.distance
          ∧ g = ⟨g.distance, P.pointAt ray g.distance,
                  P.normalize (Vec3.sub (P.pointAt ray g.distance) s.center), mesh, self⟩)
    ∧ ((intersects P p ray mesh self a).2 = none ↔
        a = none ∧ ∀ s ∈ p.spheres, P.intersectsRaySphere ray s = none) := by
  have e : (intersects P p ray mesh self a).2
      = p.spheres.foldl (intersectsStep P ray mesh self) a := by
    simp [intersects, hbox]
  refine ⟨rfl, ?_, ?_, ?_, ?_⟩
  · intro old ho
    rw [e, ho]
    exact intersects_foldl_le_old P ray mesh self p.spheres old
  · intro s t hs ht
    rw [e]
    exact intersects_foldl_le_sphere P ray mesh self p.spheres a s t hs ht
  · intro g hg
    rw [e] at hg
    exact intersects_foldl_origin P ray mesh self p.spheres a g hg
  · rw [e]
    constructor
    · intro hn
      constructor
      · cases a with
        | none => rfl
        | some old =>
          obtain ⟨g, hg, _⟩ := intersects_foldl_le_old P ray mesh self p.spheres old
          rw [hg] at hn
          cases hn
      · intro s hs
        cases ht : P.intersectsRaySphere ray s with
        | none => rfl
        | some t =>
          obtain ⟨g, hg, _⟩ := intersects_foldl_le_sphere P ray mesh self p.spheres a s t hs ht
          rw [hg] at hn
          cases hn
    · rintro ⟨ha, hall⟩
      cases hf : p.spheres.foldl (intersectsStep P ray mesh self) a with
      | none => rfl
      | some g =>
        rcases intersects_foldl_origin P ray mesh self p.spheres a g hf with h | ⟨s, hs, h, _⟩
        · rw [ha] at h
          cases h
        · rw [hall s hs] at h
          cases h

/-- C7 (amended): when the ray does not intersect the path's box, `intersects`
leaves the accumulator unchanged and returns whether the accumulator already
held a hit. -/
theorem intersects_box_miss (P : Prims) (p : SketchPath) (ray : PrimRay) (mesh self : Nat)
    (a : SketchPathIntersection)
    (hbox : P.intersectsRayAABox ray ⟨p.minimum, p.maximum⟩ = false) :
    intersects P p ray mesh self a = (a.isSome, a) := by
  simp [intersects, hbox, SketchPathIntersection.isIntersection]

end Dilay

namespace Dilay

open SketchPath

theorem unitPath_eq : unitPath = ⟨[sphereOnX 0 1], ⟨-1, -1, -1⟩, ⟨1, 1, 1⟩⟩ := by
  simp [unitPath, pathOf, sphereOnX, addSphere, new, resetMinMax, Vec3.min, Vec3.max, Vec3.add,
    Vec3.sub, Vec3.splat, glmMin, glmMax, floatMax, floatLowest]
  norm_num

theorem rayTowardsUnit_box :
    samplePrims.intersectsRayAABox rayTowardsUnit ⟨unitPath.minimum, unitPath.maximum⟩ = true := by
  rw [unitPath_eq]
  simp [samplePrims, rayTowardsUnit]
  norm_num

theorem rayPastUnit_box :
    samplePrims.intersectsRayAABox rayPastUnit ⟨unitPath.minimum, unitPath.maximum⟩ = false := by
  rw [unitPath_eq]
  simp [samplePrims, rayPastUnit]

theorem stackedPath_eq :
    stackedPath = ⟨[⟨⟨0, 3, 0⟩, 1⟩, ⟨⟨0, 0, 0⟩, 1⟩], ⟨-1, -1, -1⟩, ⟨1, 4, 1⟩⟩ := by
  simp [stackedPath, pathOf, addSphere, new, resetMinMax, Vec3.min, Vec3.max, Vec3.add,
    Vec3.sub, Vec3.splat, glmMin, glmMax, floatMax, floatLowest]
  norm_num

theorem stackedPath_spheres : stackedPath.spheres = [⟨⟨0, 3, 0⟩, 1⟩, ⟨⟨0, 0, 0⟩, 1⟩] := rfl

theorem rayTowardsUnit_stacked_box :
    samplePrims.intersectsRayAABox rayTowardsUnit ⟨stackedPath.minimum, stackedPath.maximum⟩
      = true := by
  rw [stackedPath_eq]
  simp [samplePrims, rayTowardsUnit]
  norm_num

/-- The ray from `(0, -5, 0)` along +y against the two stacked spheres, with an
accumulator that holds a hit at parameter 5: the first sphere of the sequence
is hit at parameter 7, the second at parameter 4, and the accumulator ends with
the hit at 4 on the second sphere. -/
theorem intersects_stacked :
    samplePrims.intersectsRaySphere rayTowardsUnit ⟨⟨0, 3, 0⟩, 1⟩ = some 7
    ∧ samplePrims.intersectsRaySphere rayTowardsUnit ⟨⟨0, 0, 0⟩, 1⟩ = some 4
    ∧ intersects samplePrims stackedPath rayTowardsUnit 3 8 (some earlierHit)
        = (true, some ⟨4, ⟨0, -1, 0⟩, ⟨0, -1, 0⟩, 3, 8⟩) := by
  refine ⟨?_, ?_, ?_⟩
  · simp [samplePrims, rayTowardsUnit]
    norm_num
  · simp [samplePrims, rayTowardsUnit]
    norm_num
  · rw [stackedPath_eq]
    simp [intersects, intersectsStep, samplePrims, rayTowardsUnit, earlierHit,
      SketchPathIntersection.update, SketchPathIntersection.isIntersection, Vec3.add, Vec3.sub,
      Vec3.scale]
    norm_num

/-- C6 on a path of two spheres, both met by the ray, with an accumulator that
already holds a hit at parameter 5: the first sphere is hit at 7, the second
at 4, and the accumulator ends with the hit at 4, below the prior hit and
below the hit of the first sphere. -/
theorem intersects_nearest_witness :
    samplePrims.intersectsRayAABox rayTowardsUnit ⟨stackedPath.minimum, stackedPath.maximum⟩
      = true
    ∧ intersects samplePrims stackedPath rayTowardsUnit 3 8 (some earlierHit)
        = (true, some ⟨4, ⟨0, -1, 0⟩, ⟨0, -1, 0⟩, 3, 8⟩)
    ∧ ((intersects samplePrims stackedPath rayTowardsUnit 3 8 (some earlierHit)).1
        = (intersects samplePrims stackedPath rayTowardsUnit 3 8 (some earlierHit)).2.isSome
      ∧ (∀ old, (some earlierHit : SketchPathIntersection) = some old →
        ∃ g, (intersects samplePrims stackedPath rayTowardsUnit 3 8 (some earlierHit)).2 = some g
          ∧ g.distance ≤ old.distance)
      ∧ (∀ s t, s ∈ stackedPath.spheres →
        samplePrims.intersectsRaySphere rayTowardsUnit s = some t →
        ∃ g, (intersects samplePrims stackedPath rayTowardsUnit 3 8 (some earlierHit)).2 = some g
          ∧ g.distance ≤ t)
      ∧ (∀ g, (intersects samplePrims stackedPath rayTowardsUnit 3 8 (some earlierHit)).2
          = some g →
        (some earlierHit : SketchPathIntersection) = some g
        ∨ ∃ s ∈ stackedPath.spheres,
            samplePrims.intersectsRaySphere rayTowardsUnit s = some g.distance
            ∧ g = ⟨g.distance, samplePrims.pointAt rayTowardsUnit g.distance,
                    samplePrims.normalize
                      (Vec3.sub (samplePrims.pointAt rayTowardsUnit g.distance) s.center), 3, 8⟩)
      ∧ ((intersects samplePrims stackedPath rayTowardsUnit 3 8 (some earlierHit)).2 = none ↔
        (some earlierHit : SketchPathIntersection) = none
        ∧ ∀ s ∈ stackedPath.spheres,
            samplePrims.intersectsRaySphere rayTowardsUnit s = none)) :=
  ⟨rayTowardsUnit_stacked_box, intersects_stacked.2.2,
   intersects_nearest samplePrims stackedPath rayTowardsUnit 3 8 (some earlierHit)
     rayTowardsUnit_stacked_box⟩

/-- Scenario B: the ray from `(0, -5, 0)` in direction `(0, 1, 0)` hits the
unit sphere at parameter 4, at the point `(0, -1, 0)` with normal `(0, -1, 0)`. -/
theorem scenarioB :
    intersects samplePrims unitPath rayTowardsUnit 3 8 none
      = (true, some ⟨4, ⟨0, -1, 0⟩, ⟨0, -1, 0⟩, 3, 8⟩) := by
  rw [unitPath_eq]
  simp [intersects, intersectsStep, samplePrims, rayTowardsUnit, sphereOnX,
    SketchPathIntersection.update, SketchPathIntersection.isIntersection, Vec3.add, Vec3.sub,
    Vec3.scale]
  norm_num

/-- C7 (as stated, refuted): the ray from `(5, -5, 0)` misses the box of the
unit path, yet with an accumulator that already holds a hit `intersects`
returns true. -/
theorem intersects_box_miss_returns_true :
    samplePrims.intersectsRayAABox rayPastUnit ⟨unitPath.minimum, unitPath.maximum⟩ = false
    ∧ (intersects samplePrims unitPath rayPastUnit 3 9 (some priorHit)).1 = true := by
  refine ⟨rayPastUnit_box, ?_⟩
  have h := rayPastUnit_box
  simp [intersects, h, SketchPathIntersection.isIntersection]

/-- C7 (amended) on the ray from `(5, -5, 0)` with an accumulator holding a hit. -/
theorem intersects_box_miss_witness :
    samplePrims.intersectsRayAABox rayPastUnit ⟨unitPath.minimum, unitPath.maximum⟩ = false
    ∧ intersects samplePrims unitPath rayPastUnit 3 9 (some priorHit)
        = ((some priorHit).isSome, some priorHit) :=
  ⟨rayPastUnit_box,
   intersects_box_miss samplePrims unitPath rayPastUnit 3 9 (some priorHit) rayPastUnit_box⟩

end Dilay

namespace Dilay

open SketchPath

/-! ## Smoothing -/

@[simp] theorem setMinMaxStep_spheres (p : SketchPath) (s : PrimSphere) :
    (setMinMaxStep p s).spheres = p.spheres := rfl

theorem setMinMax_foldl_spheres (l : List PrimSphere) (p : SketchPath) :
    (l.foldl setMinMaxStep p).spheres = p.spheres := by
  induction l generalizing p with
  | nil => rfl
  | cons s l ih => rw [List.foldl_cons, ih, setMinMaxStep_spheres]

@[simp] theorem setMinMax_spheres (p : SketchPath) : (setMinMax p).spheres = p.spheres := by
  unfold setMinMax
  rw [setMinMax_foldl_spheres]
  rfl

theorem smoothStep_cases (P : Prims) (range : PrimSphere) (halfWidth : Nat)
    (effect : SketchPathSmoothEffect) (nF nL : Option PrimSphere) (numS : Nat)
    (spheres out : List PrimSphere) (i : Nat)
    (h : smoothStep P range halfWidth effect nF nL numS spheres i = some out) :
    ∃ si, spheres[i]? = some si
      ∧ ((P.intersectsSphereSphere range si = false ∧ out = spheres)
        ∨ (P.intersectsSphereSphere range si = true ∧ ∃ v, out = spheres.set i v)) := by
  unfold smoothStep at h
  cases hi : spheres[i]? with
  | none => simp [hi] at h
  | some si =>
    refine ⟨si, rfl, ?_⟩
    simp only [hi] at h
    cases hr : P.intersectsSphereSphere range si with
    | false =>
      left
      simp only [hr] at h
      exact ⟨rfl, (Option.some.inj h).symm⟩
    | true =>
      right
      simp only [hr, if_true] at h
      cases hw : windowSum spheres i (halfWidthAt numS halfWidth i) with
      | none => simp [hw] at h
      | some cr =>
        simp only [hw] at h
        exact ⟨rfl, _, (Option.some.inj h).symm⟩

/-- Frame of the outer loop: running it from index `i` for `k` iterations
keeps the length, and keeps every sphere whose index lies outside
`[i, i + k)` or that does not intersect `range`. -/
theorem smoothLoop_frame (P : Prims) (range : PrimSphere) (halfWidth : Nat)
    (effect : SketchPathSmoothEffect) (nF nL : Option PrimSphere) (numS : Nat)
    (k i : Nat) (spheres out : List PrimSphere)
    (h : smoothLoop P range halfWidth effect nF nL numS i k spheres = some out) :
    out.length = spheres.length
    ∧ ∀ j s, spheres[j]? = some s →
        (j < i ∨ i + k ≤ j ∨ P.intersectsSphereSphere range s = false) →
        out[j]? = some s := by
  induction k generalizing i spheres with
  | zero =>
    simp only [smoothLoop] at h
    cases Option.some.inj h
    exact ⟨rfl, fun j s hj _ => hj⟩
  | succ k ih =>
    simp only [smoothLoop] at h
    cases hs : smoothStep P range halfWidth effect nF nL numS spheres i with
    | none => simp [hs] at h
    | some s1 =>
      simp only [hs] at h
      obtain ⟨hlen, hframe⟩ := ih (i + 1) s1 h
      obtain ⟨si, hsi, hc⟩ := smoothStep_cases P range halfWidth effect nF nL numS spheres s1 i hs
      rcases hc with ⟨hr, e⟩ | ⟨hr, v, e⟩
      · subst e
        refine ⟨hlen, ?_⟩
        intro j s hj hcond
        apply hframe j s hj
        rcases hcond with c | c | c
        · exact Or.inl (by omega)
        · exact Or.inr (Or.inl (by omega))
        · by_cases hji : j = i
          · exact Or.inl (by omega)
          · exact Or.inr (Or.inr c)
      · subst e
        refine ⟨by rw [hlen, List.length_set], ?_⟩
        intro j s hj hcond
        have hji : j ≠ i := by
          intro c
          subst c
          rw [hsi] at hj
          cases Option.some.inj hj
          rcases hcond with c | c | c
          · omega
          · omega
          · rw [hr] at c
            cases c
        have hj1 : (spheres.set i v)[j]? = some s := by
          rw [List.getElem?_set_ne (Ne.symm hji)]
          exact hj
        apply hframe j s hj1
        rcases hcond with c | c | c
        · exact Or.inl (by omega)
        · exact Or.inr (Or.inl (by omega))
        · exact Or.inr (Or.inr c)

/-- C4: when `smooth` completes, the number of spheres is unchanged and every
sphere that does not intersect `range` is at its index with the same center
and radius as before. -/
theorem smooth_frame (P : Prims) (p q : SketchPath) (range : PrimSphere) (halfWidth : Nat)
    (effect : SketchPathSmoothEffect) (nearestToFirst nearestToLast : Option PrimSphere)
    (h : smooth P p range halfWidth effect nearestToFirst nearestToLast = some q) :
    q.spheres.length = p.spheres.length
    ∧ ∀ (j : Nat) (s : PrimSphere), p.spheres[j]? = some s →
        P.intersectsSphereSphere range s = false → q.spheres[j]? = some s := by
  unfold smooth at h
  simp only at h
  cases hl : smoothLoop P range halfWidth effect nearestToFirst nearestToLast
      (u32 p.spheres.length) 0 (u32 p.spheres.length) p.spheres with
  | none => simp [hl] at h
  | some out =>
    simp only [hl] at h
    have hq := (Option.some.inj h).symm
    obtain ⟨hlen, hframe⟩ := smoothLoop_frame P range halfWidth effect nearestToFirst
      nearestToLast (u32 p.spheres.length) (u32 p.spheres.length) 0 p.spheres out hl
    subst hq
    simp only [setMinMax_spheres]
    exact ⟨hlen, fun j s hj hr => hframe j s hj (Or.inr (Or.inr hr))⟩

end Dilay

namespace Dilay

open SketchPath

theorem bentPath_spheres :
    bentPath.spheres = [sphereOnX 0 1, sphereOnX 1 1, sphereOnX 5 1] := rfl

theorem shortPath_spheres : shortPath.spheres = [sphereOnX 0 1, sphereOnX 1 1] := rfl

theorem smooth_bentPath_spheres :
    (smooth samplePrims bentPath narrowRange 1 SketchPathSmoothEffect.None none none).map
        (fun q => q.spheres)
      = some [sphereOnX 0 1, sphereOnX 2 1, sphereOnX 5 1] := by
  simp [smooth, bentPath_spheres, smoothLoop, smoothStep, windowSum, windowLoop, halfWidthAt,
    applyEffect, u32, sub32, add32, narrowRange, sphereOnX, samplePrims, Vec3.dot, Vec3.sub,
    Vec3.add, Vec3.splat, Vec3.divScalar]
  norm_num

end Dilay

namespace Dilay

open SketchPath

/-- C4 on three unit spheres at x = 0, 1, 5 with a range that intersects the
first two: the pass completes, moves the second sphere to x = 2 and keeps the
length and the third sphere. -/
theorem smooth_frame_witness :
    ∃ q, smooth samplePrims bentPath narrowRange 1 SketchPathSmoothEffect.None none none = some q
      ∧ q.spheres = [sphereOnX 0 1, sphereOnX 2 1, sphereOnX 5 1]
      ∧ (q.spheres.length = bentPath.spheres.length
        ∧ ∀ (j : Nat) (s : PrimSphere), bentPath.spheres[j]? = some s →
            samplePrims.intersectsSphereSphere narrowRange s = false →
            q.spheres[j]? = some s) := by
  have h := smooth_bentPath_spheres
  cases hq : smooth samplePrims bentPath narrowRange 1 SketchPathSmoothEffect.None none none with
  | none => rw [hq] at h; cases h
  | some q =>
    rw [hq] at h
    exact ⟨q, rfl, Option.some.inj h,
      smooth_frame samplePrims bentPath q narrowRange 1 SketchPathSmoothEffect.None none none hq⟩

/-- C2 (the code at the failing input): on two spheres with `halfWidth = 2`,
at index 1 the code takes `hW = 1` although `min (halfWidth, i, count − 1 − i)`
is 0; the window then reads index 2, the read is out of range and `smooth`
fails. -/
theorem smooth_window_out_of_range :
    halfWidthAt 2 2 1 = 1
    ∧ min 2 (min 1 (2 - 1 - 1)) = 0
    ∧ samplePrims.intersectsSphereSphere wideRange (sphereOnX 1 1) = true
    ∧ windowSum shortPath.spheres 1 (halfWidthAt 2 2 1) = none
    ∧ smooth samplePrims shortPath wideRange 2 SketchPathSmoothEffect.None none none = none := by
  refine ⟨by decide, by decide, ?_, ?_, ?_⟩
  · simp [samplePrims, wideRange, sphereOnX, Vec3.dot, Vec3.sub]
    norm_num
  · simp [shortPath_spheres, windowSum, windowLoop, halfWidthAt, sub32, add32]
  · simp [smooth, shortPath_spheres, smoothLoop, smoothStep, windowSum, windowLoop, halfWidthAt,
      applyEffect, u32, sub32, add32, wideRange, sphereOnX, samplePrims, Vec3.dot, Vec3.sub,
      Vec3.add, Vec3.splat, Vec3.divScalar]
    norm_num

/-! ### Effects without anchors -/

theorem applyEffect_embed_none (numS halfWidth i : Nat) (st : Vec3 × ℚ × Nat × Nat) :
    applyEffect SketchPathSmoothEffect.Embed none none numS halfWidth i st = st := by
  simp [applyEffect, applyEnd]

theorem applyEffect_embedAndAdjust_none (numS halfWidth i : Nat) (st : Vec3 × ℚ × Nat × Nat) :
    applyEffect SketchPathSmoothEffect.EmbedAndAdjust none none numS halfWidth i st = st := by
  simp [applyEffect, applyEnd]

theorem applyEffect_none (nF nL : Option PrimSphere) (numS halfWidth i : Nat)
    (st : Vec3 × ℚ × Nat × Nat) :
    applyEffect SketchPathSmoothEffect.None nF nL numS halfWidth i st = st := by
  simp [applyEffect]

/-- Two effect/anchor settings whose boundary blocks agree give the same pass. -/
theorem smoothLoop_congr (P : Prims) (range : PrimSphere) (halfWidth : Nat)
    (e1 e2 : SketchPathSmoothEffect) (nF1 nL1 nF2 nL2 : Option PrimSphere) (numS : Nat)
    (hE : ∀ i st, applyEffect e1 nF1 nL1 numS halfWidth i st
                = applyEffect e2 nF2 nL2 numS halfWidth i st)
    (k i : Nat) (spheres : List PrimSphere) :
    smoothLoop P range halfWidth e1 nF1 nL1 numS i k spheres
      = smoothLoop P range halfWidth e2 nF2 nL2 numS i k spheres := by
  induction k generalizing i spheres with
  | zero => rfl
  | succ k ih =>
    have hs : smoothStep P range halfWidth e1 nF1 nL1 numS spheres i
        = smoothStep P range halfWidth e2 nF2 nL2 numS spheres i := by
      simp only [smoothStep, hE]
    simp only [smoothLoop, hs]
    cases smoothStep P range halfWidth e2 nF2 nL2 numS spheres i with
    | none => rfl
    | some s1 => exact ih (i + 1) s1

/-- C5 (amended): with both anchors null, `smooth` with effect `Embed` and with
effect `EmbedAndAdjust` gives the same result as with effect `None`; the
boundary block of effect `Pinch` does not depend on the anchor: supplied or
not, it keeps both sums and the center count and raises the radius count by
one. -/
theorem smooth_embed_without_anchors (P : Prims) (p : SketchPath) (range : PrimSphere)
    (halfWidth : Nat) :
    smooth P p range halfWidth SketchPathSmoothEffect.Embed none none
      = smooth P p range halfWidth SketchPathSmoothEffect.None none none
    ∧ smooth P p range halfWidth SketchPathSmoothEffect.EmbedAndAdjust none none
      = smooth P p range halfWidth SketchPathSmoothEffect.None none none
    ∧ ∀ (nearest : Option PrimSphere) (st : Vec3 × ℚ × Nat × Nat),
        applyEnd SketchPathSmoothEffect.Pinch nearest st
          = (st.1, st.2.1, st.2.2.1, add32 st.2.2.2 1) := by
  refine ⟨?_, ?_, ?_⟩
  rotate_left 2
  · intro nearest st
    cases nearest <;> simp [applyEnd]
  · unfold smooth
    simp only
    rw [smoothLoop_congr P range halfWidth SketchPathSmoothEffect.Embed
      SketchPathSmoothEffect.None none none none none (u32 p.spheres.length)
      (fun i st => by rw [applyEffect_embed_none, applyEffect_none])]
  · unfold smooth
    simp only
    rw [smoothLoop_congr P range halfWidth SketchPathSmoothEffect.EmbedAndAdjust
      SketchPathSmoothEffect.None none none none none (u32 p.spheres.length)
      (fun i st => by rw [applyEffect_embedAndAdjust_none, applyEffect_none])]

theorem unitPath_spheres : unitPath.spheres = [sphereOnX 0 1] := rfl

/-- C5 (as stated, refuted): on the unit path with `halfWidth = 1` and both
anchors null, effect `Pinch` divides the radius by 3 where effect `None`
leaves it at 1. -/
theorem smooth_pinch_without_anchors_differs :
    (smooth samplePrims unitPath wideRange 1 SketchPathSmoothEffect.Pinch none none).map
        (fun q => q.spheres) = some [sphereOnX 0 (1 / 3)]
    ∧ (smooth samplePrims unitPath wideRange 1 SketchPathSmoothEffect.None none none).map
        (fun q => q.spheres) = some [sphereOnX 0 1]
    ∧ smooth samplePrims unitPath wideRange 1 SketchPathSmoothEffect.Pinch none none
      ≠ smooth samplePrims unitPath wideRange 1 SketchPathSmoothEffect.None none none := by
  have h1 : (smooth samplePrims unitPath wideRange 1 SketchPathSmoothEffect.Pinch none none).map
        (fun q => q.spheres) = some [sphereOnX 0 (1 / 3)] := by
    simp [smooth, unitPath_spheres, smoothLoop, smoothStep, windowSum, windowLoop, halfWidthAt,
      applyEffect, applyEnd, u32, sub32, add32, wideRange, sphereOnX, samplePrims, Vec3.dot,
      Vec3.sub, Vec3.add, Vec3.splat, Vec3.divScalar]
    norm_num
  have h2 : (smooth samplePrims unitPath wideRange 1 SketchPathSmoothEffect.None none none).map
        (fun q => q.spheres) = some [sphereOnX 0 1] := by
    simp [smooth, unitPath_spheres, smoothLoop, smoothStep, windowSum, windowLoop, halfWidthAt,
      applyEffect, applyEnd, u32, sub32, add32, wideRange, sphereOnX, samplePrims, Vec3.dot,
      Vec3.sub, Vec3.add, Vec3.splat, Vec3.divScalar]
  refine ⟨h1, h2, ?_⟩
  intro e
  rw [e, h2] at h1
  have h3 := Option.some.inj h1
  simp [sphereOnX] at h3

end Dilay

namespace Dilay

open SketchPath

/-! ## Bounds -/

theorem setMinMax_foldl_eq (l : List PrimSphere) (q : SketchPath) :
    l.foldl setMinMaxStep q
      = ⟨q.spheres,
         (l.foldl (fun b s => (Vec3.min b.1 (Vec3.sub s.center (Vec3.splat s.radius)),
                       Vec3.max b.2 (Vec3.add s.center (Vec3.splat s.radius))))
            (q.minimum, q.maximum)).1,
         (l.foldl (fun b s => (Vec3.min b.1 (Vec3.sub s.center (Vec3.splat s.radius)),
                       Vec3.max b.2 (Vec3.add s.center (Vec3.splat s.radius))))
            (q.minimum, q.maximum)).2⟩ := by
  induction l generalizing q with
  | nil => rfl
  | cons s l ih =>
    rw [List.foldl_cons, ih]
    rfl

theorem setMinMax_eq (p : SketchPath) :
    setMinMax p = ⟨p.spheres, (boundsOf p.spheres).1, (boundsOf p.spheres).2⟩ := by
  unfold setMinMax
  rw [setMinMax_foldl_eq]
  rfl

theorem cached_setMinMax (p : SketchPath) : Cached (setMinMax p) := by
  rw [setMinMax_eq]
  exact ⟨rfl, rfl⟩

theorem cached_new : Cached new := ⟨rfl, rfl⟩

theorem cached_reset (p : SketchPath) : Cached (reset p) := ⟨rfl, rfl⟩

theorem cached_addSphere (p : SketchPath) (c : Vec3) (r : ℚ) (h : Cached p) :
    Cached (addSphere p c r) := by
  obtain ⟨h1, h2⟩ := h
  constructor
  · rw [addSphere_minimum, addSphere_spheres, h1]
    simp [boundsOf, List.foldl_append]
  · rw [addSphere_maximum, addSphere_spheres, h2]
    simp [boundsOf, List.foldl_append]

theorem cached_mirror_foldl (P : Prims) (mPlane : PrimPlane) (l : List PrimSphere)
    (st : SketchPath × SketchPath) (h1 : Cached st.1) (h2 : Cached st.2) :
    Cached (l.foldl (mirrorStep P mPlane) st).1 ∧ Cached (l.foldl (mirrorStep P mPlane) st).2 := by
  induction l generalizing st with
  | nil => exact ⟨h1, h2⟩
  | cons s l ih =>
    rw [List.foldl_cons]
    apply ih
    · unfold mirrorStep
      split
      · exact cached_addSphere _ _ _ h1
      · exact h1
    · unfold mirrorStep
      split
      · exact cached_addSphere _ _ _ h2
      · exact h2

/-- Every reachable path stores the corners `setMinMax` would recompute. -/
theorem cached_of_reachable (P : Prims) (p : SketchPath) (h : Reachable P p) : Cached p := by
  induction h with
  | fresh => exact cached_new
  | addSphere p c r _ ih => exact cached_addSphere p c r ih
  | smooth p q range halfWidth effect nF nL _ hs _ =>
    unfold smooth at hs
    simp only at hs
    cases hl : smoothLoop P range halfWidth effect nF nL (u32 p.spheres.length) 0
        (u32 p.spheres.length) p.spheres with
    | none => simp [hl] at hs
    | some out =>
      simp only [hl] at hs
      rw [← Option.some.inj hs]
      exact cached_setMinMax _
  | mirrorKept p mPlane _ _ =>
    exact (cached_mirror_foldl P mPlane p.spheres (reset p, new) (cached_reset p) cached_new).1
  | mirrorReturned p mPlane _ _ =>
    exact (cached_mirror_foldl P mPlane p.spheres (reset p, new) (cached_reset p) cached_new).2

theorem minOver_le_head (f : PrimSphere → ℚ) (s : PrimSphere) (l : List PrimSphere) :
    minOver f s l ≤ f s := by
  cases l with
  | nil => exact le_refl _
  | cons t l => exact min_le_left _ _

theorem head_le_maxOver (f : PrimSphere → ℚ) (s : PrimSphere) (l : List PrimSphere) :
    f s ≤ maxOver f s l := by
  cases l with
  | nil => exact le_refl _
  | cons t l => exact le_max_left _ _

/-- The fold of `setMinMax` from corners `(m, M)` over a non-empty sequence:
each component is the minimum (maximum) of the start value and the spheres'
extents. -/
theorem bounds_foldl_cons (l : List PrimSphere) (s : PrimSphere) (m M : Vec3) :
    ((s :: l).foldl (fun b s => (Vec3.min b.1 (Vec3.sub s.center (Vec3.splat s.radius)),
                       Vec3.max b.2 (Vec3.add s.center (Vec3.splat s.radius)))) (m, M))
      = (⟨min m.x (lowerCorner s l).x, min m.y (lowerCorner s l).y, min m.z (lowerCorner s l).z⟩,
         ⟨max M.x (upperCorner s l).x, max M.y (upperCorner s l).y,
          max M.z (upperCorner s l).z⟩) := by
  induction l generalizing s m M with
  | nil =>
    simp [lowerCorner, upperCorner, minOver, maxOver, Vec3.min, Vec3.max, Vec3.sub, Vec3.add,
      Vec3.splat, glmMin_eq_min, glmMax_eq_max]
  | cons t l ih =>
    rw [List.foldl_cons, ih]
    simp [lowerCorner, upperCorner, minOver, maxOver, Vec3.min, Vec3.max, Vec3.sub, Vec3.add,
      Vec3.splat, glmMin_eq_min, glmMax_eq_max, min_assoc, max_assoc]

/-- On every non-empty path reachable by completed calls whose tight corners
lie on the finite side of the sentinels, the stored minimum is the
componentwise minimum of center − radius and the stored maximum is the
componentwise maximum of center + radius over all its spheres. -/
theorem bounds_tight (P : Prims) (p : SketchPath) (s : PrimSphere) (l : List PrimSphere)
    (hreach : Reachable P p) (hne : p.spheres = s :: l)
    (hlo : Vec3.le (lowerCorner s l) (Vec3.splat floatMax))
    (hhi : Vec3.le (Vec3.splat floatLowest) (upperCorner s l)) :
    p.minimum = lowerCorner s l ∧ p.maximum = upperCorner s l := by
  obtain ⟨h1, h2⟩ := cached_of_reachable P p hreach
  have e := bounds_foldl_cons l s (Vec3.splat floatMax) (Vec3.splat floatLowest)
  rw [h1, h2, hne]
  unfold boundsOf
  rw [e]
  obtain ⟨cx, cy, cz⟩ := hlo
  obtain ⟨dx, dy, dz⟩ := hhi
  constructor
  · show (⟨_, _, _⟩ : Vec3) = lowerCorner s l
    simp only [Vec3.splat] at cx cy cz
    simp only [Vec3.splat, min_eq_right cx, min_eq_right cy, min_eq_right cz]
  · show (⟨_, _, _⟩ : Vec3) = upperCorner s l
    simp only [Vec3.splat] at dx dy dz
    simp only [Vec3.splat, max_eq_right dx, max_eq_right dy, max_eq_right dz]

theorem floatLowest_le_floatMax : floatLowest ≤ floatMax := by
  simp only [floatLowest, floatMax]
  norm_num

/-- Every sphere of the data model (radius ≥ 0, finite center) has its extents
on the finite side of the sentinels. -/
theorem withinSentinels_of_valid (s : PrimSphere) (h : ValidSphere s) : WithinSentinels s := by
  obtain ⟨hr, ⟨x1, x2⟩, ⟨y1, y2⟩, ⟨z1, z2⟩⟩ := h
  refine ⟨⟨?_, ?_, ?_⟩, ?_, ?_, ?_⟩ <;> linarith

/-- On every non-empty path reachable by completed calls that holds spheres of
the data model, the stored corners are the tight corners of the spheres. -/
theorem bounds_tight_of_valid (P : Prims) (p : SketchPath) (s : PrimSphere)
    (l : List PrimSphere) (hreach : Reachable P p) (hne : p.spheres = s :: l)
    (hvalid : ∀ a ∈ p.spheres, ValidSphere a) :
    p.minimum = lowerCorner s l ∧ p.maximum = upperCorner s l := by
  have hs : WithinSentinels s :=
    withinSentinels_of_valid s (hvalid s (by rw [hne]; exact List.mem_cons_self _ _))
  obtain ⟨⟨ax, ay, az⟩, ⟨bx, b_y, bz⟩⟩ := hs
  apply bounds_tight P p s l hreach hne
  · exact ⟨le_trans (minOver_le_head _ s l) ax, le_trans (minOver_le_head _ s l) ay,
      le_trans (minOver_le_head _ s l) az⟩
  · exact ⟨le_trans bx (head_le_maxOver _ s l), le_trans b_y (head_le_maxOver _ s l),
      le_trans bz (head_le_maxOver _ s l)⟩

end Dilay

namespace Dilay

open SketchPath

theorem scenarioAPath_eq :
    scenarioAPath
      = ⟨[sphereOnX 0 1, sphereOnX 1 1, sphereOnX 2 1], ⟨-1, -1, -1⟩, ⟨3, 1, 1⟩⟩ := by
  simp [scenarioAPath, pathOf, sphereOnX, addSphere, new, resetMinMax, Vec3.min, Vec3.max,
    Vec3.add, Vec3.sub, Vec3.splat, glmMin, glmMax, floatMax, floatLowest]
  norm_num

theorem sphereOnX_valid (x : ℚ) (hx : 0 ≤ x) (hx2 : x ≤ 10) : ValidSphere (sphereOnX x 1) := by
  simp only [ValidSphere, sphereOnX, floatMax, floatLowest]
  refine ⟨?_, ⟨?_, ?_⟩, ⟨?_, ?_⟩, ?_, ?_⟩ <;> linarith

/-- Scenario A: the three `addSphere` calls build the corners `(-1, -1, -1)`
and `(3, 1, 1)`, which are the tight corners of the spheres. -/
theorem scenarioA_bounds :
    (Reachable samplePrims scenarioAPath
      ∧ scenarioAPath.spheres = sphereOnX 0 1 :: [sphereOnX 1 1, sphereOnX 2 1]
      ∧ ∀ a ∈ scenarioAPath.spheres, ValidSphere a)
    ∧ (scenarioAPath.minimum = lowerCorner (sphereOnX 0 1) [sphereOnX 1 1, sphereOnX 2 1]
      ∧ scenarioAPath.maximum = upperCorner (sphereOnX 0 1) [sphereOnX 1 1, sphereOnX 2 1])
    ∧ scenarioAPath.minimum = ⟨-1, -1, -1⟩ ∧ scenarioAPath.maximum = ⟨3, 1, 1⟩ := by
  have hr : Reachable samplePrims scenarioAPath :=
    Reachable.addSphere _ _ _ (Reachable.addSphere _ _ _ (Reachable.addSphere _ _ _
      Reachable.fresh))
  have hs : scenarioAPath.spheres = sphereOnX 0 1 :: [sphereOnX 1 1, sphereOnX 2 1] := rfl
  have hf : ∀ a ∈ scenarioAPath.spheres, ValidSphere a := by
    intro a ha
    rw [hs] at ha
    simp only [List.mem_cons, List.mem_singleton, List.not_mem_nil, or_false] at ha
    rcases ha with h | h | h <;> subst h <;>
      exact sphereOnX_valid _ (by norm_num) (by norm_num)
  refine ⟨⟨hr, hs, hf⟩, bounds_tight_of_valid samplePrims scenarioAPath _ _ hr hs hf, ?_, ?_⟩
  · rw [scenarioAPath_eq]
  · rw [scenarioAPath_eq]

end Dilay

namespace Dilay

open SketchPath

/-! ### When the window stays inside the sequence -/

/-- For `2 * halfWidth ≤ numS + 1` the half width the code computes is
`min (halfWidth, i, numS − 1 − i)`. -/
theorem halfWidthAt_eq_min (numS halfWidth i : Nat) (hn : numS < 4294967296)
    (hi : i < numS) (hw : 2 * halfWidth ≤ numS + 1) :
    halfWidthAt numS halfWidth i = min halfWidth (min i (numS - 1 - i)) := by
  unfold halfWidthAt sub32
  split
  · omega
  · split <;> omega

theorem windowLoop_isSome (spheres : List PrimSphere) (n j : Nat) (acc : Vec3 × ℚ)
    (h : j + n ≤ spheres.length) : ∃ r, windowLoop spheres j n acc = some r := by
  induction n generalizing j acc with
  | zero => exact ⟨acc, rfl⟩
  | succ n ih =>
    have hj : j < spheres.length := by omega
    simp only [windowLoop, List.getElem?_eq_getElem hj]
    exact ih (j + 1) _ (by omega)

theorem smoothStep_isSome (P : Prims) (range : PrimSphere) (halfWidth : Nat)
    (effect : SketchPathSmoothEffect) (nF nL : Option PrimSphere) (numS : Nat)
    (spheres : List PrimSphere) (i : Nat) (hlen : spheres.length = numS)
    (hn : numS < 4294967296) (hi : i < numS) (hw : 2 * halfWidth ≤ numS + 1) :
    ∃ out, smoothStep P range halfWidth effect nF nL numS spheres i = some out
      ∧ out.length = numS := by
  have hi2 : i < spheres.length := by omega
  unfold smoothStep
  simp only [List.getElem?_eq_getElem hi2]
  split
  · have hh := halfWidthAt_eq_min numS halfWidth i hn hi hw
    have hwin : ∃ r, windowSum spheres i (halfWidthAt numS halfWidth i) = some r := by
      unfold windowSum
      apply windowLoop_isSome
      rw [hh]
      unfold sub32 add32
      omega
    obtain ⟨r, hr⟩ := hwin
    simp only [hr]
    exact ⟨_, rfl, by rw [List.length_set, hlen]⟩
  · exact ⟨spheres, rfl, hlen⟩

theorem smoothLoop_isSome (P : Prims) (range : PrimSphere) (halfWidth : Nat)
    (effect : SketchPathSmoothEffect) (nF nL : Option PrimSphere) (numS : Nat)
    (hn : numS < 4294967296) (hw : 2 * halfWidth ≤ numS + 1)
    (k i : Nat) (spheres : List PrimSphere) (hlen : spheres.length = numS)
    (hk : i + k ≤ numS) :
    ∃ out, smoothLoop P range halfWidth effect nF nL numS i k spheres = some out := by
  induction k generalizing i spheres with
  | zero => exact ⟨spheres, rfl⟩
  | succ k ih =>
    obtain ⟨s1, hs1, hl1⟩ := smoothStep_isSome P range halfWidth effect nF nL numS spheres i
      hlen hn (by omega) hw
    simp only [smoothLoop, hs1]
    exact ih (i + 1) s1 hl1 (by omega)

/-- For `2 * halfWidth ≤ count + 1` (and a count that fits an `unsigned int`)
every window read is in range and `smooth` completes. -/
theorem smooth_completes (P : Prims) (p : SketchPath) (range : PrimSphere) (halfWidth : Nat)
    (effect : SketchPathSmoothEffect) (nF nL : Option PrimSphere)
    (hn : p.spheres.length < 4294967296) (hw : 2 * halfWidth ≤ p.spheres.length + 1) :
    ∃ q, smooth P p range halfWidth effect nF nL = some q := by
  have hu : u32 p.spheres.length = p.spheres.length := Nat.mod_eq_of_lt hn
  obtain ⟨out, ho⟩ := smoothLoop_isSome P range halfWidth effect nF nL p.spheres.length hn hw
    p.spheres.length 0 p.spheres rfl (by omega)
  unfold smooth
  simp only [hu, ho]
  exact ⟨_, rfl⟩

end Dilay

namespace Dilay

open SketchPath

/-! ## Mirror: boundary spheres and repetition -/

/-- C12: a sphere whose center has signed distance 0 to the plane is kept by
`mirror` (for `epsilon > 0`), and the sphere with the mirrored center and the
same radius is in the returned path. -/
theorem mirror_keeps_on_plane (P : Prims) (p : SketchPath) (mPlane : PrimPlane) (s : PrimSphere)
    (heps : 0 < P.epsilon) (hs : s ∈ p.spheres) (hd : P.planeDistance mPlane s.center = 0) :
    s ∈ (mirror P p mPlane).1.spheres
    ∧ (⟨P.planeMirror mPlane s.center, s.radius⟩ : PrimSphere) ∈ (mirror P p mPlane).2.spheres := by
  obtain ⟨h1, h2⟩ := mirror_foldl_spheres P mPlane p.spheres (reset p, new)
  have hk : s ∈ p.spheres.filter
      (fun s => decide (P.planeDistance mPlane s.center > -P.epsilon)) := by
    rw [List.mem_filter]
    refine ⟨hs, ?_⟩
    rw [decide_eq_true_eq, hd]
    linarith
  constructor
  · have e : (mirror P p mPlane).1.spheres = p.spheres.filter
        (fun s => decide (P.planeDistance mPlane s.center > -P.epsilon)) := by
      simpa [mirror] using h1
    rw [e]
    exact hk
  · have e : (mirror P p mPlane).2.spheres = (p.spheres.filter
        (fun s => decide (P.planeDistance mPlane s.center > -P.epsilon))).map
          (fun s => ⟨P.planeMirror mPlane s.center, s.radius⟩) := by
      simpa [mirror] using h2
    rw [e]
    exact List.mem_map.mpr ⟨s, hk, rfl⟩

theorem acrossPath_spheres :
    acrossPath.spheres = [sphereOnX 0 1, sphereOnX 2 1, sphereOnX (-3) 1] := rfl

/-- C12 on the plane x = 0 and a path whose first sphere is centered on it. -/
theorem mirror_keeps_on_plane_witness :
    (0 < samplePrims.epsilon ∧ sphereOnX 0 1 ∈ acrossPath.spheres
      ∧ samplePrims.planeDistance planeX (sphereOnX 0 1).center = 0)
    ∧ (sphereOnX 0 1 ∈ (mirror samplePrims acrossPath planeX).1.spheres
      ∧ (⟨samplePrims.planeMirror planeX (sphereOnX 0 1).center, (sphereOnX 0 1).radius⟩
          : PrimSphere) ∈ (mirror samplePrims acrossPath planeX).2.spheres) := by
  have h1 : 0 < samplePrims.epsilon := by
    simp [samplePrims]
  have h2 : sphereOnX 0 1 ∈ acrossPath.spheres := by
    rw [acrossPath_spheres]
    exact List.mem_cons_self _ _
  have h3 : samplePrims.planeDistance planeX (sphereOnX 0 1).center = 0 := by
    simp [samplePrims, planeX, sphereOnX, Vec3.dot, Vec3.sub]
  exact ⟨⟨h1, h2, h3⟩, mirror_keeps_on_plane samplePrims acrossPath planeX (sphereOnX 0 1) h1 h2 h3⟩

/-- The loop of `mirror` only looks at the spheres that pass the test. -/
theorem mirror_foldl_filter (P : Prims) (mPlane : PrimPlane) (l : List PrimSphere)
    (st : SketchPath × SketchPath) :
    l.foldl (mirrorStep P mPlane) st
      = (l.filter (fun s => decide (P.planeDistance mPlane s.center > -P.epsilon))).foldl
          (mirrorStep P mPlane) st := by
  induction l generalizing st with
  | nil => rfl
  | cons s l ih =>
    by_cases h : P.planeDistance mPlane s.center > -P.epsilon
    · rw [List.filter_cons_of_pos (by simpa using h), List.foldl_cons, List.foldl_cons, ih]
    · rw [List.filter_cons_of_neg (by simpa using h), List.foldl_cons, ih]
      have hs : mirrorStep P mPlane st s = st := by simp [mirrorStep, h]
      rw [hs]

/-- C18: a second `mirror` with the same plane leaves the path (spheres and
bounds) as the first call left it and returns a path equal (spheres and
bounds) to the one the first call returned. -/
theorem mirror_twice (P : Prims) (p : SketchPath) (mPlane : PrimPlane) :
    (mirror P (mirror P p mPlane).1 mPlane).1 = (mirror P p mPlane).1
    ∧ (mirror P (mirror P p mPlane).1 mPlane).2 = (mirror P p mPlane).2 := by
  have hsph : (mirror P p mPlane).1.spheres
      = p.spheres.filter (fun s => decide (P.planeDistance mPlane s.center > -P.epsilon)) := by
    simpa [mirror] using (mirror_foldl_spheres P mPlane p.spheres (reset p, new)).1
  have key : mirror P (mirror P p mPlane).1 mPlane = mirror P p mPlane := by
    have e1 : mirror P (mirror P p mPlane).1 mPlane
        = ((mirror P p mPlane).1.spheres).foldl (mirrorStep P mPlane)
            (reset (mirror P p mPlane).1, new) := rfl
    have e2 : mirror P p mPlane
        = (p.spheres.filter
            (fun s => decide (P.planeDistance mPlane s.center > -P.epsilon))).foldl
            (mirrorStep P mPlane) (reset p, new) := by
      show p.spheres.foldl (mirrorStep P mPlane) (reset p, new) = _
      exact mirror_foldl_filter P mPlane p.spheres (reset p, new)
    have e3 : reset (mirror P p mPlane).1 = reset p := rfl
    rw [e1, hsph, e3, mirror_foldl_filter, List.filter_filter]
    rw [e2]
    congr 1
    apply List.filter_congr
    intro s _
    simp
  rw [key]
  exact ⟨rfl, rfl⟩

end Dilay

namespace Dilay

open SketchPath

/-! ## Smoothing: the window sums and one step -/

theorem getElem?_eq_some_sphereAt (spheres : List PrimSphere) (j : Nat) (s : PrimSphere)
    (h : spheres[j]? = some s) : sphereAt spheres j = s := by
  simp [sphereAt, List.getD, h]

theorem getElem?_eq_sphereAt (spheres : List PrimSphere) (j : Nat) (h : j < spheres.length) :
    spheres[j]? = some (sphereAt spheres j) := by
  rw [List.getElem?_eq_getElem h]
  simp [sphereAt, List.getD, List.getElem?_eq_getElem h]

/-- The window loop succeeds exactly when it reads inside the sequence, and
then it has added the centers and radii of the `n` spheres from `j` on. -/
theorem windowLoop_eq (spheres : List PrimSphere) (n j : Nat) (acc r : Vec3 × ℚ)
    (h : windowLoop spheres j n acc = some r) :
    (n = 0 ∨ j + n ≤ spheres.length)
    ∧ r.1 = ⟨acc.1.x + sumOver (fun t => (sphereAt spheres t).center.x) j n,
             acc.1.y + sumOver (fun t => (sphereAt spheres t).center.y) j n,
             acc.1.z + sumOver (fun t => (sphereAt spheres t).center.z) j n⟩
    ∧ r.2 = acc.2 + sumOver (fun t => (sphereAt spheres t).radius) j n := by
  induction n generalizing j acc with
  | zero =>
    simp only [windowLoop] at h
    cases Option.some.inj h
    simp [sumOver]
  | succ n ih =>
    simp only [windowLoop] at h
    cases hj : spheres[j]? with
    | none => simp [hj] at h
    | some s =>
      simp only [hj] at h
      have hlt : j < spheres.length := by
        by_contra c
        rw [List.getElem?_eq_none (by omega)] at hj
        cases hj
      have hs := getElem?_eq_some_sphereAt spheres j s hj
      obtain ⟨h1, h2, h3⟩ := ih (j + 1) _ h
      refine ⟨Or.inr (by omega), ?_, ?_⟩
      · rw [h2]
        simp only [Vec3.add, sumOver, hs, add_assoc]
      · rw [h3]
        simp only [sumOver, hs, add_assoc]

theorem windowLoop_congr_length (s1 s2 : List PrimSphere) (hl : s1.length = s2.length)
    (n j : Nat) (a1 a2 r : Vec3 × ℚ) (h : windowLoop s1 j n a1 = some r) :
    ∃ r2, windowLoop s2 j n a2 = some r2 := by
  rcases (windowLoop_eq s1 n j a1 r h).1 with h0 | h0
  · subst h0
    exact ⟨a2, rfl⟩
  · exact windowLoop_isSome s2 n j a2 (by omega)

/-- The half width the code computes never exceeds the index. -/
theorem halfWidthAt_le (numS halfWidth i : Nat) (hn : numS < 4294967296) (hi : i < numS) :
    halfWidthAt numS halfWidth i ≤ i := by
  unfold halfWidthAt sub32
  split
  · omega
  · split <;> omega

/-- Full description of one successful step of the outer loop. -/
theorem smoothStep_eq (P : Prims) (range : PrimSphere) (halfWidth : Nat)
    (effect : SketchPathSmoothEffect) (nF nL : Option PrimSphere) (numS : Nat)
    (spheres out : List PrimSphere) (i : Nat)
    (h : smoothStep P range halfWidth effect nF nL numS spheres i = some out) :
    ∃ si, spheres[i]? = some si
      ∧ ((P.intersectsSphereSphere range si = false ∧ out = spheres)
        ∨ (P.intersectsSphereSphere range si = true
          ∧ ∃ cr, windowSum spheres i (halfWidthAt numS halfWidth i) = some cr
            ∧ out = spheres.set i
              ⟨Vec3.divScalar (applyEffect effect nF nL numS halfWidth i (cr.1, cr.2, 0, 0)).1
                ((u32 (2 * halfWidthAt numS halfWidth i + 1
                  + (applyEffect effect nF nL numS halfWidth i (cr.1, cr.2, 0, 0)).2.2.1) : Nat) : ℚ),
               (applyEffect effect nF nL numS halfWidth i (cr.1, cr.2, 0, 0)).2.1
                / ((u32 (2 * halfWidthAt numS halfWidth i + 1
                  + (applyEffect effect nF nL numS halfWidth i (cr.1, cr.2, 0, 0)).2.2.2) : Nat) : ℚ)⟩)) := by
  unfold smoothStep at h
  cases hi : spheres[i]? with
  | none => simp [hi] at h
  | some si =>
    refine ⟨si, rfl, ?_⟩
    simp only [hi] at h
    cases hr : P.intersectsSphereSphere range si with
    | false =>
      left
      simp only [hr] at h
      exact ⟨rfl, (Option.some.inj h).symm⟩
    | true =>
      right
      simp only [hr, if_true] at h
      cases hw : windowSum spheres i (halfWidthAt numS halfWidth i) with
      | none => simp [hw] at h
      | some cr =>
        simp only [hw] at h
        exact ⟨rfl, cr, rfl, (Option.some.inj h).symm⟩

/-- One step on an unaffected sphere returns the sequence as it is. -/
theorem smoothStep_unaffected (P : Prims) (range : PrimSphere) (halfWidth : Nat)
    (effect : SketchPathSmoothEffect) (nF nL : Option PrimSphere) (numS : Nat)
    (spheres : List PrimSphere) (i : Nat) (si : PrimSphere) (hi : spheres[i]? = some si)
    (hr : P.intersectsSphereSphere range si = false) :
    smoothStep P range halfWidth effect nF nL numS spheres i = some spheres := by
  simp [smoothStep, hi, hr]

/-- One step on an affected sphere whose window was read. -/
theorem smoothStep_affected (P : Prims) (range : PrimSphere) (halfWidth : Nat)
    (effect : SketchPathSmoothEffect) (nF nL : Option PrimSphere) (numS : Nat)
    (spheres : List PrimSphere) (i : Nat) (si : PrimSphere) (cr : Vec3 × ℚ)
    (hi : spheres[i]? = some si) (hr : P.intersectsSphereSphere range si = true)
    (hw : windowSum spheres i (halfWidthAt numS halfWidth i) = some cr) :
    smoothStep P range halfWidth effect nF nL numS spheres i
      = some (spheres.set i
              ⟨Vec3.divScalar (applyEffect effect nF nL numS halfWidth i (cr.1, cr.2, 0, 0)).1
                ((u32 (2 * halfWidthAt numS halfWidth i + 1
                  + (applyEffect effect nF nL numS halfWidth i (cr.1, cr.2, 0, 0)).2.2.1) : Nat) : ℚ),
               (applyEffect effect nF nL numS halfWidth i (cr.1, cr.2, 0, 0)).2.1
                / ((u32 (2 * halfWidthAt numS halfWidth i + 1
                  + (applyEffect effect nF nL numS halfWidth i (cr.1, cr.2, 0, 0)).2.2.2) : Nat) : ℚ)⟩) := by
  simp [smoothStep, hi, hr, hw]

end Dilay

namespace Dilay

open SketchPath

theorem set_self (spheres : List PrimSphere) (i : Nat) (s : PrimSphere)
    (h : spheres[i]? = some s) : spheres.set i s = spheres := by
  apply List.ext_getElem?
  intro j
  by_cases c : i = j
  · subst c
    have hlt : i < spheres.length := by
      by_contra c
      rw [List.getElem?_eq_none (by omega)] at h
      cases h
    rw [List.getElem?_set_self hlt, h]
  · rw [List.getElem?_set_ne c]

/-- The outer loop returns the sequence untouched when every step does. -/
theorem smoothLoop_fixed (P : Prims) (range : PrimSphere) (halfWidth : Nat)
    (effect : SketchPathSmoothEffect) (nF nL : Option PrimSphere) (numS : Nat)
    (spheres : List PrimSphere)
    (hstep : ∀ i, i < numS →
      smoothStep P range halfWidth effect nF nL numS spheres i = some spheres)
    (k i : Nat) (hk : i + k ≤ numS) :
    smoothLoop P range halfWidth effect nF nL numS i k spheres = some spheres := by
  induction k generalizing i with
  | zero => rfl
  | succ k ih =>
    simp only [smoothLoop, hstep i (by omega)]
    exact ih (i + 1) (by omega)

theorem smooth_of_loop_fixed (P : Prims) (p : SketchPath) (range : PrimSphere) (halfWidth : Nat)
    (effect : SketchPathSmoothEffect) (nF nL : Option PrimSphere)
    (hstep : ∀ i, i < u32 p.spheres.length →
      smoothStep P range halfWidth effect nF nL (u32 p.spheres.length) p.spheres i
        = some p.spheres) :
    ∃ q, smooth P p range halfWidth effect nF nL = some q ∧ q.spheres = p.spheres := by
  have hl := smoothLoop_fixed P range halfWidth effect nF nL (u32 p.spheres.length) p.spheres
    hstep (u32 p.spheres.length) 0 (by omega)
  unfold smooth
  simp only [hl]
  exact ⟨_, rfl, by rw [setMinMax_spheres]⟩

theorem u32_le (n : Nat) : u32 n ≤ n := Nat.mod_le _ _

theorem u32_lt (n : Nat) : u32 n < 4294967296 := Nat.mod_lt _ (by decide)

/-- C20: `smooth` with `halfWidth = 0` completes and leaves every sphere
(center and radius) as it was, for every range, effect and anchors. -/
theorem smooth_halfWidth_zero (P : Prims) (p : SketchPath) (range : PrimSphere)
    (effect : SketchPathSmoothEffect) (nearestToFirst nearestToLast : Option PrimSphere) :
    ∃ q, smooth P p range 0 effect nearestToFirst nearestToLast = some q
      ∧ q.spheres = p.spheres := by
  apply smooth_of_loop_fixed
  intro i hi
  have hlt : i < p.spheres.length := lt_of_lt_of_le hi (u32_le _)
  have hN := u32_lt p.spheres.length
  have hsi := getElem?_eq_sphereAt p.spheres i hlt
  cases hr : P.intersectsSphereSphere range (sphereAt p.spheres i) with
  | false => exact smoothStep_unaffected _ _ _ _ _ _ _ _ _ _ hsi hr
  | true =>
    have hH : halfWidthAt (u32 p.spheres.length) 0 i = 0 := by
      unfold halfWidthAt sub32
      split
      · omega
      · split <;> omega
    have hw : windowSum p.spheres i (halfWidthAt (u32 p.spheres.length) 0 i)
        = some (Vec3.add (Vec3.splat 0) (sphereAt p.spheres i).center,
                0 + (sphereAt p.spheres i).radius) := by
      rw [hH]
      have e1 : sub32 i 0 = i := by unfold sub32; omega
      have e2 : add32 i 0 + 1 - sub32 i 0 = 1 := by unfold add32 sub32; omega
      unfold windowSum
      rw [e2, e1]
      simp [windowLoop, hsi]
    rw [smoothStep_affected _ _ _ _ _ _ _ _ _ _ _ hsi hr hw, hH]
    have hE : ∀ st, applyEffect effect nearestToFirst nearestToLast (u32 p.spheres.length) 0 i st
        = st := by
      intro st
      have e3 : ¬ sub32 (u32 p.spheres.length) 0 ≤ i := by unfold sub32; omega
      simp [applyEffect, e3]
    rw [hE]
    have hu : u32 (2 * 0 + 1 + 0) = 1 := by decide
    refine congrArg some ?_
    refine Eq.trans ?_ (set_self p.spheres i _ hsi)
    refine congrArg (List.set p.spheres i) ?_
    simp only [hu, Vec3.divScalar, Vec3.add, Vec3.splat, Nat.cast_one, div_one, zero_add]

end Dilay

namespace Dilay

open SketchPath

/-! ## Smoothing an equally spaced line -/

theorem lineSpheres_length (a d : Vec3) (r : ℚ) (n : Nat) :
    (lineSpheres a d r n).length = n := by
  simp [lineSpheres]

theorem sphereAt_lineSpheres (a d : Vec3) (r : ℚ) (n t : Nat) (ht : t < n) :
    sphereAt (lineSpheres a d r n) t = ⟨Vec3.add a (Vec3.scale d (t : ℚ)), r⟩ := by
  apply getElem?_eq_some_sphereAt
  simp [lineSpheres, List.getElem?_map, List.getElem?_range ht]

theorem sumOver_congr (f g : Nat → ℚ) (m j : Nat)
    (h : ∀ t, j ≤ t → t < j + m → f t = g t) : sumOver f j m = sumOver g j m := by
  induction m generalizing j with
  | zero => rfl
  | succ m ih =>
    simp only [sumOver]
    rw [h j (le_refl _) (by omega), ih (j + 1) (fun t h1 h2 => h t (by omega) (by omega))]

theorem sumOver_affine (a d : ℚ) (m j : Nat) :
    sumOver (fun t => a + d * (t : ℚ)) j m
      = (m : ℚ) * a + d * ((m : ℚ) * (j : ℚ) + (m : ℚ) * ((m : ℚ) - 1) / 2) := by
  induction m generalizing j with
  | zero => simp [sumOver]
  | succ m ih =>
    simp only [sumOver]
    rw [ih (j + 1)]
    push_cast
    ring

theorem sumOver_const (r : ℚ) (m j : Nat) : sumOver (fun _ => r) j m = (m : ℚ) * r := by
  induction m generalizing j with
  | zero => simp [sumOver]
  | succ m ih =>
    simp only [sumOver]
    rw [ih (j + 1)]
    push_cast
    ring

/-- The sum of an equally spaced run over a window centered at `i` is the
window size times the value at `i`. -/
theorem sumOver_affine_window (a d : ℚ) (i hW : Nat) (h : hW ≤ i) :
    sumOver (fun t => a + d * (t : ℚ)) (i - hW) (2 * hW + 1)
      = ((2 * hW + 1 : Nat) : ℚ) * (a + d * (i : ℚ)) := by
  rw [sumOver_affine]
  have e : ((i - hW : Nat) : ℚ) = (i : ℚ) - (hW : ℚ) := Nat.cast_sub h
  rw [e]
  push_cast
  ring

/-- C11: on `n` spheres of equal radius whose centers are equally spaced along
a line, with `2 * halfWidth ≤ n + 1`, `smooth` with effect `None` completes and
leaves every center and every radius unchanged. -/
theorem smooth_line_unchanged (P : Prims) (p : SketchPath) (range : PrimSphere)
    (halfWidth : Nat) (nearestToFirst nearestToLast : Option PrimSphere)
    (a d : Vec3) (r : ℚ) (n : Nat)
    (hline : p.spheres = lineSpheres a d r n) (hn : n < 4294967296)
    (hw : 2 * halfWidth ≤ n + 1) :
    ∃ q, smooth P p range halfWidth SketchPathSmoothEffect.None nearestToFirst nearestToLast
        = some q
      ∧ q.spheres = p.spheres := by
  have hlen : p.spheres.length = n := by rw [hline, lineSpheres_length]
  have hu : u32 p.spheres.length = n := by rw [hlen]; exact Nat.mod_eq_of_lt hn
  apply smooth_of_loop_fixed
  rw [hu]
  intro i hi
  have hlt : i < p.spheres.length := by omega
  have hsi := getElem?_eq_sphereAt p.spheres i hlt
  cases hr : P.intersectsSphereSphere range (sphereAt p.spheres i) with
  | false => exact smoothStep_unaffected _ _ _ _ _ _ _ _ _ _ hsi hr
  | true =>
    have hH := halfWidthAt_eq_min n halfWidth i hn hi hw
    have hHi : halfWidthAt n halfWidth i ≤ i := by rw [hH]; omega
    have hHn : i + halfWidthAt n halfWidth i + 1 ≤ n := by rw [hH]; omega
    have e1 : sub32 i (halfWidthAt n halfWidth i) = i - halfWidthAt n halfWidth i := by
      unfold sub32; omega
    have e2 : add32 i (halfWidthAt n halfWidth i) + 1 - sub32 i (halfWidthAt n halfWidth i)
        = 2 * halfWidthAt n halfWidth i + 1 := by
      unfold add32 sub32; omega
    obtain ⟨cr, hcr⟩ := windowLoop_isSome p.spheres (2 * halfWidthAt n halfWidth i + 1)
      (i - halfWidthAt n halfWidth i) (Vec3.splat 0, 0) (by omega)
    have hw2 : windowSum p.spheres i (halfWidthAt n halfWidth i) = some cr := by
      unfold windowSum
      rw [e2, e1]
      exact hcr
    obtain ⟨_, hc, hrad⟩ := windowLoop_eq _ _ _ _ _ hcr
    rw [smoothStep_affected _ _ _ _ _ _ _ _ _ _ _ hsi hr hw2, applyEffect_none]
    refine congrArg some ?_
    refine Eq.trans ?_ (set_self p.spheres i _ hsi)
    refine congrArg (List.set p.spheres i) ?_
    have hval : ∀ t, t < n → sphereAt p.spheres t = ⟨Vec3.add a (Vec3.scale d (t : ℚ)), r⟩ := by
      intro t ht
      rw [hline]
      exact sphereAt_lineSpheres a d r n t ht
    have hcx : ∀ (g : PrimSphere → ℚ) (a0 d0 : ℚ),
        (∀ t, t < n → g (sphereAt p.spheres t) = a0 + d0 * (t : ℚ)) →
        sumOver (fun t => g (sphereAt p.spheres t)) (i - halfWidthAt n halfWidth i)
            (2 * halfWidthAt n halfWidth i + 1)
          = ((2 * halfWidthAt n halfWidth i + 1 : Nat) : ℚ) * (a0 + d0 * (i : ℚ)) := by
      intro g a0 d0 hg
      rw [sumOver_congr _ (fun t => a0 + d0 * (t : ℚ)) _ _
        (fun t _ h2 => hg t (by omega))]
      exact sumOver_affine_window a0 d0 i _ hHi
    have sx := hcx (fun s => s.center.x) a.x d.x
      (fun t ht => by rw [hval t ht]; simp [Vec3.add, Vec3.scale])
    have sy := hcx (fun s => s.center.y) a.y d.y
      (fun t ht => by rw [hval t ht]; simp [Vec3.add, Vec3.scale])
    have sz := hcx (fun s => s.center.z) a.z d.z
      (fun t ht => by rw [hval t ht]; simp [Vec3.add, Vec3.scale])
    have sr := hcx (fun s => s.radius) r 0
      (fun t ht => by rw [hval t ht]; simp)
    have hdiv : u32 (2 * halfWidthAt n halfWidth i + 1 + 0) = 2 * halfWidthAt n halfWidth i + 1 := by
      unfold u32; omega
    have hpos : ((2 * halfWidthAt n halfWidth i + 1 : Nat) : ℚ) ≠ 0 := by
      exact Nat.cast_ne_zero.mpr (Nat.succ_ne_zero (2 * halfWidthAt n halfWidth i))
    rw [hval i hi]
    simp only [hdiv, hc, hrad, sx, sy, sz, sr, Vec3.divScalar, Vec3.splat, Vec3.add, Vec3.scale,
      zero_add, mul_zero, add_zero]
    rw [mul_div_cancel_left₀ _ hpos, mul_div_cancel_left₀ _ hpos, mul_div_cancel_left₀ _ hpos,
      mul_div_cancel_left₀ _ hpos, zero_mul, add_zero]

end Dilay

namespace Dilay

open SketchPath

theorem pathOf_foldl_spheres (l : List PrimSphere) (p : SketchPath) :
    (l.foldl (fun p s => addSphere p s.center s.radius) p).spheres = p.spheres ++ l := by
  induction l generalizing p with
  | nil => simp
  | cons s l ih =>
    rw [List.foldl_cons, ih]
    simp

theorem pathOf_spheres (l : List PrimSphere) : (pathOf l).spheres = l := by
  unfold pathOf
  rw [pathOf_foldl_spheres]
  rfl

/-- C11 on Scenario D: five equally spaced unit spheres, `halfWidth = 1`. -/
theorem smooth_line_unchanged_witness :
    (scenarioDPath.spheres = lineSpheres ⟨0, 0, 0⟩ ⟨1, 0, 0⟩ 1 5
      ∧ 5 < 4294967296 ∧ 2 * 1 ≤ 5 + 1)
    ∧ ∃ q, smooth samplePrims scenarioDPath wideRange 1 SketchPathSmoothEffect.None none none
        = some q
      ∧ q.spheres = scenarioDPath.spheres :=
  ⟨⟨pathOf_spheres _, by decide, by decide⟩,
   smooth_line_unchanged samplePrims scenarioDPath wideRange 1 none none ⟨0, 0, 0⟩ ⟨1, 0, 0⟩ 1 5
     (pathOf_spheres _) (by decide) (by decide)⟩

/-! ## Smoothing: the pass seen from one index -/

theorem sphereAt_of_length_le (l : List PrimSphere) (j : Nat) (h : l.length ≤ j) :
    sphereAt l j = ⟨Vec3.splat 0, 0⟩ := by
  simp [sphereAt, List.getD, List.getElem?_eq_none h]

theorem sphereAt_set_ne (l : List PrimSphere) (i j : Nat) (v : PrimSphere) (h : i ≠ j) :
    sphereAt (l.set i v) j = sphereAt l j := by
  simp [sphereAt, List.getD, List.getElem?_set_ne h]

theorem sphereAt_set_self (l : List PrimSphere) (i : Nat) (v : PrimSphere) (h : i < l.length) :
    sphereAt (l.set i v) i = v := by
  simp [sphereAt, List.getD, List.getElem?_set_self h]

/-- Frame of the outer loop in terms of `sphereAt`: indices outside
`[i, i + k)` hold the same sphere before and after. -/
theorem smoothLoop_frame_at (P : Prims) (range : PrimSphere) (halfWidth : Nat)
    (effect : SketchPathSmoothEffect) (nF nL : Option PrimSphere) (numS : Nat)
    (k i : Nat) (spheres out : List PrimSphere)
    (h : smoothLoop P range halfWidth effect nF nL numS i k spheres = some out) :
    out.length = spheres.length
    ∧ ∀ j, (j < i ∨ i + k ≤ j) → sphereAt out j = sphereAt spheres j := by
  obtain ⟨hlen, hframe⟩ := smoothLoop_frame P range halfWidth effect nF nL numS k i spheres out h
  refine ⟨hlen, ?_⟩
  intro j hj
  by_cases c : j < spheres.length
  · have h1 := hframe j _ (getElem?_eq_sphereAt spheres j c)
      (by rcases hj with a | a
          · exact Or.inl a
          · exact Or.inr (Or.inl a))
    exact getElem?_eq_some_sphereAt out j _ h1
  · rw [sphereAt_of_length_le spheres j (by omega), sphereAt_of_length_le out j (by omega)]

theorem smoothLoop_split (P : Prims) (range : PrimSphere) (halfWidth : Nat)
    (effect : SketchPathSmoothEffect) (nF nL : Option PrimSphere) (numS : Nat)
    (k1 k2 i : Nat) (spheres out : List PrimSphere)
    (h : smoothLoop P range halfWidth effect nF nL numS i (k1 + k2) spheres = some out) :
    ∃ mid, smoothLoop P range halfWidth effect nF nL numS i k1 spheres = some mid
      ∧ smoothLoop P range halfWidth effect nF nL numS (i + k1) k2 mid = some out := by
  induction k1 generalizing i spheres with
  | zero =>
    refine ⟨spheres, rfl, ?_⟩
    simpa using h
  | succ k1 ih =>
    have e : k1 + 1 + k2 = (k1 + k2) + 1 := by omega
    rw [e] at h
    simp only [smoothLoop] at h
    cases hs : smoothStep P range halfWidth effect nF nL numS spheres i with
    | none => simp [hs] at h
    | some s1 =>
      simp only [hs] at h
      obtain ⟨mid, h1, h2⟩ := ih (i + 1) s1 h
      refine ⟨mid, ?_, ?_⟩
      · simp only [smoothLoop, hs]
        exact h1
      · have e2 : i + (k1 + 1) = i + 1 + k1 := by omega
        rw [e2]
        exact h2

/-- The pass seen from index `i`: when the loop reaches `i` the sequence holds
the final values below `i` and the initial values from `i` on; the step at `i`
succeeds on that sequence and writes the final value of index `i`. -/
theorem smoothLoop_at (P : Prims) (range : PrimSphere) (halfWidth : Nat)
    (effect : SketchPathSmoothEffect) (nF nL : Option PrimSphere) (numS : Nat)
    (orig out : List PrimSphere) (i : Nat)
    (h : smoothLoop P range halfWidth effect nF nL numS 0 numS orig = some out)
    (hi : i < numS) :
    ∃ cur mid, cur.length = orig.length ∧ out.length = orig.length
      ∧ (∀ j, sphereAt cur j = heldAt orig out i j)
      ∧ smoothStep P range halfWidth effect nF nL numS cur i = some mid
      ∧ sphereAt out i = sphereAt mid i := by
  have e : numS = i + (1 + (numS - i - 1)) := by omega
  rw [e] at h
  obtain ⟨cur, h1, h2⟩ := smoothLoop_split P range halfWidth effect nF nL _ i _ 0 orig out h
  obtain ⟨m1, h3, h4⟩ := smoothLoop_split P range halfWidth effect nF nL _ 1 _ (0 + i) cur out h2
  rw [← e] at h1 h3 h4
  simp only [smoothLoop, Nat.zero_add] at h3
  cases hs : smoothStep P range halfWidth effect nF nL numS cur i with
  | none => simp [hs] at h3
  | some mid =>
    simp only [hs] at h3
    have hm : mid = m1 := Option.some.inj h3
    rw [← hm] at h4
    obtain ⟨hl1, hf1⟩ := smoothLoop_frame_at P range halfWidth effect nF nL numS _ _ _ _ h1
    obtain ⟨hl4, hf4⟩ := smoothLoop_frame_at P range halfWidth effect nF nL numS _ _ _ _ h4
    obtain ⟨si, hsi, hc⟩ := smoothStep_cases P range halfWidth effect nF nL numS cur mid i hs
    have hmid : mid.length = cur.length ∧ ∀ j, j ≠ i → sphereAt mid j = sphereAt cur j := by
      rcases hc with ⟨_, e1⟩ | ⟨_, v, e1⟩
      · subst e1
        exact ⟨rfl, fun _ _ => rfl⟩
      · subst e1
        exact ⟨List.length_set _ _ _, fun j hj => sphereAt_set_ne cur i j v (Ne.symm hj)⟩
    refine ⟨cur, mid, hl1, by rw [hl4, hmid.1, hl1], ?_, hs, ?_⟩
    · intro j
      unfold heldAt
      split
      · rename_i hj
        rw [hf4 j (Or.inl (by omega)), hmid.2 j (by omega)]
      · rename_i hj
        exact hf1 j (Or.inr (by omega))
    · exact hf4 i (Or.inl (by omega))

end Dilay

namespace Dilay

open SketchPath

/-- When the window at `i` was read inside the sequence, the half width the
code computed is `min (halfWidth, i, numS − 1 − i)`. -/
theorem halfWidthAt_eq_min_of_window (numS halfWidth i : Nat) (hn : numS < 4294967296)
    (hi : i < numS) (hw : i + halfWidthAt numS halfWidth i + 1 ≤ numS) :
    halfWidthAt numS halfWidth i = min halfWidth (min i (numS - 1 - i)) := by
  revert hw
  unfold halfWidthAt sub32
  split
  · omega
  · split <;> omega

/-- A successful window read at `i` (in a sequence of fewer than `2 ^ 31`
spheres) stays inside the sequence and returns the sums over
`[i − hW, i + hW]`. -/
theorem windowSum_eq (spheres : List PrimSphere) (i hW : Nat) (cr : Vec3 × ℚ)
    (hn : spheres.length < 2147483648) (hi : i < spheres.length) (hW_le : hW ≤ i)
    (h : windowSum spheres i hW = some cr) :
    i + hW + 1 ≤ spheres.length
    ∧ cr.1 = ⟨sumOver (fun t => (sphereAt spheres t).center.x) (i - hW) (2 * hW + 1),
              sumOver (fun t => (sphereAt spheres t).center.y) (i - hW) (2 * hW + 1),
              sumOver (fun t => (sphereAt spheres t).center.z) (i - hW) (2 * hW + 1)⟩
    ∧ cr.2 = sumOver (fun t => (sphereAt spheres t).radius) (i - hW) (2 * hW + 1) := by
  have e1 : sub32 i hW = i - hW := by unfold sub32; omega
  have e2 : add32 i hW + 1 - sub32 i hW = 2 * hW + 1 := by unfold add32 sub32; omega
  unfold windowSum at h
  rw [e2, e1] at h
  obtain ⟨h1, h2, h3⟩ := windowLoop_eq _ _ _ _ _ h
  refine ⟨by omega, ?_, ?_⟩
  · rw [h2]
    simp [Vec3.splat]
  · rw [h3]
    simp

/-- One successful step at an affected index, in a sequence of fewer than
`2 ^ 31` spheres: the window lies inside the sequence and the new sphere at `i`
is built from the window sums, the boundary block and the two divisors. -/
theorem smoothStep_affected_at (P : Prims) (range : PrimSphere) (halfWidth : Nat)
    (effect : SketchPathSmoothEffect) (nF nL : Option PrimSphere)
    (cur mid : List PrimSphere) (i : Nat)
    (hn : cur.length < 2147483648) (hi : i < cur.length)
    (hr : P.intersectsSphereSphere range (sphereAt cur i) = true)
    (h : smoothStep P range halfWidth effect nF nL cur.length cur i = some mid) :
    halfWidthAt cur.length halfWidth i ≤ i
    ∧ i + halfWidthAt cur.length halfWidth i + 1 ≤ cur.length
    ∧ sphereAt mid i =
        ⟨Vec3.divScalar
          (applyEffect effect nF nL cur.length halfWidth i
            (windowTotals cur (i - halfWidthAt cur.length halfWidth i)
              (2 * halfWidthAt cur.length halfWidth i + 1))).1
          ((u32 (2 * halfWidthAt cur.length halfWidth i + 1
            + (applyEffect effect nF nL cur.length halfWidth i
                (windowTotals cur (i - halfWidthAt cur.length halfWidth i)
                  (2 * halfWidthAt cur.length halfWidth i + 1))).2.2.1) : Nat) : ℚ),
         (applyEffect effect nF nL cur.length halfWidth i
            (windowTotals cur (i - halfWidthAt cur.length halfWidth i)
              (2 * halfWidthAt cur.length halfWidth i + 1))).2.1
          / ((u32 (2 * halfWidthAt cur.length halfWidth i + 1
            + (applyEffect effect nF nL cur.length halfWidth i
                (windowTotals cur (i - halfWidthAt cur.length halfWidth i)
                  (2 * halfWidthAt cur.length halfWidth i + 1))).2.2.2) : Nat) : ℚ)⟩ := by
  have hle := halfWidthAt_le cur.length halfWidth i (by omega) hi
  obtain ⟨si, hsi, hc⟩ := smoothStep_eq P range halfWidth effect nF nL cur.length cur mid i h
  have hsi2 := getElem?_eq_some_sphereAt cur i si hsi
  rw [hsi2] at hr
  rcases hc with ⟨hf, _⟩ | ⟨_, cr, hw, hmid⟩
  · rw [hr] at hf
    cases hf
  · obtain ⟨h1, h2, h3⟩ := windowSum_eq cur i _ cr hn hi hle hw
    refine ⟨hle, h1, ?_⟩
    rw [hmid, sphereAt_set_self cur i _ hi]
    have e : (cr.1, cr.2, 0, 0) = windowTotals cur (i - halfWidthAt cur.length halfWidth i)
        (2 * halfWidthAt cur.length halfWidth i + 1) := by
      unfold windowTotals
      rw [← h2, ← h3]
    rw [e]

/-- One successful step at an unaffected index keeps the sphere at `i`. -/
theorem smoothStep_unaffected_at (P : Prims) (range : PrimSphere) (halfWidth : Nat)
    (effect : SketchPathSmoothEffect) (nF nL : Option PrimSphere) (numS : Nat)
    (cur mid : List PrimSphere) (i : Nat) (hi : i < cur.length)
    (hr : P.intersectsSphereSphere range (sphereAt cur i) = false)
    (h : smoothStep P range halfWidth effect nF nL numS cur i = some mid) :
    mid = cur := by
  rw [smoothStep_unaffected P range halfWidth effect nF nL numS cur i _
    (getElem?_eq_sphereAt cur i hi) hr] at h
  exact (Option.some.inj h).symm

end Dilay

namespace Dilay

open SketchPath

/-- A completed `smooth` is a completed outer loop followed by `setMinMax`. -/
theorem smooth_loop (P : Prims) (p q : SketchPath) (range : PrimSphere) (halfWidth : Nat)
    (effect : SketchPathSmoothEffect) (nF nL : Option PrimSphere)
    (h : smooth P p range halfWidth effect nF nL = some q) :
    smoothLoop P range halfWidth effect nF nL (u32 p.spheres.length) 0 (u32 p.spheres.length)
        p.spheres = some q.spheres
    ∧ q = setMinMax { p with spheres := q.spheres } := by
  unfold smooth at h
  simp only at h
  cases hl : smoothLoop P range halfWidth effect nF nL (u32 p.spheres.length) 0
      (u32 p.spheres.length) p.spheres with
  | none => simp [hl] at h
  | some out =>
    simp only [hl] at h
    have hq := (Option.some.inj h).symm
    have hs : q.spheres = out := by rw [hq, setMinMax_spheres]
    rw [hs]
    exact ⟨rfl, hq⟩

/-- A completed `smooth` seen from index `i`. -/
theorem smooth_at (P : Prims) (p q : SketchPath) (range : PrimSphere) (halfWidth : Nat)
    (effect : SketchPathSmoothEffect) (nF nL : Option PrimSphere) (i : Nat)
    (h : smooth P p range halfWidth effect nF nL = some q)
    (hn : p.spheres.length < 4294967296) (hi : i < p.spheres.length) :
    q.spheres.length = p.spheres.length
    ∧ ∃ cur mid, cur.length = p.spheres.length
      ∧ (∀ j, sphereAt cur j = heldAt p.spheres q.spheres i j)
      ∧ smoothStep P range halfWidth effect nF nL cur.length cur i = some mid
      ∧ sphereAt q.spheres i = sphereAt mid i := by
  have hu : u32 p.spheres.length = p.spheres.length := Nat.mod_eq_of_lt hn
  obtain ⟨hl, _⟩ := smooth_loop P p q range halfWidth effect nF nL h
  rw [hu] at hl
  obtain ⟨cur, mid, h1, h2, h3, h4, h5⟩ := smoothLoop_at P range halfWidth effect nF nL
    p.spheres.length p.spheres q.spheres i hl hi
  refine ⟨h2, cur, mid, h1, h3, ?_, h5⟩
  rw [h1]
  exact h4

theorem heldAt_self (before after : List PrimSphere) (i : Nat) :
    heldAt before after i i = sphereAt before i := by
  simp [heldAt]

/-- C13: in a completed `smooth` with effect `None`, at every affected index
`i` the code's half width is `hW = min (halfWidth, i, count − 1 − i)` and the
new sphere at `i` is the mean, over the `2 * hW + 1` indices of
`[i − hW, i + hW]`, of the values held when the pass reaches `i`: the values
after the call below `i`, the values before the call from `i` on. -/
theorem smooth_cascade (P : Prims) (p q : SketchPath) (range : PrimSphere) (halfWidth : Nat)
    (nearestToFirst nearestToLast : Option PrimSphere) (i : Nat)
    (h : smooth P p range halfWidth SketchPathSmoothEffect.None nearestToFirst nearestToLast
      = some q)
    (hn : p.spheres.length < 2147483648) (hi : i < p.spheres.length)
    (hr : P.intersectsSphereSphere range (sphereAt p.spheres i) = true) :
    halfWidthAt p.spheres.length halfWidth i
      = min halfWidth (min i (p.spheres.length - 1 - i))
    ∧ q.spheres[i]? = some (meanSphere (heldAt p.spheres q.spheres i)
        (i - min halfWidth (min i (p.spheres.length - 1 - i)))
        (2 * min halfWidth (min i (p.spheres.length - 1 - i)) + 1)) := by
  obtain ⟨hlen, cur, mid, hcl, hcur, hstep, hout⟩ :=
    smooth_at P p q range halfWidth SketchPathSmoothEffect.None nearestToFirst nearestToLast i h
      (by omega) hi
  have hri : P.intersectsSphereSphere range (sphereAt cur i) = true := by
    rw [hcur i, heldAt_self]
    exact hr
  obtain ⟨h1, h2, h3⟩ := smoothStep_affected_at P range halfWidth SketchPathSmoothEffect.None
    nearestToFirst nearestToLast cur mid i (by omega) (by omega) hri hstep
  rw [hcl] at h1 h2 h3
  have hmin := halfWidthAt_eq_min_of_window p.spheres.length halfWidth i (by omega) hi h2
  refine ⟨hmin, ?_⟩
  rw [← hmin, getElem?_eq_sphereAt q.spheres i (by omega), hout, h3, applyEffect_none]
  have hdiv : u32 (2 * halfWidthAt p.spheres.length halfWidth i + 1 + 0)
      = 2 * halfWidthAt p.spheres.length halfWidth i + 1 := by
    unfold u32; omega
  have hf : (fun t => sphereAt cur t) = heldAt p.spheres q.spheres i := funext hcur
  simp only [windowTotals, hdiv, meanSphere, meanOver, Vec3.divScalar, ← hf]

end Dilay

namespace Dilay

open SketchPath

theorem kinkPath_spheres :
    kinkPath.spheres = [sphereOnX 0 1, sphereOnX 3 1, sphereOnX 0 1, sphereOnX 0 1] := rfl

theorem smooth_kinkPath_spheres :
    (smooth samplePrims kinkPath wideRange 1 SketchPathSmoothEffect.None none none).map
        (fun q => q.spheres)
      = some [sphereOnX 0 1, sphereOnX 1 1, sphereOnX (1 / 3) 1, sphereOnX 0 1] := by
  simp [smooth, kinkPath_spheres, smoothLoop, smoothStep, windowSum, windowLoop, halfWidthAt,
    applyEffect, u32, sub32, add32, wideRange, sphereOnX, samplePrims, Vec3.dot, Vec3.sub,
    Vec3.add, Vec3.splat, Vec3.divScalar]
  norm_num

/-- C13 on four unit spheres at x = 0, 3, 0, 0 with `halfWidth = 1`: the pass
gives x = 0, 1, 1/3, 0; at index 2 the new center is the mean of the held
values 1, 0, 0, while the mean of the values before the call, 3, 0, 0, is 1. -/
theorem smooth_cascade_witness :
    ∃ q, smooth samplePrims kinkPath wideRange 1 SketchPathSmoothEffect.None none none = some q
      ∧ q.spheres = [sphereOnX 0 1, sphereOnX 1 1, sphereOnX (1 / 3) 1, sphereOnX 0 1]
      ∧ (kinkPath.spheres.length < 2147483648 ∧ 2 < kinkPath.spheres.length
        ∧ samplePrims.intersectsSphereSphere wideRange (sphereAt kinkPath.spheres 2) = true)
      ∧ (halfWidthAt kinkPath.spheres.length 1 2
          = min 1 (min 2 (kinkPath.spheres.length - 1 - 2))
        ∧ q.spheres[2]? = some (meanSphere (heldAt kinkPath.spheres q.spheres 2)
            (2 - min 1 (min 2 (kinkPath.spheres.length - 1 - 2)))
            (2 * min 1 (min 2 (kinkPath.spheres.length - 1 - 2)) + 1)))
      ∧ meanSphere (sphereAt kinkPath.spheres) 1 3 = sphereOnX 1 1 := by
  have h := smooth_kinkPath_spheres
  have h1 : kinkPath.spheres.length < 2147483648 := by
    rw [kinkPath_spheres]
    decide
  have h2 : 2 < kinkPath.spheres.length := by
    rw [kinkPath_spheres]
    decide
  have h3 : samplePrims.intersectsSphereSphere wideRange (sphereAt kinkPath.spheres 2) = true := by
    simp [kinkPath_spheres, sphereAt, samplePrims, wideRange, sphereOnX, Vec3.dot, Vec3.sub]
    norm_num
  have h4 : meanSphere (sphereAt kinkPath.spheres) 1 3 = sphereOnX 1 1 := by
    simp [kinkPath_spheres, meanSphere, meanOver, sumOver, sphereAt, sphereOnX]
    norm_num
  cases hq : smooth samplePrims kinkPath wideRange 1 SketchPathSmoothEffect.None none none with
  | none => rw [hq] at h; cases h
  | some q =>
    rw [hq] at h
    exact ⟨q, rfl, Option.some.inj h, ⟨h1, h2, h3⟩,
      smooth_cascade samplePrims kinkPath q wideRange 1 none none 2 hq h1 h2 h3, h4⟩

end Dilay

namespace Dilay

open SketchPath

/-! ## Smoothing: `Pinch` against `None` -/

theorem applyEnd_pinch (nearest : Option PrimSphere) (st : Vec3 × ℚ × Nat × Nat) :
    applyEnd SketchPathSmoothEffect.Pinch nearest st
      = (st.1, st.2.1, st.2.2.1, add32 st.2.2.2 1) := by
  cases nearest <;> simp [applyEnd]

/-- The boundary block of `Pinch` keeps both sums and the center count; it
adds one to the radius count for the first end when `i < halfWidth` and one
for the last end when `numS - halfWidth ≤ i` (unsigned). -/
theorem applyEffect_pinch (nF nL : Option PrimSphere) (numS halfWidth i : Nat)
    (st : Vec3 × ℚ × Nat × Nat) :
    applyEffect SketchPathSmoothEffect.Pinch nF nL numS halfWidth i st
      = (st.1, st.2.1, st.2.2.1,
          if sub32 numS halfWidth ≤ i then
            add32 (if i < halfWidth then add32 st.2.2.2 1 else st.2.2.2) 1
          else (if i < halfWidth then add32 st.2.2.2 1 else st.2.2.2)) := by
  unfold applyEffect
  simp only [ne_eq, reduceCtorEq, not_false_eq_true, if_true]
  by_cases h1 : i < halfWidth <;> by_cases h2 : sub32 numS halfWidth ≤ i <;>
    simp [h1, h2, applyEnd_pinch]

theorem windowSum_center_congr (s1 s2 : List PrimSphere) (i hW : Nat) (c1 c2 : Vec3 × ℚ)
    (hc : ∀ j, (sphereAt s1 j).center = (sphereAt s2 j).center)
    (h1 : windowSum s1 i hW = some c1) (h2 : windowSum s2 i hW = some c2) :
    c1.1 = c2.1 := by
  unfold windowSum at h1 h2
  obtain ⟨_, e1, _⟩ := windowLoop_eq _ _ _ _ _ h1
  obtain ⟨_, e2, _⟩ := windowLoop_eq _ _ _ _ _ h2
  have hx : (fun t => (sphereAt s1 t).center.x) = (fun t => (sphereAt s2 t).center.x) :=
    funext (fun t => by rw [hc t])
  have hy : (fun t => (sphereAt s1 t).center.y) = (fun t => (sphereAt s2 t).center.y) :=
    funext (fun t => by rw [hc t])
  have hz : (fun t => (sphereAt s1 t).center.z) = (fun t => (sphereAt s2 t).center.z) :=
    funext (fun t => by rw [hc t])
  rw [e1, e2, hx, hy, hz]

theorem windowSum_congr_length (s1 s2 : List PrimSphere) (hl : s1.length = s2.length)
    (i hW : Nat) (c1 : Vec3 × ℚ) (h : windowSum s1 i hW = some c1) :
    ∃ c2, windowSum s2 i hW = some c2 :=
  windowLoop_congr_length s1 s2 hl _ _ _ _ c1 h

/-- Two passes whose boundary blocks treat the center sum and the center count
alike, started on sequences with the same centers that agree from `i` on:
if the first completes, so does the second, and they end with the same
centers. -/
theorem smoothLoop_centers (P : Prims) (range : PrimSphere) (halfWidth : Nat)
    (e1 e2 : SketchPathSmoothEffect) (nF1 nL1 nF2 nL2 : Option PrimSphere) (numS : Nat)
    (hE : ∀ i (st1 st2 : Vec3 × ℚ × Nat × Nat), st1.1 = st2.1 → st1.2.2.1 = st2.2.2.1 →
      (applyEffect e1 nF1 nL1 numS halfWidth i st1).1
          = (applyEffect e2 nF2 nL2 numS halfWidth i st2).1
      ∧ (applyEffect e1 nF1 nL1 numS halfWidth i st1).2.2.1
          = (applyEffect e2 nF2 nL2 numS halfWidth i st2).2.2.1)
    (k i : Nat) (s1 s2 out1 : List PrimSphere)
    (hlen : s1.length = s2.length)
    (hc : ∀ j, (sphereAt s1 j).center = (sphereAt s2 j).center)
    (hge : ∀ j, i ≤ j → sphereAt s1 j = sphereAt s2 j)
    (h : smoothLoop P range halfWidth e1 nF1 nL1 numS i k s1 = some out1) :
    ∃ out2, smoothLoop P range halfWidth e2 nF2 nL2 numS i k s2 = some out2
      ∧ out1.length = out2.length
      ∧ ∀ j, (sphereAt out1 j).center = (sphereAt out2 j).center := by
  induction k generalizing i s1 s2 with
  | zero =>
    simp only [smoothLoop] at h
    cases Option.some.inj h
    exact ⟨s2, rfl, hlen, hc⟩
  | succ k ih =>
    simp only [smoothLoop] at h
    cases hs : smoothStep P range halfWidth e1 nF1 nL1 numS s1 i with
    | none => simp [hs] at h
    | some m1 =>
      simp only [hs] at h
      obtain ⟨si, hsi, hcase⟩ := smoothStep_eq P range halfWidth e1 nF1 nL1 numS s1 m1 i hs
      have hi1 : i < s1.length := by
        by_contra c
        rw [List.getElem?_eq_none (by omega)] at hsi
        cases hsi
      have hsi1 := getElem?_eq_some_sphereAt s1 i si hsi
      have hsi2 : s2[i]? = some si := by
        rw [getElem?_eq_sphereAt s2 i (by omega), ← hge i (le_refl _), hsi1]
      rcases hcase with ⟨hr, em⟩ | ⟨hr, cr1, hw1, em⟩
      · rw [em] at h
        have hs2 := smoothStep_unaffected P range halfWidth e2 nF2 nL2 numS s2 i si hsi2 hr
        obtain ⟨out2, ho, hl, hcc⟩ := ih (i + 1) s1 s2 hlen hc
          (fun j hj => hge j (by omega)) h
        exact ⟨out2, by simp only [smoothLoop, hs2]; exact ho, hl, hcc⟩
      · obtain ⟨cr2, hw2⟩ := windowSum_congr_length s1 s2 hlen i _ cr1 hw1
        have hs2 := smoothStep_affected P range halfWidth e2 nF2 nL2 numS s2 i si cr2 hsi2 hr hw2
        have hcr := windowSum_center_congr s1 s2 i _ cr1 cr2 hc hw1 hw2
        obtain ⟨hE1, hE2⟩ := hE i (cr1.1, cr1.2, 0, 0) (cr2.1, cr2.2, 0, 0) hcr rfl
        obtain ⟨v1, hv1, em1⟩ : ∃ v1 : PrimSphere,
            v1.center = Vec3.divScalar
              (applyEffect e1 nF1 nL1 numS halfWidth i (cr1.1, cr1.2, 0, 0)).1
              ((u32 (2 * halfWidthAt numS halfWidth i + 1
                + (applyEffect e1 nF1 nL1 numS halfWidth i (cr1.1, cr1.2, 0, 0)).2.2.1) : Nat) : ℚ)
            ∧ m1 = s1.set i v1 := ⟨_, rfl, em⟩
        obtain ⟨v2, hv2, hs3⟩ : ∃ v2 : PrimSphere,
            v2.center = Vec3.divScalar
              (applyEffect e2 nF2 nL2 numS halfWidth i (cr2.1, cr2.2, 0, 0)).1
              ((u32 (2 * halfWidthAt numS halfWidth i + 1
                + (applyEffect e2 nF2 nL2 numS halfWidth i (cr2.1, cr2.2, 0, 0)).2.2.1) : Nat) : ℚ)
            ∧ smoothStep P range halfWidth e2 nF2 nL2 numS s2 i = some (s2.set i v2) :=
          ⟨_, rfl, hs2⟩
        have hv : v1.center = v2.center := by rw [hv1, hv2, hE1, hE2]
        rw [em1] at h
        obtain ⟨out2, ho, hl, hcc⟩ := ih (i + 1) (s1.set i v1) (s2.set i v2)
          (by rw [List.length_set, List.length_set]; exact hlen)
          (fun j => by
            by_cases c : i = j
            · subst c
              rw [sphereAt_set_self s1 i _ hi1, sphereAt_set_self s2 i _ (by omega)]
              exact hv
            · rw [sphereAt_set_ne s1 i j _ c, sphereAt_set_ne s2 i j _ c]
              exact hc j)
          (fun j hj => by
            rw [sphereAt_set_ne s1 i j _ (by omega), sphereAt_set_ne s2 i j _ (by omega)]
            exact hge j (by omega))
          h
        exact ⟨out2, by simp only [smoothLoop, hs3]; exact ho, hl, hcc⟩

theorem map_center_eq (l1 l2 : List PrimSphere) (hl : l1.length = l2.length)
    (hc : ∀ j, (sphereAt l1 j).center = (sphereAt l2 j).center) :
    l1.map (fun s => s.center) = l2.map (fun s => s.center) := by
  apply List.ext_getElem?
  intro j
  rw [List.getElem?_map, List.getElem?_map]
  by_cases c : j < l1.length
  · rw [getElem?_eq_sphereAt l1 j c, getElem?_eq_sphereAt l2 j (by omega)]
    simp [hc j]
  · rw [List.getElem?_eq_none (by omega), List.getElem?_eq_none (by omega)]

theorem smooth_centers (P : Prims) (p q1 : SketchPath) (range : PrimSphere) (halfWidth : Nat)
    (e1 e2 : SketchPathSmoothEffect) (nF1 nL1 nF2 nL2 : Option PrimSphere)
    (hE : ∀ i (st1 st2 : Vec3 × ℚ × Nat × Nat), st1.1 = st2.1 → st1.2.2.1 = st2.2.2.1 →
      (applyEffect e1 nF1 nL1 (u32 p.spheres.length) halfWidth i st1).1
          = (applyEffect e2 nF2 nL2 (u32 p.spheres.length) halfWidth i st2).1
      ∧ (applyEffect e1 nF1 nL1 (u32 p.spheres.length) halfWidth i st1).2.2.1
          = (applyEffect e2 nF2 nL2 (u32 p.spheres.length) halfWidth i st2).2.2.1)
    (h : smooth P p range halfWidth e1 nF1 nL1 = some q1) :
    ∃ q2, smooth P p range halfWidth e2 nF2 nL2 = some q2
      ∧ q1.spheres.map (fun s => s.center) = q2.spheres.map (fun s => s.center) := by
  obtain ⟨hl, _⟩ := smooth_loop P p q1 range halfWidth e1 nF1 nL1 h
  obtain ⟨out2, ho, hlen, hc⟩ := smoothLoop_centers P range halfWidth e1 e2 nF1 nL1 nF2 nL2
    (u32 p.spheres.length) hE (u32 p.spheres.length) 0 p.spheres p.spheres q1.spheres rfl
    (fun _ => rfl) (fun _ _ => rfl) hl
  refine ⟨setMinMax { p with spheres := out2 }, ?_, ?_⟩
  · unfold smooth
    simp only [ho]
  · rw [setMinMax_spheres]
    exact map_center_eq _ _ hlen hc

/-- C14: `smooth` with effect `Pinch` completes exactly when `smooth` with
effect `None` completes on the same inputs, and then the centers after the
two calls are equal index by index. -/
theorem smooth_pinch_centers (P : Prims) (p : SketchPath) (range : PrimSphere) (halfWidth : Nat)
    (nearestToFirst nearestToLast : Option PrimSphere) :
    (∀ q1, smooth P p range halfWidth SketchPathSmoothEffect.Pinch nearestToFirst nearestToLast
        = some q1 →
      ∃ q2, smooth P p range halfWidth SketchPathSmoothEffect.None nearestToFirst nearestToLast
          = some q2
        ∧ q1.spheres.map (fun s => s.center) = q2.spheres.map (fun s => s.center))
    ∧ (∀ q2, smooth P p range halfWidth SketchPathSmoothEffect.None nearestToFirst nearestToLast
        = some q2 →
      ∃ q1, smooth P p range halfWidth SketchPathSmoothEffect.Pinch nearestToFirst nearestToLast
          = some q1
        ∧ q1.spheres.map (fun s => s.center) = q2.spheres.map (fun s => s.center)) := by
  constructor
  · intro q1 h
    apply smooth_centers P p q1 range halfWidth _ _ _ _ _ _ _ h
    intro i st1 st2 h1 h2
    rw [applyEffect_pinch, applyEffect_none]
    exact ⟨h1, h2⟩
  · intro q2 h
    obtain ⟨q1, hq, hc⟩ := smooth_centers P p q2 range halfWidth SketchPathSmoothEffect.None
      SketchPathSmoothEffect.Pinch nearestToFirst nearestToLast nearestToFirst nearestToLast
      (by
        intro i st1 st2 h1 h2
        rw [applyEffect_pinch, applyEffect_none]
        exact ⟨h1, h2⟩) h
    exact ⟨q1, hq, hc.symm⟩

end Dilay

namespace Dilay

open SketchPath

theorem smooth_pinch_kinkPath_spheres :
    (smooth samplePrims kinkPath wideRange 1 SketchPathSmoothEffect.Pinch none none).map
        (fun q => q.spheres)
      = some [sphereOnX 0 (1 / 2), sphereOnX 1 (5 / 6), sphereOnX (1 / 3) (17 / 18),
              sphereOnX 0 (1 / 2)] := by
  simp [smooth, kinkPath_spheres, smoothLoop, smoothStep, windowSum, windowLoop, halfWidthAt,
    applyEffect, applyEnd, u32, sub32, add32, wideRange, sphereOnX, samplePrims, Vec3.dot,
    Vec3.sub, Vec3.add, Vec3.splat, Vec3.divScalar]
  norm_num

/-- C14 on four unit spheres at x = 0, 3, 0, 0 with `halfWidth = 1`: `Pinch`
gives the radii 1/2, 5/6, 17/18, 1/2 and the centers of effect `None`. -/
theorem smooth_pinch_centers_witness :
    ∃ q1 q2,
      smooth samplePrims kinkPath wideRange 1 SketchPathSmoothEffect.Pinch none none = some q1
      ∧ q1.spheres = [sphereOnX 0 (1 / 2), sphereOnX 1 (5 / 6), sphereOnX (1 / 3) (17 / 18),
              sphereOnX 0 (1 / 2)]
      ∧ smooth samplePrims kinkPath wideRange 1 SketchPathSmoothEffect.None none none = some q2
      ∧ q1.spheres.map (fun s => s.center) = q2.spheres.map (fun s => s.center) := by
  have h := smooth_pinch_kinkPath_spheres
  cases hq : smooth samplePrims kinkPath wideRange 1 SketchPathSmoothEffect.Pinch none none with
  | none => rw [hq] at h; cases h
  | some q1 =>
    rw [hq] at h
    obtain ⟨q2, h2, hc⟩ := (smooth_pinch_centers samplePrims kinkPath wideRange 1 none none).1 q1 hq
    exact ⟨q1, q2, rfl, Option.some.inj h, h2, hc⟩

/-! ### Radii -/

theorem sumOver_mono (f g : Nat → ℚ) (h : ∀ t, f t ≤ g t) (m j : Nat) :
    sumOver f j m ≤ sumOver g j m := by
  induction m generalizing j with
  | zero => exact le_refl _
  | succ m ih =>
    simp only [sumOver]
    exact add_le_add (h j) (ih (j + 1))

theorem sumOver_nonneg (f : Nat → ℚ) (h : ∀ t, 0 ≤ f t) (m j : Nat) :
    0 ≤ sumOver f j m := by
  induction m generalizing j with
  | zero => exact le_refl _
  | succ m ih =>
    simp only [sumOver]
    exact add_nonneg (h j) (ih (j + 1))

theorem sphereAt_radius_nonneg (l : List PrimSphere) (h : ∀ s ∈ l, 0 ≤ s.radius) (t : Nat) :
    0 ≤ (sphereAt l t).radius := by
  by_cases c : t < l.length
  · have e := getElem?_eq_sphereAt l t c
    exact h _ (List.getElem?_mem e)
  · rw [sphereAt_of_length_le l t (by omega)]

theorem windowSum_radius (spheres : List PrimSphere) (i hW : Nat) (cr : Vec3 × ℚ)
    (h : windowSum spheres i hW = some cr) :
    cr.2 = sumOver (fun t => (sphereAt spheres t).radius) (sub32 i hW)
      (add32 i hW + 1 - sub32 i hW) := by
  unfold windowSum at h
  obtain ⟨_, _, e⟩ := windowLoop_eq _ _ _ _ _ h
  rw [e]
  simp

/-- The radius count after the boundary block of `Pinch`, without wrap. -/
theorem pinch_count (numS halfWidth i : Nat) :
    (if sub32 numS halfWidth ≤ i then add32 (if i < halfWidth then add32 0 1 else 0) 1
      else (if i < halfWidth then add32 0 1 else 0))
      = (if i < halfWidth then 1 else 0) + (if sub32 numS halfWidth ≤ i then 1 else 0) := by
  by_cases h1 : i < halfWidth <;> by_cases h2 : sub32 numS halfWidth ≤ i <;>
    simp [h1, h2, add32]

end Dilay

namespace Dilay

open SketchPath

/-- One affected step of `Pinch` against one of `None` on sequences whose
radii are ordered: the new `Pinch` radius is non-negative and at most the new
`None` radius. -/
theorem pinch_step_radius (nF nL nF2 nL2 : Option PrimSphere) (numS halfWidth i : Nat)
    (hn : numS < 2147483648) (hi : i < numS) (c1 c2 : Vec3 × ℚ)
    (h0 : 0 ≤ c1.2) (h12 : c1.2 ≤ c2.2) :
    0 ≤ (applyEffect SketchPathSmoothEffect.Pinch nF nL numS halfWidth i (c1.1, c1.2, 0, 0)).2.1
        / ((u32 (2 * halfWidthAt numS halfWidth i + 1
          + (applyEffect SketchPathSmoothEffect.Pinch nF nL numS halfWidth i
              (c1.1, c1.2, 0, 0)).2.2.2) : Nat) : ℚ)
    ∧ (applyEffect SketchPathSmoothEffect.Pinch nF nL numS halfWidth i (c1.1, c1.2, 0, 0)).2.1
        / ((u32 (2 * halfWidthAt numS halfWidth i + 1
          + (applyEffect SketchPathSmoothEffect.Pinch nF nL numS halfWidth i
              (c1.1, c1.2, 0, 0)).2.2.2) : Nat) : ℚ)
      ≤ (applyEffect SketchPathSmoothEffect.None nF2 nL2 numS halfWidth i (c2.1, c2.2, 0, 0)).2.1
        / ((u32 (2 * halfWidthAt numS halfWidth i + 1
          + (applyEffect SketchPathSmoothEffect.None nF2 nL2 numS halfWidth i
              (c2.1, c2.2, 0, 0)).2.2.2) : Nat) : ℚ) := by
  have hle := halfWidthAt_le numS halfWidth i (by omega) hi
  rw [applyEffect_pinch, applyEffect_none]
  simp only [pinch_count]
  have hk : (if i < halfWidth then 1 else 0) + (if sub32 numS halfWidth ≤ i then 1 else 0) ≤ 2 := by
    split <;> split <;> omega
  have hd1 : u32 (2 * halfWidthAt numS halfWidth i + 1
      + ((if i < halfWidth then 1 else 0) + (if sub32 numS halfWidth ≤ i then 1 else 0)))
      = 2 * halfWidthAt numS halfWidth i + 1
      + ((if i < halfWidth then 1 else 0) + (if sub32 numS halfWidth ≤ i then 1 else 0)) := by
    unfold u32
    omega
  have hd2 : u32 (2 * halfWidthAt numS halfWidth i + 1 + 0)
      = 2 * halfWidthAt numS halfWidth i + 1 := by
    unfold u32
    omega
  rw [hd1, hd2]
  have hpos : (0 : ℚ) < ((2 * halfWidthAt numS halfWidth i + 1 : Nat) : ℚ) := by
    exact_mod_cast Nat.succ_pos (2 * halfWidthAt numS halfWidth i)
  have hmono : ((2 * halfWidthAt numS halfWidth i + 1 : Nat) : ℚ)
      ≤ ((2 * halfWidthAt numS halfWidth i + 1
      + ((if i < halfWidth then 1 else 0) + (if sub32 numS halfWidth ≤ i then 1 else 0)) : Nat) : ℚ) := by
    exact_mod_cast Nat.le_add_right _ _
  constructor
  · exact div_nonneg h0 (le_trans (le_of_lt hpos) hmono)
  · exact div_le_div₀ (le_trans h0 h12) h12 hpos hmono

/-- Two passes, `Pinch` and `None`, on sequences whose radii are ordered and
that agree from `i` on: the radii stay ordered. -/
theorem smoothLoop_pinch_radii (P : Prims) (range : PrimSphere) (halfWidth : Nat)
    (nF nL nF2 nL2 : Option PrimSphere) (numS : Nat) (hn : numS < 2147483648)
    (k i : Nat) (hk : i + k ≤ numS) (s1 s2 out1 out2 : List PrimSphere)
    (hlen : s1.length = s2.length)
    (hge : ∀ j, i ≤ j → sphereAt s1 j = sphereAt s2 j)
    (hrad : ∀ j, 0 ≤ (sphereAt s1 j).radius ∧ (sphereAt s1 j).radius ≤ (sphereAt s2 j).radius)
    (h1 : smoothLoop P range halfWidth SketchPathSmoothEffect.Pinch nF nL numS i k s1 = some out1)
    (h2 : smoothLoop P range halfWidth SketchPathSmoothEffect.None nF2 nL2 numS i k s2
      = some out2) :
    ∀ j, 0 ≤ (sphereAt out1 j).radius ∧ (sphereAt out1 j).radius ≤ (sphereAt out2 j).radius := by
  induction k generalizing i s1 s2 with
  | zero =>
    simp only [smoothLoop] at h1 h2
    rw [← Option.some.inj h1, ← Option.some.inj h2]
    exact hrad
  | succ k ih =>
    simp only [smoothLoop] at h1 h2
    cases hs1 : smoothStep P range halfWidth SketchPathSmoothEffect.Pinch nF nL numS s1 i with
    | none => simp [hs1] at h1
    | some m1 =>
      cases hs2 : smoothStep P range halfWidth SketchPathSmoothEffect.None nF2 nL2 numS s2 i with
      | none => simp [hs2] at h2
      | some m2 =>
        simp only [hs1] at h1
        simp only [hs2] at h2
        obtain ⟨si, hsi, hcase1⟩ := smoothStep_eq P range halfWidth _ nF nL numS s1 m1 i hs1
        obtain ⟨si2, hsi2, hcase2⟩ := smoothStep_eq P range halfWidth _ nF2 nL2 numS s2 m2 i hs2
        have hi1 : i < s1.length := by
          by_contra c
          rw [List.getElem?_eq_none (by omega)] at hsi
          cases hsi
        have e1 := getElem?_eq_some_sphereAt s1 i si hsi
        have e2 := getElem?_eq_some_sphereAt s2 i si2 hsi2
        have hsame : si = si2 := by rw [← e1, ← e2]; exact hge i (le_refl _)
        subst hsame
        rcases hcase1 with ⟨hr1, em1⟩ | ⟨hr1, cr1, hw1, em1⟩
        · rcases hcase2 with ⟨_, em2⟩ | ⟨hr2, _⟩
          · rw [em1] at h1
            rw [em2] at h2
            exact ih (i + 1) (by omega) s1 s2 hlen (fun j hj => hge j (by omega)) hrad h1 h2
          · rw [hr1] at hr2
            cases hr2
        · rcases hcase2 with ⟨hr2, _⟩ | ⟨_, cr2, hw2, em2⟩
          · rw [hr1] at hr2
            cases hr2
          · have r1 := windowSum_radius s1 i _ cr1 hw1
            have r2 := windowSum_radius s2 i _ cr2 hw2
            have h0 : 0 ≤ cr1.2 := by
              rw [r1]
              exact sumOver_nonneg _ (fun t => (hrad t).1) _ _
            have h12 : cr1.2 ≤ cr2.2 := by
              rw [r1, r2]
              exact sumOver_mono _ _ (fun t => (hrad t).2) _ _
            have hstep := pinch_step_radius nF nL nF2 nL2 numS halfWidth i hn (by omega)
              cr1 cr2 h0 h12
            obtain ⟨v1, hv1, em1b⟩ : ∃ v1 : PrimSphere,
                v1.radius = (applyEffect SketchPathSmoothEffect.Pinch nF nL numS halfWidth i
                    (cr1.1, cr1.2, 0, 0)).2.1
                  / ((u32 (2 * halfWidthAt numS halfWidth i + 1
                    + (applyEffect SketchPathSmoothEffect.Pinch nF nL numS halfWidth i
                        (cr1.1, cr1.2, 0, 0)).2.2.2) : Nat) : ℚ)
                ∧ m1 = s1.set i v1 := ⟨_, rfl, em1⟩
            obtain ⟨v2, hv2, em2b⟩ : ∃ v2 : PrimSphere,
                v2.radius = (applyEffect SketchPathSmoothEffect.None nF2 nL2 numS halfWidth i
                    (cr2.1, cr2.2, 0, 0)).2.1
                  / ((u32 (2 * halfWidthAt numS halfWidth i + 1
                    + (applyEffect SketchPathSmoothEffect.None nF2 nL2 numS halfWidth i
                        (cr2.1, cr2.2, 0, 0)).2.2.2) : Nat) : ℚ)
                ∧ m2 = s2.set i v2 := ⟨_, rfl, em2⟩
            rw [← hv1, ← hv2] at hstep
            rw [em1b] at h1
            rw [em2b] at h2
            exact ih (i + 1) (by omega) (s1.set i v1) (s2.set i v2)
              (by rw [List.length_set, List.length_set]; exact hlen)
              (fun j hj => by
                rw [sphereAt_set_ne s1 i j _ (by omega), sphereAt_set_ne s2 i j _ (by omega)]
                exact hge j (by omega))
              (fun j => by
                by_cases c : i = j
                · subst c
                  rw [sphereAt_set_self s1 i _ hi1, sphereAt_set_self s2 i _ (by omega)]
                  exact hstep
                · rw [sphereAt_set_ne s1 i j _ c, sphereAt_set_ne s2 i j _ c]
                  exact hrad j)
              h1 h2

end Dilay

namespace Dilay

open SketchPath

/-- For `halfWidth ≤ numS` the unsigned test `i >= numS - halfWidth` of the
last-end block says that `i` is within `halfWidth` of the last index. -/
theorem lastEnd_test (numS halfWidth i : Nat) (hn : numS < 4294967296) (hi : i < numS)
    (hw : halfWidth ≤ numS) : sub32 numS halfWidth ≤ i ↔ numS - 1 - i < halfWidth := by
  unfold sub32
  omega

/-- Radii under `Pinch`: for radii ≥ 0, when `smooth` with effect `Pinch`
completes so does `smooth` with effect `None`, and each radius after `Pinch`
is at most the radius at the same index after `None`.  At an affected index the `Pinch`
radius is the sum of the radii held over the window `[i − hW, i + hW]`
divided by `2 * hW + 1` plus one for each end whose test holds (`i < halfWidth`
for the first end, the unsigned `i >= numS - halfWidth` for the last end,
which for `halfWidth ≤ count` says `count − 1 − i < halfWidth`); nothing is
added to the sum. -/
theorem smooth_pinch_shrinks (P : Prims) (p q1 : SketchPath) (range : PrimSphere)
    (halfWidth : Nat) (nearestToFirst nearestToLast : Option PrimSphere)
    (hn : p.spheres.length < 2147483648) (hpos : ∀ s ∈ p.spheres, 0 ≤ s.radius)
    (h1 : smooth P p range halfWidth SketchPathSmoothEffect.Pinch nearestToFirst nearestToLast
      = some q1) :
    ∃ q2, smooth P p range halfWidth SketchPathSmoothEffect.None nearestToFirst nearestToLast
        = some q2
      ∧ (∀ (j : Nat) (s1 s2 : PrimSphere), q1.spheres[j]? = some s1 → q2.spheres[j]? = some s2 →
          s1.radius ≤ s2.radius)
      ∧ (∀ (i : Nat) (s1 : PrimSphere), i < p.spheres.length →
          P.intersectsSphereSphere range (sphereAt p.spheres i) = true →
          q1.spheres[i]? = some s1 →
          s1.radius
            = sumOver (fun t => (heldAt p.spheres q1.spheres i t).radius)
                (i - halfWidthAt p.spheres.length halfWidth i)
                (2 * halfWidthAt p.spheres.length halfWidth i + 1)
              / ((2 * halfWidthAt p.spheres.length halfWidth i + 1
                  + ((if i < halfWidth then 1 else 0)
                    + (if sub32 p.spheres.length halfWidth ≤ i then 1 else 0)) : Nat) : ℚ)
          ∧ halfWidthAt p.spheres.length halfWidth i
              = min halfWidth (min i (p.spheres.length - 1 - i))
          ∧ (halfWidth ≤ p.spheres.length →
              (sub32 p.spheres.length halfWidth ≤ i ↔ p.spheres.length - 1 - i < halfWidth))) := by
  have hu : u32 p.spheres.length = p.spheres.length := Nat.mod_eq_of_lt (by omega)
  obtain ⟨q2, h2, _⟩ := smooth_centers P p q1 range halfWidth SketchPathSmoothEffect.Pinch
    SketchPathSmoothEffect.None nearestToFirst nearestToLast nearestToFirst nearestToLast
    (by
      intro i st1 st2 e1 e2
      rw [applyEffect_pinch, applyEffect_none]
      exact ⟨e1, e2⟩) h1
  refine ⟨q2, h2, ?_, ?_⟩
  · obtain ⟨l1, _⟩ := smooth_loop P p q1 range halfWidth _ nearestToFirst nearestToLast h1
    obtain ⟨l2, _⟩ := smooth_loop P p q2 range halfWidth _ nearestToFirst nearestToLast h2
    rw [hu] at l1 l2
    have hall := smoothLoop_pinch_radii P range halfWidth nearestToFirst nearestToLast
      nearestToFirst nearestToLast p.spheres.length hn p.spheres.length 0 (by omega)
      p.spheres p.spheres q1.spheres q2.spheres rfl (fun _ _ => rfl)
      (fun j => ⟨sphereAt_radius_nonneg p.spheres hpos j, le_refl _⟩) l1 l2
    intro j s1 s2 e1 e2
    have a1 := getElem?_eq_some_sphereAt q1.spheres j s1 e1
    have a2 := getElem?_eq_some_sphereAt q2.spheres j s2 e2
    rw [← a1, ← a2]
    exact (hall j).2
  · intro i s1 hi hr e1
    obtain ⟨hlen, cur, mid, hcl, hcur, hstep, hout⟩ :=
      smooth_at P p q1 range halfWidth SketchPathSmoothEffect.Pinch nearestToFirst nearestToLast
        i h1 (by omega) hi
    have hri : P.intersectsSphereSphere range (sphereAt cur i) = true := by
      rw [hcur i, heldAt_self]
      exact hr
    obtain ⟨a1, a2, a3⟩ := smoothStep_affected_at P range halfWidth SketchPathSmoothEffect.Pinch
      nearestToFirst nearestToLast cur mid i (by omega) (by omega) hri hstep
    rw [hcl] at a1 a2 a3
    refine ⟨?_, halfWidthAt_eq_min_of_window p.spheres.length halfWidth i (by omega) hi a2,
      fun hw => lastEnd_test p.spheres.length halfWidth i (by omega) hi hw⟩
    have es := getElem?_eq_some_sphereAt q1.spheres i s1 e1
    rw [← es, hout, a3, applyEffect_pinch]
    have hf : (fun t => sphereAt cur t) = heldAt p.spheres q1.spheres i := funext hcur
    have hk : (if i < halfWidth then 1 else 0)
        + (if sub32 p.spheres.length halfWidth ≤ i then 1 else 0) ≤ 2 := by
      split <;> split <;> omega
    have hd : u32 (2 * halfWidthAt p.spheres.length halfWidth i + 1
        + ((if i < halfWidth then 1 else 0)
          + (if sub32 p.spheres.length halfWidth ≤ i then 1 else 0)))
        = 2 * halfWidthAt p.spheres.length halfWidth i + 1
        + ((if i < halfWidth then 1 else 0)
          + (if sub32 p.spheres.length halfWidth ≤ i then 1 else 0)) := by
      unfold u32
      omega
    simp only [windowTotals, pinch_count, hd, ← hf]

end Dilay

namespace Dilay

open SketchPath

/-- Radii under `Pinch` on four unit spheres at x = 0, 3, 0, 0 with
`halfWidth = 1`: the radii become 1/2, 5/6, 17/18, 1/2, each at most the
radius 1 that `None` gives; index 0 is within `halfWidth` of the first end and
its radius is the window sum 1 divided by 1 + 1. -/
theorem smooth_pinch_shrinks_witness :
    ∃ q1, smooth samplePrims kinkPath wideRange 1 SketchPathSmoothEffect.Pinch none none = some q1
      ∧ q1.spheres = [sphereOnX 0 (1 / 2), sphereOnX 1 (5 / 6), sphereOnX (1 / 3) (17 / 18),
              sphereOnX 0 (1 / 2)]
      ∧ (kinkPath.spheres.length < 2147483648 ∧ ∀ s ∈ kinkPath.spheres, 0 ≤ s.radius)
      ∧ ∃ q2, smooth samplePrims kinkPath wideRange 1 SketchPathSmoothEffect.None none none
          = some q2
        ∧ (∀ (j : Nat) (s1 s2 : PrimSphere), q1.spheres[j]? = some s1 →
            q2.spheres[j]? = some s2 → s1.radius ≤ s2.radius)
        ∧ (∀ (i : Nat) (s1 : PrimSphere), i < kinkPath.spheres.length →
            samplePrims.intersectsSphereSphere wideRange (sphereAt kinkPath.spheres i) = true →
            q1.spheres[i]? = some s1 →
            s1.radius
              = sumOver (fun t => (heldAt kinkPath.spheres q1.spheres i t).radius)
                  (i - halfWidthAt kinkPath.spheres.length 1 i)
                  (2 * halfWidthAt kinkPath.spheres.length 1 i + 1)
                / ((2 * halfWidthAt kinkPath.spheres.length 1 i + 1
                    + ((if i < 1 then 1 else 0)
                      + (if sub32 kinkPath.spheres.length 1 ≤ i then 1 else 0)) : Nat) : ℚ)
            ∧ halfWidthAt kinkPath.spheres.length 1 i
                = min 1 (min i (kinkPath.spheres.length - 1 - i))
            ∧ (1 ≤ kinkPath.spheres.length →
                (sub32 kinkPath.spheres.length 1 ≤ i ↔ kinkPath.spheres.length - 1 - i < 1))) := by
  have h := smooth_pinch_kinkPath_spheres
  have h1 : kinkPath.spheres.length < 2147483648 := by
    rw [kinkPath_spheres]
    decide
  have h2 : ∀ s ∈ kinkPath.spheres, 0 ≤ s.radius := by
    intro s hs
    rw [kinkPath_spheres] at hs
    simp only [List.mem_cons, List.mem_singleton, List.not_mem_nil, or_false] at hs
    rcases hs with e | e | e | e <;> subst e <;> simp [sphereOnX]
  cases hq : smooth samplePrims kinkPath wideRange 1 SketchPathSmoothEffect.Pinch none none with
  | none => rw [hq] at h; cases h
  | some q1 =>
    rw [hq] at h
    exact ⟨q1, rfl, Option.some.inj h, ⟨h1, h2⟩,
      smooth_pinch_shrinks samplePrims kinkPath q1 wideRange 1 none none h1 h2 hq⟩

/-! ### The last-end test for `halfWidth > count` -/

/-- C16 (the code at the failing input): one sphere, `halfWidth = 2`, effect
`Embed`, both anchors supplied.  Index 0 is affected and its window `{0}` is
read; `count − 1 − i = 0 < halfWidth`, yet the unsigned `numS - halfWidth` is
`4294967295`, the last-end block is skipped and only `nearestToFirst` enters:
the new center is `(0 + 3) / 2`, not `(0 + 3 + 6) / 3`. -/
theorem smooth_embed_last_end_skipped :
    samplePrims.intersectsSphereSphere wideRange (sphereOnX 0 1) = true
    ∧ windowSum unitPath.spheres 0 (halfWidthAt 1 2 0) = some (⟨0, 0, 0⟩, 1)
    ∧ 1 - 1 - 0 < 2
    ∧ sub32 1 2 = 4294967295
    ∧ applyEffect SketchPathSmoothEffect.Embed (some anchorFirst) (some anchorLast) 1 2 0
        (⟨0, 0, 0⟩, 1, 0, 0) = (⟨3, 0, 0⟩, 1, 1, 0)
    ∧ (smooth samplePrims unitPath wideRange 2 SketchPathSmoothEffect.Embed
          (some anchorFirst) (some anchorLast)).map (fun q => q.spheres)
        = some [sphereOnX (3 / 2) 1] := by
  refine ⟨?_, ?_, by decide, by decide, ?_, ?_⟩
  · simp [samplePrims, wideRange, sphereOnX, Vec3.dot, Vec3.sub]
    norm_num
  · simp [unitPath_spheres, windowSum, windowLoop, halfWidthAt, sub32, add32, sphereOnX,
      Vec3.add, Vec3.splat]
  · simp [applyEffect, applyEnd, sub32, add32, anchorFirst, sphereOnX, Vec3.add]
  · simp [smooth, unitPath_spheres, smoothLoop, smoothStep, windowSum, windowLoop, halfWidthAt,
      applyEffect, applyEnd, u32, sub32, add32, wideRange, sphereOnX, samplePrims, Vec3.dot,
      Vec3.sub, Vec3.add, Vec3.splat, Vec3.divScalar, anchorFirst, anchorLast]
    norm_num

end Dilay

namespace Dilay

open SketchPath

/-! ## Smoothing: invariants of the pass -/

/-- A property of the sequence that every successful step at an index below
`numS` preserves holds after the loop when it held before. -/
theorem smoothLoop_invariant (P : Prims) (range : PrimSphere) (halfWidth : Nat)
    (effect : SketchPathSmoothEffect) (nF nL : Option PrimSphere) (numS : Nat)
    (Inv : List PrimSphere → Prop)
    (hstep : ∀ i s out, i < numS → Inv s →
      smoothStep P range halfWidth effect nF nL numS s i = some out → Inv out)
    (k i : Nat) (hk : i + k ≤ numS) (s out : List PrimSphere)
    (h : smoothLoop P range halfWidth effect nF nL numS i k s = some out) (h0 : Inv s) :
    Inv out := by
  induction k generalizing i s with
  | zero =>
    simp only [smoothLoop] at h
    rw [← Option.some.inj h]
    exact h0
  | succ k ih =>
    simp only [smoothLoop] at h
    cases hs : smoothStep P range halfWidth effect nF nL numS s i with
    | none => simp [hs] at h
    | some s1 =>
      simp only [hs] at h
      exact ih (i + 1) (by omega) s1 h (hstep i s s1 (by omega) h0 hs)

theorem applyEnd_radius_nonneg (effect : SketchPathSmoothEffect) (nearest : Option PrimSphere)
    (st : Vec3 × ℚ × Nat × Nat) (h0 : 0 ≤ st.2.1)
    (hnear : ∀ a, nearest = some a → 0 ≤ a.radius) :
    0 ≤ (applyEnd effect nearest st).2.1 := by
  cases nearest with
  | none => cases effect <;> simp [applyEnd, h0]
  | some a =>
    have ha := hnear a rfl
    cases effect <;> simp [applyEnd, h0, add_nonneg h0 ha]

theorem applyEffect_radius_nonneg (effect : SketchPathSmoothEffect)
    (nF nL : Option PrimSphere) (numS halfWidth i : Nat) (st : Vec3 × ℚ × Nat × Nat)
    (h0 : 0 ≤ st.2.1) (hF : ∀ a, nF = some a → 0 ≤ a.radius)
    (hL : ∀ a, nL = some a → 0 ≤ a.radius) :
    0 ≤ (applyEffect effect nF nL numS halfWidth i st).2.1 := by
  unfold applyEffect
  by_cases he : effect ≠ SketchPathSmoothEffect.None
  · rw [if_pos he]
    have h1 : 0 ≤ (if i < halfWidth then applyEnd effect nF st else st).2.1 := by
      by_cases c : i < halfWidth
      · rw [if_pos c]
        exact applyEnd_radius_nonneg effect nF st h0 hF
      · rw [if_neg c]
        exact h0
    by_cases c2 : sub32 numS halfWidth ≤ i
    · simp only [if_pos c2]
      exact applyEnd_radius_nonneg effect nL _ h1 hL
    · simp only [if_neg c2]
      exact h1
  · rw [if_neg he]
    exact h0

/-- C19: when all radii of the path are ≥ 0 and the supplied anchors have
radius ≥ 0, every radius is ≥ 0 after a completed `smooth`, for every range,
half width and effect. -/
theorem smooth_radii_nonneg (P : Prims) (p q : SketchPath) (range : PrimSphere)
    (halfWidth : Nat) (effect : SketchPathSmoothEffect)
    (nearestToFirst nearestToLast : Option PrimSphere)
    (hpos : ∀ s ∈ p.spheres, 0 ≤ s.radius)
    (hF : ∀ a, nearestToFirst = some a → 0 ≤ a.radius)
    (hL : ∀ a, nearestToLast = some a → 0 ≤ a.radius)
    (h : smooth P p range halfWidth effect nearestToFirst nearestToLast = some q) :
    ∀ s ∈ q.spheres, 0 ≤ s.radius := by
  obtain ⟨hl, _⟩ := smooth_loop P p q range halfWidth effect nearestToFirst nearestToLast h
  have hinv := smoothLoop_invariant P range halfWidth effect nearestToFirst nearestToLast
    (u32 p.spheres.length) (fun s => ∀ t, 0 ≤ (sphereAt s t).radius)
    (by
      intro i s out _ hs hstep
      obtain ⟨si, hsi, hc⟩ := smoothStep_eq P range halfWidth effect nearestToFirst
        nearestToLast _ s out i hstep
      rcases hc with ⟨_, e⟩ | ⟨_, cr, hw, e⟩
      · rw [e]
        exact hs
      · have hi : i < s.length := by
          by_contra c
          rw [List.getElem?_eq_none (by omega)] at hsi
          cases hsi
        have hcr : 0 ≤ cr.2 := by
          rw [windowSum_radius s i _ cr hw]
          exact sumOver_nonneg _ hs _ _
        intro t
        rw [e]
        by_cases c : i = t
        · subst c
          rw [sphereAt_set_self s i _ hi]
          exact div_nonneg
            (applyEffect_radius_nonneg effect nearestToFirst nearestToLast _ halfWidth i
              (cr.1, cr.2, 0, 0) hcr hF hL)
            (Nat.cast_nonneg _)
        · rw [sphereAt_set_ne s i t _ c]
          exact hs t)
    (u32 p.spheres.length) 0 (by omega) p.spheres q.spheres hl
    (sphereAt_radius_nonneg p.spheres hpos)
  intro s hs
  obtain ⟨t, ht⟩ := List.mem_iff_getElem?.mp hs
  rw [← getElem?_eq_some_sphereAt q.spheres t s ht]
  exact hinv t

/-- C19 on the kink path with effect `EmbedAndAdjust` and both anchors. -/
theorem smooth_radii_nonneg_witness :
    ∃ q, smooth samplePrims kinkPath wideRange 1 SketchPathSmoothEffect.EmbedAndAdjust
        (some anchorFirst) (some anchorLast) = some q
      ∧ ((∀ s ∈ kinkPath.spheres, 0 ≤ s.radius)
        ∧ (∀ a, some anchorFirst = some a → 0 ≤ a.radius)
        ∧ (∀ a, some anchorLast = some a → 0 ≤ a.radius))
      ∧ ∀ s ∈ q.spheres, 0 ≤ s.radius := by
  have h2 : ∀ s ∈ kinkPath.spheres, 0 ≤ s.radius := by
    intro s hs
    rw [kinkPath_spheres] at hs
    simp only [List.mem_cons, List.mem_singleton, List.not_mem_nil, or_false] at hs
    rcases hs with e | e | e | e <;> subst e <;> simp [sphereOnX]
  have hF : ∀ a, some anchorFirst = some a → 0 ≤ a.radius := by
    intro a ha
    rw [← Option.some.inj ha]
    simp [anchorFirst, sphereOnX]
  have hL : ∀ a, some anchorLast = some a → 0 ≤ a.radius := by
    intro a ha
    rw [← Option.some.inj ha]
    simp [anchorLast, sphereOnX]
  obtain ⟨q, hq⟩ := smooth_completes samplePrims kinkPath wideRange 1
    SketchPathSmoothEffect.EmbedAndAdjust (some anchorFirst) (some anchorLast)
    (by rw [kinkPath_spheres]; decide) (by rw [kinkPath_spheres]; decide)
  exact ⟨q, hq, ⟨h2, hF, hL⟩,
    smooth_radii_nonneg samplePrims kinkPath q wideRange 1 SketchPathSmoothEffect.EmbedAndAdjust
      (some anchorFirst) (some anchorLast) h2 hF hL hq⟩

end Dilay

namespace Dilay

open SketchPath

/-! ## Smoothing with effect `None` keeps the box -/

/-- The fold of `setMinMax` from corners `(m0, M0)`: the result encloses every
sphere and the start corners, and is the tightest such pair. -/
theorem bounds_foldl_spec (l : List PrimSphere) (m0 M0 : Vec3) :
    (Vec3.le (l.foldl (fun b s => (Vec3.min b.1 (Vec3.sub s.center (Vec3.splat s.radius)),
                       Vec3.max b.2 (Vec3.add s.center (Vec3.splat s.radius)))) (m0, M0)).1 m0
      ∧ Vec3.le M0 (l.foldl (fun b s => (Vec3.min b.1 (Vec3.sub s.center (Vec3.splat s.radius)),
                       Vec3.max b.2 (Vec3.add s.center (Vec3.splat s.radius)))) (m0, M0)).2
      ∧ ∀ s ∈ l, InBox
          (l.foldl (fun b s => (Vec3.min b.1 (Vec3.sub s.center (Vec3.splat s.radius)),
                       Vec3.max b.2 (Vec3.add s.center (Vec3.splat s.radius)))) (m0, M0)).1
          (l.foldl (fun b s => (Vec3.min b.1 (Vec3.sub s.center (Vec3.splat s.radius)),
                       Vec3.max b.2 (Vec3.add s.center (Vec3.splat s.radius)))) (m0, M0)).2 s)
    ∧ ∀ m M, Vec3.le m m0 → Vec3.le M0 M → (∀ s ∈ l, InBox m M s) →
        Vec3.le m (l.foldl (fun b s => (Vec3.min b.1 (Vec3.sub s.center (Vec3.splat s.radius)),
                       Vec3.max b.2 (Vec3.add s.center (Vec3.splat s.radius)))) (m0, M0)).1
        ∧ Vec3.le (l.foldl (fun b s => (Vec3.min b.1 (Vec3.sub s.center (Vec3.splat s.radius)),
                       Vec3.max b.2 (Vec3.add s.center (Vec3.splat s.radius)))) (m0, M0)).2 M := by
  induction l generalizing m0 M0 with
  | nil =>
    exact ⟨⟨⟨le_refl _, le_refl _, le_refl _⟩, ⟨le_refl _, le_refl _, le_refl _⟩,
      fun s hs => by cases hs⟩, fun m M h1 h2 _ => ⟨h1, h2⟩⟩
  | cons a l ih =>
    simp only [List.foldl_cons]
    obtain ⟨⟨i1, i2, i3⟩, i4⟩ := ih (Vec3.min m0 (Vec3.sub a.center (Vec3.splat a.radius)))
      (Vec3.max M0 (Vec3.add a.center (Vec3.splat a.radius)))
    have hmin0 : Vec3.le (Vec3.min m0 (Vec3.sub a.center (Vec3.splat a.radius))) m0 := by
      simp only [Vec3.le, Vec3.min, glmMin_eq_min]
      exact ⟨min_le_left _ _, min_le_left _ _, min_le_left _ _⟩
    have hmina : Vec3.le (Vec3.min m0 (Vec3.sub a.center (Vec3.splat a.radius)))
        (Vec3.sub a.center (Vec3.splat a.radius)) := by
      simp only [Vec3.le, Vec3.min, glmMin_eq_min]
      exact ⟨min_le_right _ _, min_le_right _ _, min_le_right _ _⟩
    have hmax0 : Vec3.le M0 (Vec3.max M0 (Vec3.add a.center (Vec3.splat a.radius))) := by
      simp only [Vec3.le, Vec3.max, glmMax_eq_max]
      exact ⟨le_max_left _ _, le_max_left _ _, le_max_left _ _⟩
    have hmaxa : Vec3.le (Vec3.add a.center (Vec3.splat a.radius))
        (Vec3.max M0 (Vec3.add a.center (Vec3.splat a.radius))) := by
      simp only [Vec3.le, Vec3.max, glmMax_eq_max]
      exact ⟨le_max_right _ _, le_max_right _ _, le_max_right _ _⟩
    have tr : ∀ {u v w : Vec3}, Vec3.le u v → Vec3.le v w → Vec3.le u w := by
      intro u v w h1 h2
      exact ⟨le_trans h1.1 h2.1, le_trans h1.2.1 h2.2.1, le_trans h1.2.2 h2.2.2⟩
    refine ⟨⟨tr i1 hmin0, tr hmax0 i2, ?_⟩, ?_⟩
    · intro s hs
      rcases List.mem_cons.mp hs with e | e
      · subst e
        exact ⟨tr i1 hmina, tr hmaxa i2⟩
      · exact i3 s e
    · intro m M h1 h2 hall
      have ha := hall a (List.mem_cons_self _ _)
      apply i4 m M
      · simp only [Vec3.le, Vec3.min, glmMin_eq_min]
        exact ⟨le_min h1.1 ha.1.1, le_min h1.2.1 ha.1.2.1, le_min h1.2.2 ha.1.2.2⟩
      · simp only [Vec3.le, Vec3.max, glmMax_eq_max]
        exact ⟨max_le h2.1 ha.2.1, max_le h2.2.1 ha.2.2.1, max_le h2.2.2 ha.2.2.2⟩
      · exact fun s hs => hall s (List.mem_cons_of_mem _ hs)

theorem sumOver_sub_ge (f g : Nat → ℚ) (b : ℚ) (m j : Nat)
    (h : ∀ t, j ≤ t → t < j + m → b ≤ f t - g t) :
    (m : ℚ) * b ≤ sumOver f j m - sumOver g j m := by
  induction m generalizing j with
  | zero => simp [sumOver]
  | succ m ih =>
    simp only [sumOver]
    have h1 := h j (le_refl _) (by omega)
    have h2 := ih (j + 1) (fun t a1 a2 => h t (by omega) (by omega))
    push_cast
    linarith

theorem sumOver_add_le (f g : Nat → ℚ) (b : ℚ) (m j : Nat)
    (h : ∀ t, j ≤ t → t < j + m → f t + g t ≤ b) :
    sumOver f j m + sumOver g j m ≤ (m : ℚ) * b := by
  induction m generalizing j with
  | zero => simp [sumOver]
  | succ m ih =>
    simp only [sumOver]
    have h1 := h j (le_refl _) (by omega)
    have h2 := ih (j + 1) (fun t a1 a2 => h t (by omega) (by omega))
    push_cast
    linarith

/-- The mean of extents that lie in a box lies in the box. -/
theorem mean_inBox (cur : List PrimSphere) (m M : Vec3) (lo cnt : Nat) (hc : 0 < cnt)
    (h : ∀ t, lo ≤ t → t < lo + cnt → InBox m M (sphereAt cur t)) :
    InBox m M
      ⟨Vec3.divScalar (windowTotals cur lo cnt).1 ((cnt : Nat) : ℚ),
       (windowTotals cur lo cnt).2.1 / ((cnt : Nat) : ℚ)⟩ := by
  have hpos : (0 : ℚ) < (cnt : ℚ) := by exact_mod_cast hc
  have key1 : ∀ (f : PrimSphere → ℚ) (b : ℚ),
      (∀ t, lo ≤ t → t < lo + cnt → b ≤ f (sphereAt cur t) - (sphereAt cur t).radius) →
      b ≤ sumOver (fun t => f (sphereAt cur t)) lo cnt / (cnt : ℚ)
          - sumOver (fun t => (sphereAt cur t).radius) lo cnt / (cnt : ℚ) := by
    intro f b hb
    rw [← sub_div, le_div_iff₀ hpos, mul_comm]
    exact sumOver_sub_ge _ _ b cnt lo hb
  have key2 : ∀ (f : PrimSphere → ℚ) (b : ℚ),
      (∀ t, lo ≤ t → t < lo + cnt → f (sphereAt cur t) + (sphereAt cur t).radius ≤ b) →
      sumOver (fun t => f (sphereAt cur t)) lo cnt / (cnt : ℚ)
          + sumOver (fun t => (sphereAt cur t).radius) lo cnt / (cnt : ℚ) ≤ b := by
    intro f b hb
    rw [← add_div, div_le_iff₀ hpos, mul_comm]
    exact sumOver_add_le _ _ b cnt lo hb
  simp only [InBox, Vec3.le, windowTotals, Vec3.divScalar, Vec3.sub, Vec3.add, Vec3.splat]
  refine ⟨⟨?_, ?_, ?_⟩, ?_, ?_, ?_⟩
  · exact key1 (fun s => s.center.x) m.x (fun t a b => (h t a b).1.1)
  · exact key1 (fun s => s.center.y) m.y (fun t a b => (h t a b).1.2.1)
  · exact key1 (fun s => s.center.z) m.z (fun t a b => (h t a b).1.2.2)
  · exact key2 (fun s => s.center.x) M.x (fun t a b => (h t a b).2.1)
  · exact key2 (fun s => s.center.y) M.y (fun t a b => (h t a b).2.2.1)
  · exact key2 (fun s => s.center.z) M.z (fun t a b => (h t a b).2.2.2)

end Dilay

namespace Dilay

open SketchPath

/-- One step of a pass with effect `None` keeps every sphere inside a box that
held all spheres before the step. -/
theorem smoothStep_none_inBox (P : Prims) (range : PrimSphere) (halfWidth : Nat)
    (nF nL : Option PrimSphere) (numS : Nat) (hn : numS < 2147483648) (m M : Vec3)
    (i : Nat) (s out : List PrimSphere) (hi : i < numS)
    (hinv : s.length = numS ∧ ∀ t, t < numS → InBox m M (sphereAt s t))
    (h : smoothStep P range halfWidth SketchPathSmoothEffect.None nF nL numS s i = some out) :
    out.length = numS ∧ ∀ t, t < numS → InBox m M (sphereAt out t) := by
  obtain ⟨hlen, hbox⟩ := hinv
  obtain ⟨si, hsi, hc⟩ := smoothStep_cases P range halfWidth _ nF nL numS s out i h
  have hsi2 := getElem?_eq_some_sphereAt s i si hsi
  rcases hc with ⟨_, e⟩ | ⟨hr, v, e⟩
  · rw [e]
    exact ⟨hlen, hbox⟩
  · rw [← hsi2] at hr
    rw [← hlen] at h
    obtain ⟨a1, a2, a3⟩ := smoothStep_affected_at P range halfWidth SketchPathSmoothEffect.None
      nF nL s out i (by omega) (by omega) hr h
    rw [hlen] at a1 a2 a3
    rw [applyEffect_none] at a3
    have hdiv : u32 (2 * halfWidthAt numS halfWidth i + 1 + (windowTotals s
        (i - halfWidthAt numS halfWidth i) (2 * halfWidthAt numS halfWidth i + 1)).2.2.1)
        = 2 * halfWidthAt numS halfWidth i + 1 := by
      simp only [windowTotals]
      unfold u32
      omega
    have hdiv2 : u32 (2 * halfWidthAt numS halfWidth i + 1 + (windowTotals s
        (i - halfWidthAt numS halfWidth i) (2 * halfWidthAt numS halfWidth i + 1)).2.2.2)
        = 2 * halfWidthAt numS halfWidth i + 1 := by
      simp only [windowTotals]
      unfold u32
      omega
    rw [hdiv, hdiv2] at a3
    have hmean := mean_inBox s m M (i - halfWidthAt numS halfWidth i)
      (2 * halfWidthAt numS halfWidth i + 1) (by omega)
      (fun t _ h2 => hbox t (by omega))
    refine ⟨by rw [e, List.length_set, hlen], ?_⟩
    intro t ht
    by_cases c : i = t
    · subst c
      rw [a3]
      exact hmean
    · rw [e, sphereAt_set_ne s i t v c]
      exact hbox t ht

theorem cached_encloses (p : SketchPath) (hc : Cached p) :
    Vec3.le p.minimum (Vec3.splat floatMax) ∧ Vec3.le (Vec3.splat floatLowest) p.maximum
    ∧ ∀ s ∈ p.spheres, InBox p.minimum p.maximum s := by
  obtain ⟨h1, h2⟩ := hc
  obtain ⟨⟨a1, a2, a3⟩, _⟩ := bounds_foldl_spec p.spheres (Vec3.splat floatMax)
    (Vec3.splat floatLowest)
  rw [h1, h2]
  exact ⟨a1, a2, a3⟩

/-- C17: on every reachable path of fewer than `2 ^ 31` spheres, a completed
`smooth` with effect `None` does not grow the box: the minimum after the call
is componentwise at least the minimum before, and the maximum after is
componentwise at most the maximum before. -/
theorem smooth_none_box (P : Prims) (p q : SketchPath) (range : PrimSphere) (halfWidth : Nat)
    (nearestToFirst nearestToLast : Option PrimSphere)
    (hreach : Reachable P p) (hn : p.spheres.length < 2147483648)
    (h : smooth P p range halfWidth SketchPathSmoothEffect.None nearestToFirst nearestToLast
      = some q) :
    Vec3.le p.minimum q.minimum ∧ Vec3.le q.maximum p.maximum := by
  have hu : u32 p.spheres.length = p.spheres.length := Nat.mod_eq_of_lt (by omega)
  obtain ⟨e1, e2, e3⟩ := cached_encloses p (cached_of_reachable P p hreach)
  obtain ⟨hl, hq⟩ := smooth_loop P p q range halfWidth _ nearestToFirst nearestToLast h
  rw [hu] at hl
  have hinv := smoothLoop_invariant P range halfWidth SketchPathSmoothEffect.None
    nearestToFirst nearestToLast p.spheres.length
    (fun s => s.length = p.spheres.length
      ∧ ∀ t, t < p.spheres.length → InBox p.minimum p.maximum (sphereAt s t))
    (fun i s out hi hs hstep => smoothStep_none_inBox P range halfWidth nearestToFirst
      nearestToLast p.spheres.length hn p.minimum p.maximum i s out hi hs hstep)
    p.spheres.length 0 (by omega) p.spheres q.spheres hl
    ⟨rfl, fun t ht => e3 _ (List.getElem?_mem (getElem?_eq_sphereAt p.spheres t ht))⟩
  obtain ⟨hlen, hbox⟩ := hinv
  have hall : ∀ s ∈ q.spheres, InBox p.minimum p.maximum s := by
    intro s hs
    obtain ⟨t, ht⟩ := List.mem_iff_getElem?.mp hs
    have hlt : t < q.spheres.length := by
      by_contra c
      rw [List.getElem?_eq_none (by omega)] at ht
      cases ht
    rw [← getElem?_eq_some_sphereAt q.spheres t s ht]
    exact hbox t (by omega)
  obtain ⟨_, great⟩ := bounds_foldl_spec q.spheres (Vec3.splat floatMax) (Vec3.splat floatLowest)
  have hb := great p.minimum p.maximum e1 e2 hall
  have hqm : q.minimum = (boundsOf q.spheres).1 ∧ q.maximum = (boundsOf q.spheres).2 := by
    have := setMinMax_eq { p with spheres := q.spheres }
    rw [← hq] at this
    rw [this]
    exact ⟨rfl, rfl⟩
  rw [hqm.1, hqm.2]
  exact hb

end Dilay

namespace Dilay

open SketchPath

/-- C17 on four unit spheres at x = 0, 3, 0, 0 with `halfWidth = 1`: the pass
moves the spheres to x = 0, 1, 1/3, 0 and the box does not grow. -/
theorem smooth_none_box_witness :
    ∃ q, smooth samplePrims kinkPath wideRange 1 SketchPathSmoothEffect.None none none = some q
      ∧ q.spheres = [sphereOnX 0 1, sphereOnX 1 1, sphereOnX (1 / 3) 1, sphereOnX 0 1]
      ∧ (Reachable samplePrims kinkPath ∧ kinkPath.spheres.length < 2147483648)
      ∧ (Vec3.le kinkPath.minimum q.minimum ∧ Vec3.le q.maximum kinkPath.maximum) := by
  have h := smooth_kinkPath_spheres
  have hr : Reachable samplePrims kinkPath :=
    Reachable.addSphere _ _ _ (Reachable.addSphere _ _ _ (Reachable.addSphere _ _ _
      (Reachable.addSphere _ _ _ Reachable.fresh)))
  have hn : kinkPath.spheres.length < 2147483648 := by
    rw [kinkPath_spheres]
    decide
  cases hq : smooth samplePrims kinkPath wideRange 1 SketchPathSmoothEffect.None none none with
  | none => rw [hq] at h; cases h
  | some q =>
    rw [hq] at h
    exact ⟨q, rfl, Option.some.inj h, ⟨hr, hn⟩,
      smooth_none_box samplePrims kinkPath q wideRange 1 none none hr hn hq⟩

end Dilay

namespace Dilay

open SketchPath

/-! ## What a throwing `smooth` leaves behind -/

theorem smoothLoopLeft_of_some (P : Prims) (range : PrimSphere) (halfWidth : Nat)
    (effect : SketchPathSmoothEffect) (nF nL : Option PrimSphere) (numS : Nat)
    (k i : Nat) (spheres out : List PrimSphere)
    (h : smoothLoop P range halfWidth effect nF nL numS i k spheres = some out) :
    smoothLoopLeft P range halfWidth effect nF nL numS i k spheres = (out, true) := by
  induction k generalizing i spheres with
  | zero =>
    simp only [smoothLoop] at h
    simp only [smoothLoopLeft, Option.some.inj h]
  | succ k ih =>
    simp only [smoothLoop] at h
    cases hs : smoothStep P range halfWidth effect nF nL numS spheres i with
    | none => simp [hs] at h
    | some s1 =>
      simp only [hs] at h
      simp only [smoothLoopLeft, hs]
      exact ih (i + 1) s1 h

theorem smoothLoopLeft_of_none (P : Prims) (range : PrimSphere) (halfWidth : Nat)
    (effect : SketchPathSmoothEffect) (nF nL : Option PrimSphere) (numS : Nat)
    (k i : Nat) (spheres : List PrimSphere)
    (h : smoothLoop P range halfWidth effect nF nL numS i k spheres = none) :
    (smoothLoopLeft P range halfWidth effect nF nL numS i k spheres).2 = false := by
  induction k generalizing i spheres with
  | zero => simp [smoothLoop] at h
  | succ k ih =>
    simp only [smoothLoop] at h
    cases hs : smoothStep P range halfWidth effect nF nL numS spheres i with
    | none => simp only [smoothLoopLeft, hs]
    | some s1 =>
      simp only [hs] at h
      simp only [smoothLoopLeft, hs]
      exact ih (i + 1) s1 h

/-- A call of `smooth` that returns leaves behind the path `smooth` computes. -/
theorem smoothLeft_of_some (P : Prims) (p q : SketchPath) (range : PrimSphere) (halfWidth : Nat)
    (effect : SketchPathSmoothEffect) (nF nL : Option PrimSphere)
    (h : smooth P p range halfWidth effect nF nL = some q) :
    smoothLeft P p range halfWidth effect nF nL = q := by
  obtain ⟨hl, hq⟩ := smooth_loop P p q range halfWidth effect nF nL h
  unfold smoothLeft
  simp only [smoothLoopLeft_of_some _ _ _ _ _ _ _ _ _ _ _ hl, if_true]
  exact hq.symm

/-- A call of `smooth` that throws leaves the corners as they were. -/
theorem smoothLeft_of_none (P : Prims) (p : SketchPath) (range : PrimSphere) (halfWidth : Nat)
    (effect : SketchPathSmoothEffect) (nF nL : Option PrimSphere)
    (h : smooth P p range halfWidth effect nF nL = none) :
    (smoothLeft P p range halfWidth effect nF nL).minimum = p.minimum
    ∧ (smoothLeft P p range halfWidth effect nF nL).maximum = p.maximum := by
  have hl : smoothLoop P range halfWidth effect nF nL (u32 p.spheres.length) 0
      (u32 p.spheres.length) p.spheres = none := by
    unfold smooth at h
    simp only at h
    cases hc : smoothLoop P range halfWidth effect nF nL (u32 p.spheres.length) 0
        (u32 p.spheres.length) p.spheres with
    | none => rfl
    | some out => simp [hc] at h
  unfold smoothLeft
  simp only [smoothLoopLeft_of_none _ _ _ _ _ _ _ _ _ _ hl]
  exact ⟨rfl, rfl⟩

theorem kinkPath_eq :
    kinkPath = ⟨[sphereOnX 0 1, sphereOnX 3 1, sphereOnX 0 1, sphereOnX 0 1],
      ⟨-1, -1, -1⟩, ⟨4, 1, 1⟩⟩ := by
  simp [kinkPath, pathOf, sphereOnX, addSphere, new, resetMinMax, Vec3.min, Vec3.max,
    Vec3.add, Vec3.sub, Vec3.splat, glmMin, glmMax, floatMax, floatLowest]
  norm_num

/-- C1 (the code at the failing input): four unit spheres at x = 0, 3, 0, 0
are added to a fresh path (corners `(-1, -1, -1)` and `(4, 1, 1)`), then
`smooth` is called with `halfWidth = 3` and effect `None`.  Index 1 is
smoothed to x = 1, at index 2 the window read at index 4 throws, and the call
leaves the spheres at x = 0, 1, 0, 0 with the old maximum `(4, 1, 1)`, while
the componentwise maximum of center + radius over these spheres is
`(2, 1, 1)`. -/
theorem smooth_throw_leaves_stale_corners :
    Reachable samplePrims kinkPath
    ∧ (∀ a ∈ kinkPath.spheres, ValidSphere a)
    ∧ smooth samplePrims kinkPath wideRange 3 SketchPathSmoothEffect.None none none = none
    ∧ smoothLeft samplePrims kinkPath wideRange 3 SketchPathSmoothEffect.None none none
        = ⟨[sphereOnX 0 1, sphereOnX 1 1, sphereOnX 0 1, sphereOnX 0 1],
            ⟨-1, -1, -1⟩, ⟨4, 1, 1⟩⟩
    ∧ upperCorner (sphereOnX 0 1) [sphereOnX 1 1, sphereOnX 0 1, sphereOnX 0 1] = ⟨2, 1, 1⟩
    ∧ (smoothLeft samplePrims kinkPath wideRange 3 SketchPathSmoothEffect.None none none).maximum
        ≠ upperCorner (sphereOnX 0 1) [sphereOnX 1 1, sphereOnX 0 1, sphereOnX 0 1] := by
  have hr : Reachable samplePrims kinkPath :=
    Reachable.addSphere _ _ _ (Reachable.addSphere _ _ _ (Reachable.addSphere _ _ _
      (Reachable.addSphere _ _ _ Reachable.fresh)))
  have hv : ∀ a ∈ kinkPath.spheres, ValidSphere a := by
    intro a ha
    rw [kinkPath_spheres] at ha
    simp only [List.mem_cons, List.mem_singleton, List.not_mem_nil, or_false] at ha
    rcases ha with h | h | h | h <;> subst h <;>
      exact sphereOnX_valid _ (by norm_num) (by norm_num)
  have hnone : smooth samplePrims kinkPath wideRange 3 SketchPathSmoothEffect.None none none
      = none := by
    simp [smooth, kinkPath_spheres, smoothLoop, smoothStep, windowSum, windowLoop, halfWidthAt,
      applyEffect, u32, sub32, add32, wideRange, sphereOnX, samplePrims, Vec3.dot, Vec3.sub,
      Vec3.add, Vec3.splat, Vec3.divScalar]
    norm_num
  have hleft : smoothLeft samplePrims kinkPath wideRange 3 SketchPathSmoothEffect.None none none
      = ⟨[sphereOnX 0 1, sphereOnX 1 1, sphereOnX 0 1, sphereOnX 0 1],
          ⟨-1, -1, -1⟩, ⟨4, 1, 1⟩⟩ := by
    rw [kinkPath_eq]
    simp [smoothLeft, smoothLoopLeft, smoothStep, windowSum, windowLoop, halfWidthAt,
      applyEffect, u32, sub32, add32, wideRange, sphereOnX, samplePrims, Vec3.dot, Vec3.sub,
      Vec3.add, Vec3.splat, Vec3.divScalar]
    norm_num
  have hup : upperCorner (sphereOnX 0 1) [sphereOnX 1 1, sphereOnX 0 1, sphereOnX 0 1]
      = ⟨2, 1, 1⟩ := by
    simp [upperCorner, maxOver, sphereOnX]
    norm_num
  refine ⟨hr, hv, hnone, hleft, hup, ?_⟩
  rw [hleft, hup]
  intro e
  have ex := congrArg Vec3.x e
  norm_num at ex

/-! ### The last-end test for `halfWidth > count`, effect `Pinch` -/

/-- C15 (the code at the failing input): one sphere of radius 1,
`halfWidth = 2`, effect `Pinch`.  Index 0 is affected, its window `{0}` is read
and it is within `halfWidth` of both ends (`0 < 2` and `count − 1 − 0 < 2`);
the unsigned `numS - halfWidth` is `4294967295`, so only the first-end block
counts: the radius count is 1 and the new radius is `1 / (1 + 1)`, where one
count per end gives `1 / (1 + 2)`. -/
theorem smooth_pinch_last_end_skipped :
    samplePrims.intersectsSphereSphere wideRange (sphereOnX 0 1) = true
    ∧ (∀ s ∈ unitPath.spheres, 0 ≤ s.radius)
    ∧ windowSum unitPath.spheres 0 (halfWidthAt 1 2 0) = some (⟨0, 0, 0⟩, 1)
    ∧ (0 < 2 ∧ 1 - 1 - 0 < 2)
    ∧ sub32 1 2 = 4294967295
    ∧ applyEffect SketchPathSmoothEffect.Pinch none none 1 2 0 (⟨0, 0, 0⟩, 1, 0, 0)
        = (⟨0, 0, 0⟩, 1, 0, 1)
    ∧ (smooth samplePrims unitPath wideRange 2 SketchPathSmoothEffect.Pinch none none).map
          (fun q => q.spheres) = some [sphereOnX 0 (1 / 2)]
    ∧ (1 : ℚ) / 2 ≠ 1 / (2 * 0 + 1 + 2) := by
  refine ⟨?_, ?_, ?_, by decide, by decide, ?_, ?_, by norm_num⟩
  · simp [samplePrims, wideRange, sphereOnX, Vec3.dot, Vec3.sub]
    norm_num
  · intro s hs
    rw [unitPath_spheres] at hs
    simp only [List.mem_singleton] at hs
    subst hs
    simp [sphereOnX]
  · simp [unitPath_spheres, windowSum, windowLoop, halfWidthAt, sub32, add32, sphereOnX,
      Vec3.add, Vec3.splat]
  · simp [applyEffect, applyEnd, sub32, add32]
  · simp [smooth, unitPath_spheres, smoothLoop, smoothStep, windowSum, windowLoop, halfWidthAt,
      applyEffect, applyEnd, u32, sub32, add32, wideRange, sphereOnX, samplePrims, Vec3.dot,
      Vec3.sub, Vec3.add, Vec3.splat, Vec3.divScalar]
    norm_num

end Dilay
